import Mathlib

/-!
# membersys: the record lifecycle and storage layer (`db.go`)

A shallow embedding of the storage layer of the membership system and the
properties of its stage transitions and field updates.

Conventions of the embedding

* A Go `string` and a Go `[]byte` are both a list of bytes (`Bytes`); a byte is a
  natural number.  String constants of the source are written `str "..."`; all
  of them are ASCII, so the list of code points is the UTF-8 encoding.
* A Go pointer that may be nil is an `Option`; dereferencing nil is the error
  `Error.NilDereference` (the Go program panics there).
* Every method of `MembershipDB` returns what the Go method returns (`value`,
  `err`) together with the list of calls it issued on the store client
  (`calls`), in the order issued.  The answers of the store client are given by
  a `Conn`; the external library functions (protobuf codec, UUID parsing and
  generation) are given by a `Lib`.
* Every method issues its reads before its only write, so running a method
  against a store means: answer the reads from the store, then apply the
  mutations of `calls`.
-/

namespace membersys

/-! ## Bytes, strings, time -/

abbrev Bytes := List Nat

/-- The bytes of an ASCII string constant. -/
def str (s : String) : Bytes := s.toList.map Char.toNat

/-- Go `time.Time`, as nanoseconds since the epoch. -/
structure Time where
  nsec : Int
deriving DecidableEq, Repr

/-- Go `now.UnixNano()`. -/
def Time.UnixNano (t : Time) : Int := t.nsec

/-- Go `now.Unix()`: whole seconds since the epoch. -/
def Time.Unix (t : Time) : Int := t.nsec / 1000000000

/-- Go conversion `uint64(x)` of an `int64`. -/
def uint64 (x : Int) : Nat := (x % 2 ^ 64).toNat

/-- Go `binary.BigEndian.PutUint64` into a fresh slice of 8 bytes. -/
def PutUint64 (v : Nat) : Bytes :=
  [v / 2 ^ 56 % 256, v / 2 ^ 48 % 256, v / 2 ^ 40 % 256, v / 2 ^ 32 % 256,
   v / 2 ^ 24 % 256, v / 2 ^ 16 % 256, v / 2 ^ 8 % 256, v % 256]

/-- Go `binary.BigEndian.Uint64`; `none` where Go panics (fewer than 8 bytes). -/
def Uint64 (b : Bytes) : Option Nat :=
  match b with
  | b0 :: b1 :: b2 :: b3 :: b4 :: b5 :: b6 :: b7 :: _ =>
    some (b7 % 256 + 2 ^ 8 * (b6 % 256) + 2 ^ 16 * (b5 % 256) + 2 ^ 24 * (b4 % 256)
      + 2 ^ 32 * (b3 % 256) + 2 ^ 40 * (b2 % 256) + 2 ^ 48 * (b1 % 256)
      + 2 ^ 56 * (b0 % 256))
  | _ => none

/-- The one-byte encoding of a boolean column (`bdata[0] = 1` or `0`). -/
def boolByte (b : Bool) : Bytes := if b then [1] else [0]

/-- The decoding `col.Value[0] == 1` of a boolean column; `none` where Go
panics (empty value). -/
def byteBool (b : Bytes) : Option Bool :=
  match b with
  | x :: _ => some (decide (x = 1))
  | [] => none

/-- One lowercase hexadecimal digit. -/
def hexDigit (n : Nat) : Nat := if n < 10 then 48 + n else 87 + n

/-- Go `hex.EncodeToString`. -/
def hexEncodeToString (b : Bytes) : Bytes :=
  b.flatMap (fun x => [hexDigit (x / 16 % 16), hexDigit (x % 16)])

/-! ## Stage prefixes and column names -/

def applicationPrefix : Bytes := str "applicant:"
def applicationEnd : Bytes := str "applicant;"
def queuePrefix : Bytes := str "queue:"
def queueEnd : Bytes := str "queue;"
def dequeuePrefix : Bytes := str "dequeue:"
def dequeueEnd : Bytes := str "dequeue;"
def archivePrefix : Bytes := str "archive:"
def archiveEnd : Bytes := str "archive;"
def memberPrefix : Bytes := str "member:"
def memberEnd : Bytes := str "member;"

/-- List of all relevant columns. -/
def allColumns : List Bytes :=
  [str "name", str "street", str "city", str "zipcode",
   str "country", str "email", str "email_verified",
   str "phone", str "fee", str "username", str "pwhash",
   str "fee_yearly", str "has_key", str "payments_caught_up_to",
   str "sourceip", str "useragent", str "metadata",
   str "pb_data", str "application_pdf", str "agreement_pdf",
   str "approval_ts"]

/-! ## The protobuf messages -/

/-- Modelled from the spec: the generated protobuf declaration of `Member` is
not part of the sources; the fields are the ones `db.go` and the form handler
access (identity, account, financial fields and the key-issuance flag). -/
structure Member where
  Name : Option Bytes := none
  Street : Option Bytes := none
  City : Option Bytes := none
  Zipcode : Option Bytes := none
  Country : Option Bytes := none
  Email : Option Bytes := none
  Phone : Option Bytes := none
  Fee : Option Nat := none
  Username : Option Bytes := none
  Pwhash : Option Bytes := none
  FeeYearly : Option Bool := none
  HasKey : Option Bool := none
  PaymentsCaughtUpTo : Option Nat := none
deriving DecidableEq, Repr

/-- Modelled from the spec: the generated protobuf declaration of
`MembershipMetadata` is not part of the sources; the fields are the ones
`db.go` and the form handler access (source IP, user agent, comment, approver
id, approval and goodbye timestamps and reasons). -/
structure MembershipMetadata where
  RequestTimestamp : Option Nat := none
  RequestSourceIp : Option Bytes := none
  UserAgent : Option Bytes := none
  Comment : Option Bytes := none
  ApproverUid : Option Bytes := none
  ApprovalTimestamp : Option Nat := none
  GoodbyeInitiator : Option Bytes := none
  GoodbyeTimestamp : Option Nat := none
  GoodbyeReason : Option Bytes := none
deriving DecidableEq, Repr

/-- Modelled from the spec: the generated protobuf declaration of
`MembershipAgreement` is not part of the sources; it is the canonical form of a
record: member data, metadata and the scanned agreement. -/
structure MembershipAgreement where
  MemberData : Option Member := none
  Metadata : Option MembershipMetadata := none
  AgreementPdf : Bytes := []
deriving DecidableEq, Repr

/-- Data used by the HTML template (`FormInputData`). -/
structure FormInputData where
  MemberData : Option Member := none
  Metadata : Option MembershipMetadata := none
  Key : Bytes := []
  CommonErr : Bytes := []
  FieldErr : List (Bytes × Bytes) := []
deriving DecidableEq, Repr

/-! ## The store client interface -/

inductive ConsistencyLevel where
  | ONE
  | QUORUM
deriving DecidableEq, Repr

/-- The errors of the store client. -/
inductive StoreError where
  | NotFound
  | Unavailable
deriving DecidableEq, Repr

/-- The errors a method returns: the ones of the store client, passed on, the
ones of the library functions, and the ones `db.go` creates itself. -/
inductive Error where
  | Store (e : StoreError)
  | ParseUUID
  | GenTimeUUID
  | Unmarshal
  | Marshal
  | NoAgreement
  | UnknownField (field : Bytes)
  | CannotModifyUserName
  | NilDereference
  | IndexOutOfRange
  | Internal (e : StoreError)
  | DataLoss (column : Bytes)
  | NotFound
deriving DecidableEq, Repr

/-- Thrift `Column`. -/
structure Column where
  Name : Bytes := []
  Value : Bytes := []
  Timestamp : Option Int := none
  TTL : Option Int := none
deriving DecidableEq, Repr

/-- Thrift `Deletion`; `Predicate` holds the `ColumnNames` of its slice
predicate. -/
structure Deletion where
  Timestamp : Option Int := none
  Predicate : Option (List Bytes) := none
deriving DecidableEq, Repr

/-- Thrift `Mutation`; `ColumnOrSupercolumn` holds the `Column` of the
`ColumnOrSuperColumn` (super columns are not used). -/
structure Mutation where
  ColumnOrSupercolumn : Option Column := none
  Deletion : Option Deletion := none
deriving DecidableEq, Repr

/-- Thrift `ColumnPath`. -/
structure ColumnPath where
  ColumnFamily : Bytes := []
  Column : Bytes := []
deriving DecidableEq, Repr

/-- Thrift `ColumnParent`. -/
structure ColumnParent where
  ColumnFamily : Bytes := []
deriving DecidableEq, Repr

/-- Thrift `SlicePredicate`, with its `ColumnNames`. -/
structure SlicePredicate where
  ColumnNames : List Bytes := []
deriving DecidableEq, Repr

/-- Thrift `IndexOperator`. -/
inductive IndexOperator where
  | EQ
deriving DecidableEq, Repr

/-- Thrift `IndexExpression`. -/
structure IndexExpression where
  ColumnName : Bytes := []
  Op : IndexOperator := IndexOperator.EQ
  Value : Bytes := []
deriving DecidableEq, Repr

/-- Thrift `KeyRange`; `cassandra.NewKeyRange` sets `Count` to 100. -/
structure KeyRange where
  StartKey : Bytes := []
  EndKey : Bytes := []
  RowFilter : List IndexExpression := []
  Count : Int := 100
deriving DecidableEq, Repr

/-- Thrift `KeySlice`; `Columns` holds the `Column` of each
`ColumnOrSuperColumn`. -/
structure KeySlice where
  Key : Bytes := []
  Columns : List Column := []
deriving DecidableEq, Repr

/-- Go `map[string][]*cassandra.Mutation`, as an association list in order of
first assignment. -/
abbrev FamilyMap := List (Bytes × List Mutation)

/-- Go `map[string]map[string][]*cassandra.Mutation`. -/
abbrev MutationMap := List (Bytes × FamilyMap)

/-- Go map read `m[k]`; `none` for a missing key. -/
def mapGet {β : Type} (m : List (Bytes × β)) (k : Bytes) : Option β :=
  match m with
  | [] => none
  | (k1, v1) :: rest => if k1 = k then some v1 else mapGet rest k

/-- Go map assignment `m[k] = v`. -/
def mapSet {β : Type} (m : List (Bytes × β)) (k : Bytes) (v : β) : List (Bytes × β) :=
  match m with
  | [] => [(k, v)]
  | (k1, v1) :: rest => if k1 = k then (k, v) :: rest else (k1, v1) :: mapSet rest k v

/-- Go `m[k][f]`: the mutations of family `f` under partition key `k` (nil, the
empty list, when a key is missing). -/
def MutationMap.at (m : MutationMap) (k f : Bytes) : List Mutation :=
  ((mapGet ((mapGet m k).getD []) f)).getD []

/-- Go `m[k][f] = v` for an inner map `m[k]` that was made before. -/
def MutationMap.setAt (m : MutationMap) (k f : Bytes) (v : List Mutation) : MutationMap :=
  mapSet m k (mapSet ((mapGet m k).getD []) f v)

/-- Go `m[k] = make(map[string][]*cassandra.Mutation)`. -/
def MutationMap.make (m : MutationMap) (k : Bytes) : MutationMap := mapSet m k []

/-- A call issued on the store client. -/
inductive Call where
  | Get (key : Bytes) (cp : ColumnPath) (cl : ConsistencyLevel)
  | BatchMutate (mmap : MutationMap) (cl : ConsistencyLevel)
  | AtomicBatchMutate (mmap : MutationMap) (cl : ConsistencyLevel)
  | GetRangeSlices (cp : ColumnParent) (pred : SlicePredicate) (kr : KeyRange)
      (cl : ConsistencyLevel)
deriving DecidableEq, Repr

/-- The answers of the store client (`cassandra.RetryCassandraClient`). -/
structure Conn where
  Get : Bytes → ColumnPath → ConsistencyLevel → Except StoreError Column
  BatchMutate : MutationMap → ConsistencyLevel → Option StoreError
  AtomicBatchMutate : MutationMap → ConsistencyLevel → Option StoreError
  GetRangeSlices : ColumnParent → SlicePredicate → KeyRange → ConsistencyLevel →
    Except StoreError (List KeySlice)

/-- The external library functions: `proto.Marshal`, `proto.Unmarshal` (the
decoded message and the error), `cassandra.ParseUUID`, `cassandra.GenTimeUUID`
(`none` is an error), `cassandra.UUIDFromBytes` and the method `String` of
`cassandra.UUID`. -/
structure Lib where
  Marshal : MembershipAgreement → Option Bytes
  Unmarshal : Bytes → MembershipAgreement × Option Error
  ParseUUID : Bytes → Option Bytes
  GenTimeUUID : Time → Option Bytes
  UUIDFromBytes : Bytes → Bytes
  UUIDString : Bytes → Bytes

/-- What a method returns (`value`, `err`) and the calls it issued. -/
structure Outcome (α : Type) where
  value : α
  err : Option Error
  calls : List Call

/-! ## `db.go` -/

/-- Create a new mutation with the given name, value and time stamp. -/
def newCassandraMutationBytes (name : Bytes) (value : Bytes) (now : Time) (ttl : Int) :
    Mutation :=
  let now_long := now.UnixNano
  let col : Column := { Name := name, Value := value, Timestamp := some now_long }
  let col := if ttl > 0 then { col with TTL := some ttl } else col
  { ColumnOrSupercolumn := some col }

/-- Create a new mutation with the given name, value and time stamp. -/
def newCassandraMutationString (name value : Bytes) (now : Time) : Mutation :=
  newCassandraMutationBytes name value now 0

/-- Add a column to a membership request mutation map. -/
def addMembershipRequestInfoBytes (mmap : FamilyMap) (name : Bytes) (value : Bytes)
    (now : Time) : FamilyMap :=
  mapSet mmap (str "application")
    (((mapGet mmap (str "application")).getD []) ++ [newCassandraMutationBytes name value now 0])

/-- Add a column to a membership request mutation map, if the value is set and
not empty. -/
def addMembershipRequestInfoString (mmap : FamilyMap) (name : Bytes) (value : Option Bytes)
    (now : Time) : FamilyMap :=
  match value with
  | some v =>
    if v.length > 0 then
      mapSet mmap (str "application")
        (((mapGet mmap (str "application")).getD []) ++ [newCassandraMutationString name v now])
    else mmap
  | none => mmap

/-- Store the given membership request in the database. -/
def StoreMembershipRequest (conn : Conn) (lib : Lib) (now : Time) (req : FormInputData) :
    Outcome Bytes :=
  match lib.GenTimeUUID now with
  | none => ⟨[], some Error.GenTimeUUID, []⟩
  | some uuid =>
    let c_key := applicationPrefix ++ uuid
    let key := hexEncodeToString uuid
    match req.MemberData with
    | none => ⟨key, some Error.NilDereference, []⟩
    | some md =>
      let m : FamilyMap := [(str "application", [])]
      let m := addMembershipRequestInfoString m (str "name") md.Name now
      let m := addMembershipRequestInfoString m (str "street") md.Street now
      let m := addMembershipRequestInfoString m (str "city") md.City now
      let m := addMembershipRequestInfoString m (str "zipcode") md.Zipcode now
      let m := addMembershipRequestInfoString m (str "country") md.Country now
      let m := addMembershipRequestInfoString m (str "email") md.Email now
      let m := addMembershipRequestInfoBytes m (str "email_verified") [0] now
      let m := addMembershipRequestInfoString m (str "phone") md.Phone now
      let bdata := PutUint64 (md.Fee.getD 0)
      let m := addMembershipRequestInfoBytes m (str "fee") bdata now
      let m := addMembershipRequestInfoString m (str "username") md.Username now
      let m := addMembershipRequestInfoString m (str "pwhash") md.Pwhash now
      let m :=
        if md.FeeYearly.getD false then
          addMembershipRequestInfoBytes m (str "fee_yearly") [1] now
        else
          addMembershipRequestInfoBytes m (str "fee_yearly") [0] now
      match req.Metadata with
      | none => ⟨key, some Error.NilDereference, []⟩
      | some meta0 =>
        let m := addMembershipRequestInfoString m (str "sourceip") meta0.RequestSourceIp now
        let m := addMembershipRequestInfoString m (str "useragent") meta0.UserAgent now
        let meta1 :=
          if meta0.RequestTimestamp = none then
            { meta0 with RequestTimestamp := some (uint64 now.Unix) }
          else meta0
        let pb : MembershipAgreement := { MemberData := some md, Metadata := some meta1 }
        match lib.Marshal pb with
        | none => ⟨key, some Error.Marshal, []⟩
        | some bdata =>
          let m := addMembershipRequestInfoBytes m (str "pb_data") bdata now
          let bmods : MutationMap := [(c_key, m)]
          ⟨key, (conn.BatchMutate bmods ConsistencyLevel.QUORUM).map Error.Store,
            [Call.BatchMutate bmods ConsistencyLevel.QUORUM]⟩

/-- An assignment `member.MemberData.X = ...`: it dereferences
`member.MemberData`. -/
def assignMemberData (member : MembershipAgreement) (f : Member → Member) :
    Except Error MembershipAgreement :=
  match member.MemberData with
  | none => .error Error.NilDereference
  | some md => .ok { member with MemberData := some (f md) }

/-- The assignment of `SetMemberFee` to the decoded record. -/
def setFee (member : MembershipAgreement) (fee : Nat) (yearly : Bool) :
    Except Error MembershipAgreement :=
  assignMemberData member (fun md => { md with Fee := some fee, FeeYearly := some yearly })

/-- The branch on `field` of `SetLongValue`. -/
def setLongField (member : MembershipAgreement) (field : Bytes) (value : Nat) :
    Except Error MembershipAgreement :=
  if field = str "payments_caught_up_to" then
    assignMemberData member (fun md => { md with PaymentsCaughtUpTo := some value })
  else .error (Error.UnknownField field)

/-- The branch on `field` of `SetBoolValue`. -/
def setBoolField (member : MembershipAgreement) (field : Bytes) (value : Bool) :
    Except Error MembershipAgreement :=
  if field = str "has_key" then
    assignMemberData member (fun md => { md with HasKey := some value })
  else .error (Error.UnknownField field)

/-- The branch on `field` of `SetTextValue`. -/
def setTextField (member : MembershipAgreement) (field value : Bytes) :
    Except Error MembershipAgreement :=
  if field = str "name" then
    assignMemberData member (fun md => { md with Name := some value })
  else if field = str "street" then
    assignMemberData member (fun md => { md with Street := some value })
  else if field = str "city" then
    assignMemberData member (fun md => { md with City := some value })
  else if field = str "zipcode" then
    assignMemberData member (fun md => { md with Zipcode := some value })
  else if field = str "country" then
    assignMemberData member (fun md => { md with Country := some value })
  else if field = str "phone" then
    assignMemberData member (fun md => { md with Phone := some value })
  else if field = str "username" then
    match member.MemberData with
    | none => .error Error.NilDereference
    | some md =>
      if md.Username ≠ none ∧ md.Username ≠ some [] then .error Error.CannotModifyUserName
      else .ok { member with MemberData := some { md with Username := some value } }
  else .error (Error.UnknownField field)

/-- Update the membership fee for the given member. -/
def SetMemberFee (conn : Conn) (lib : Lib) (now : Time) (id : Bytes) (fee : Nat) (yearly : Bool) :
    Outcome Unit :=
  let ts := now.UnixNano
  let cp : ColumnPath := { ColumnFamily := str "members", Column := str "pb_data" }
  let get := Call.Get (memberPrefix ++ id) cp ConsistencyLevel.ONE
  match conn.Get (memberPrefix ++ id) cp ConsistencyLevel.ONE with
  | .error e => ⟨(), some (Error.Store e), [get]⟩
  | .ok r =>
    match lib.Unmarshal r.Value with
    | (_, some e) => ⟨(), some e, [get]⟩
    | (member, none) =>
      match setFee member fee yearly with
      | .error e => ⟨(), some e, [get]⟩
      | .ok member =>
        match lib.Marshal member with
        | none => ⟨(), some Error.Marshal, [get]⟩
        | some pb =>
          let r := { r with Value := pb, Timestamp := some ts }
          let mu : Mutation := { ColumnOrSupercolumn := some r }
          let mmap : MutationMap := [(memberPrefix ++ id, [])]
          let mmap := mmap.setAt (memberPrefix ++ id) (str "members") []
          let mmap := mmap.setAt (memberPrefix ++ id) (str "member_agreements") []
          let mmap := mmap.setAt (memberPrefix ++ id) (str "members")
            (mmap.at (memberPrefix ++ id) (str "members") ++ [mu])
          let mmap := mmap.setAt (memberPrefix ++ id) (str "member_agreements")
            (mmap.at (memberPrefix ++ id) (str "member_agreements") ++ [mu])
          let mu := newCassandraMutationBytes (str "fee") (PutUint64 fee) now 0
          let mmap := mmap.setAt (memberPrefix ++ id) (str "members")
            (mmap.at (memberPrefix ++ id) (str "members") ++ [mu])
          let mu := newCassandraMutationBytes (str "fee_yearly") (if yearly then [1] else [0]) now 0
          let mmap := mmap.setAt (memberPrefix ++ id) (str "members")
            (mmap.at (memberPrefix ++ id) (str "members") ++ [mu])
          ⟨(), (conn.AtomicBatchMutate mmap ConsistencyLevel.QUORUM).map Error.Store,
            [get, Call.AtomicBatchMutate mmap ConsistencyLevel.QUORUM]⟩

/-- Update the specified long field for the given member. -/
def SetLongValue (conn : Conn) (lib : Lib) (now : Time) (id : Bytes) (field : Bytes) (value : Nat) :
    Outcome Unit :=
  let ts := now.UnixNano
  let cp : ColumnPath := { ColumnFamily := str "members", Column := str "pb_data" }
  let get := Call.Get (memberPrefix ++ id) cp ConsistencyLevel.ONE
  match conn.Get (memberPrefix ++ id) cp ConsistencyLevel.ONE with
  | .error e => ⟨(), some (Error.Store e), [get]⟩
  | .ok r =>
    match lib.Unmarshal r.Value with
    | (_, some e) => ⟨(), some e, [get]⟩
    | (member, none) =>
      match setLongField member field value with
      | .error e => ⟨(), some e, [get]⟩
      | .ok member =>
        match lib.Marshal member with
        | none => ⟨(), some Error.Marshal, [get]⟩
        | some pb =>
          let r := { r with Value := pb, Timestamp := some ts }
          let mu : Mutation := { ColumnOrSupercolumn := some r }
          let mmap : MutationMap := [(memberPrefix ++ id, [])]
          let mmap := mmap.setAt (memberPrefix ++ id) (str "members") []
          let mmap := mmap.setAt (memberPrefix ++ id) (str "member_agreements") []
          let mmap := mmap.setAt (memberPrefix ++ id) (str "members")
            (mmap.at (memberPrefix ++ id) (str "members") ++ [mu])
          let mmap := mmap.setAt (memberPrefix ++ id) (str "member_agreements")
            (mmap.at (memberPrefix ++ id) (str "member_agreements") ++ [mu])
          let mu := newCassandraMutationBytes field (PutUint64 value) now 0
          let mmap := mmap.setAt (memberPrefix ++ id) (str "members")
            (mmap.at (memberPrefix ++ id) (str "members") ++ [mu])
          ⟨(), (conn.AtomicBatchMutate mmap ConsistencyLevel.QUORUM).map Error.Store,
            [get, Call.AtomicBatchMutate mmap ConsistencyLevel.QUORUM]⟩

/-- Update the specified boolean field for the given member. -/
def SetBoolValue (conn : Conn) (lib : Lib) (now : Time) (id : Bytes) (field : Bytes) (value : Bool) :
    Outcome Unit :=
  let ts := now.UnixNano
  let cp : ColumnPath := { ColumnFamily := str "members", Column := str "pb_data" }
  let get := Call.Get (memberPrefix ++ id) cp ConsistencyLevel.ONE
  match conn.Get (memberPrefix ++ id) cp ConsistencyLevel.ONE with
  | .error e => ⟨(), some (Error.Store e), [get]⟩
  | .ok r =>
    match lib.Unmarshal r.Value with
    | (_, some e) => ⟨(), some e, [get]⟩
    | (member, none) =>
      match setBoolField member field value with
      | .error e => ⟨(), some e, [get]⟩
      | .ok member =>
        match lib.Marshal member with
        | none => ⟨(), some Error.Marshal, [get]⟩
        | some pb =>
          let r := { r with Value := pb, Timestamp := some ts }
          let mu : Mutation := { ColumnOrSupercolumn := some r }
          let mmap : MutationMap := [(memberPrefix ++ id, [])]
          let mmap := mmap.setAt (memberPrefix ++ id) (str "members") []
          let mmap := mmap.setAt (memberPrefix ++ id) (str "member_agreements") []
          let mmap := mmap.setAt (memberPrefix ++ id) (str "members")
            (mmap.at (memberPrefix ++ id) (str "members") ++ [mu])
          let mmap := mmap.setAt (memberPrefix ++ id) (str "member_agreements")
            (mmap.at (memberPrefix ++ id) (str "member_agreements") ++ [mu])
          let mu := newCassandraMutationBytes field (if value then [1] else [0]) now 0
          let mmap := mmap.setAt (memberPrefix ++ id) (str "members")
            (mmap.at (memberPrefix ++ id) (str "members") ++ [mu])
          ⟨(), (conn.AtomicBatchMutate mmap ConsistencyLevel.QUORUM).map Error.Store,
            [get, Call.AtomicBatchMutate mmap ConsistencyLevel.QUORUM]⟩

/-- Update the specified text column on the membership data. -/
def SetTextValue (conn : Conn) (lib : Lib) (now : Time) (id : Bytes) (field value : Bytes) :
    Outcome Unit :=
  let ts := now.UnixNano
  let cp : ColumnPath := { ColumnFamily := str "members", Column := str "pb_data" }
  let get := Call.Get (memberPrefix ++ id) cp ConsistencyLevel.ONE
  match conn.Get (memberPrefix ++ id) cp ConsistencyLevel.ONE with
  | .error e => ⟨(), some (Error.Store e), [get]⟩
  | .ok r =>
    match lib.Unmarshal r.Value with
    | (_, some e) => ⟨(), some e, [get]⟩
    | (member, none) =>
      match setTextField member field value with
      | .error e => ⟨(), some e, [get]⟩
      | .ok member =>
        match lib.Marshal member with
        | none => ⟨(), some Error.Marshal, [get]⟩
        | some pb =>
          let r := { r with Value := pb, Timestamp := some ts }
          let mu : Mutation := { ColumnOrSupercolumn := some r }
          let mmap : MutationMap := [(memberPrefix ++ id, [])]
          let mmap := mmap.setAt (memberPrefix ++ id) (str "members") []
          let mmap := mmap.setAt (memberPrefix ++ id) (str "member_agreements") []
          let mmap := mmap.setAt (memberPrefix ++ id) (str "members")
            (mmap.at (memberPrefix ++ id) (str "members") ++ [mu])
          let mmap := mmap.setAt (memberPrefix ++ id) (str "member_agreements")
            (mmap.at (memberPrefix ++ id) (str "member_agreements") ++ [mu])
          let mu := newCassandraMutationString field value now
          let mmap := mmap.setAt (memberPrefix ++ id) (str "members")
            (mmap.at (memberPrefix ++ id) (str "members") ++ [mu])
          ⟨(), (conn.AtomicBatchMutate mmap ConsistencyLevel.QUORUM).map Error.Store,
            [get, Call.AtomicBatchMutate mmap ConsistencyLevel.QUORUM]⟩

/-- Retrieve an individual applicants data: the decoded record, the write
time stamp of its `pb_data` column, and the error. -/
def GetMembershipRequest (conn : Conn) (lib : Lib) (id table keyPrefix : Bytes) :
    Outcome (Option MembershipAgreement × Int) :=
  match lib.ParseUUID id with
  | none => ⟨(none, 0), some Error.ParseUUID, []⟩
  | some uuid =>
    let cp : ColumnPath := { ColumnFamily := table, Column := str "pb_data" }
    let get := Call.Get (keyPrefix ++ uuid) cp ConsistencyLevel.ONE
    match conn.Get (keyPrefix ++ uuid) cp ConsistencyLevel.ONE with
    | .error e => ⟨(none, 0), some (Error.Store e), [get]⟩
    | .ok r =>
      match r.Timestamp with
      | none => ⟨(none, 0), some Error.NilDereference, [get]⟩
      | some timestamp => ⟨(some (lib.Unmarshal r.Value).1, timestamp), (lib.Unmarshal r.Value).2, [get]⟩

/-- Move a member record to the queue for getting their user account removed
(e.g. when they leave us). Set the retention to 2 years instead of just
6 months, since they have been a member. -/
def MoveMemberToTrash (conn : Conn) (lib : Lib) (now : Time) (id initiator reason : Bytes) :
    Outcome Unit :=
  let now_long := uint64 now.Unix
  let cp : ColumnPath := { ColumnFamily := str "members", Column := str "pb_data" }
  match lib.GenTimeUUID now with
  | none => ⟨(), some Error.GenTimeUUID, []⟩
  | some uuid =>
    let get := Call.Get (memberPrefix ++ id) cp ConsistencyLevel.QUORUM
    match conn.Get (memberPrefix ++ id) cp ConsistencyLevel.QUORUM with
    | .error e => ⟨(), some (Error.Store e), [get]⟩
    | .ok cos =>
      match lib.Unmarshal cos.Value with
      | (_, some e) => ⟨(), some e, [get]⟩
      | (member, none) =>
        let del : Deletion := { Predicate := some allColumns, Timestamp := cos.Timestamp }
        let mu : Mutation := { Deletion := some del }
        let mmap : MutationMap := []
        let mmap := mmap.make (memberPrefix ++ id)
        let mmap := mmap.setAt (memberPrefix ++ id) (str "members") [mu]
        match member.Metadata with
        | none => ⟨(), some Error.NilDereference, [get]⟩
        | some md =>
          let member := { member with Metadata := some { md with
            GoodbyeInitiator := some initiator,
            GoodbyeTimestamp := some now_long,
            GoodbyeReason := some reason } }
          let ts := now.UnixNano
          match lib.Marshal member with
          | none => ⟨(), some Error.Marshal, [get]⟩
          | some value =>
            let col : Column := { Name := str "pb_data", Timestamp := some ts, Value := value }
            let mu : Mutation := { ColumnOrSupercolumn := some col }
            let mmap := mmap.make (dequeuePrefix ++ id)
            let mmap := mmap.make (dequeuePrefix ++ uuid)
            let mmap := mmap.setAt (dequeuePrefix ++ uuid) (str "membership_dequeue") [mu]
            ⟨(), (conn.AtomicBatchMutate mmap ConsistencyLevel.QUORUM).map Error.Store,
              [get, Call.AtomicBatchMutate mmap ConsistencyLevel.QUORUM]⟩

/-- Move the record of the given applicant to a different column family. -/
def moveRecordToTable (conn : Conn) (lib : Lib) (now : Time)
    (id initiator src_table srcPrefix dst_table dstPrefix : Bytes) (ttl : Int) :
    Outcome Unit :=
  match lib.ParseUUID id with
  | none => ⟨(), some Error.ParseUUID, []⟩
  | some uuid =>
    let r := GetMembershipRequest conn lib id src_table srcPrefix
    match r.err with
    | some e => ⟨(), some e, r.calls⟩
    | none =>
      match r.value.1 with
      | none => ⟨(), some Error.NilDereference, r.calls⟩
      | some member =>
        let timestamp := r.value.2
        if dst_table = str "membership_queue" ∧ member.AgreementPdf.length = 0 then
          ⟨(), some Error.NoAgreement, r.calls⟩
        else
          match member.Metadata with
          | none => ⟨(), some Error.NilDereference, r.calls⟩
          | some md =>
            let member := { member with Metadata := some { md with
              ApproverUid := some initiator,
              ApprovalTimestamp := some (uint64 now.Unix) } }
            let bmods : MutationMap := []
            let bmods := bmods.make (dstPrefix ++ uuid)
            let bmods := bmods.setAt (dstPrefix ++ uuid) dst_table []
            let bmods := bmods.make (srcPrefix ++ uuid)
            let bmods := bmods.setAt (srcPrefix ++ uuid) src_table []
            match lib.Marshal member with
            | none => ⟨(), some Error.Marshal, r.calls⟩
            | some value =>
              let bmods := bmods.setAt (dstPrefix ++ uuid) dst_table
                (bmods.at (dstPrefix ++ uuid) dst_table
                  ++ [newCassandraMutationBytes (str "pb_data") value now ttl])
              let mutation : Mutation :=
                { Deletion := some { Predicate := some allColumns, Timestamp := some timestamp } }
              let bmods := bmods.setAt (srcPrefix ++ uuid) src_table
                (bmods.at (srcPrefix ++ uuid) src_table ++ [mutation])
              ⟨(), (conn.AtomicBatchMutate bmods ConsistencyLevel.QUORUM).map Error.Store,
                r.calls ++ [Call.AtomicBatchMutate bmods ConsistencyLevel.QUORUM]⟩

/-- Move the record of the given applicant to the queue of new users to be
processed. The approver will be set to "initiator". -/
def MoveApplicantToNewMember (conn : Conn) (lib : Lib) (now : Time) (id initiator : Bytes) :
    Outcome Unit :=
  moveRecordToTable conn lib now id initiator (str "application") applicationPrefix
    (str "membership_queue") queuePrefix 0

/-- Move the record of the given applicant to a temporary archive of deleted
applications. The deleter will be set to "initiator". -/
def MoveApplicantToTrash (conn : Conn) (lib : Lib) (now : Time) (id initiator : Bytes) :
    Outcome Unit :=
  moveRecordToTable conn lib now id initiator (str "application") applicationPrefix
    (str "membership_archive") archivePrefix (6 * 30 * 24 * 60 * 60)

/-- Move a member from the queue to the trash (e.g. if they can't be processed). -/
def MoveQueuedRecordToTrash (conn : Conn) (lib : Lib) (now : Time) (id initiator : Bytes) :
    Outcome Unit :=
  moveRecordToTable conn lib now id initiator (str "membership_queue") queuePrefix
    (str "membership_archive") archivePrefix (6 * 30 * 24 * 60 * 60)

/-- Add the membership agreement form scan to the given membership request
record. -/
def StoreMembershipAgreement (conn : Conn) (lib : Lib) (now : Time) (id : Bytes)
    (agreement_data : Bytes) : Outcome Unit :=
  match lib.ParseUUID id with
  | none => ⟨(), some Error.ParseUUID, []⟩
  | some uuid =>
    let buuid := applicationPrefix ++ uuid
    let r := GetMembershipRequest conn lib id (str "application") applicationPrefix
    match r.err with
    | some e => ⟨(), some e, r.calls⟩
    | none =>
      match r.value.1 with
      | none => ⟨(), some Error.NilDereference, r.calls⟩
      | some agreement =>
        let agreement := { agreement with AgreementPdf := agreement_data }
        let bmods : MutationMap := []
        let bmods := bmods.make buuid
        let bmods := bmods.setAt buuid (str "application") []
        match lib.Marshal agreement with
        | none => ⟨(), some Error.Marshal, r.calls⟩
        | some value =>
          let fm := (mapGet bmods buuid).getD []
          let fm := addMembershipRequestInfoBytes fm (str "pb_data") value now
          let fm := addMembershipRequestInfoBytes fm (str "application_pdf") agreement_data now
          let bmods : MutationMap := mapSet bmods buuid fm
          ⟨(), (conn.AtomicBatchMutate bmods ConsistencyLevel.QUORUM).map Error.Store,
            r.calls ++ [Call.AtomicBatchMutate bmods ConsistencyLevel.QUORUM]⟩

/-! ## A last-timestamp-wins store -/

/-- Modelled from the spec: the store engine is an external collaborator; the
spec gives it last-timestamp-wins column semantics.  A stored column with its
partition key and column family. -/
structure Cell where
  key : Bytes
  family : Bytes
  column : Column
deriving DecidableEq, Repr

/-- Modelled from the spec: the state of the store, the list of its live
columns. -/
abbrev Store := List Cell

/-- The time stamp of a stored column. -/
def Cell.ts (c : Cell) : Int := c.column.Timestamp.getD 0

/-- The cell is the column `name` of family `family` under partition `key`. -/
def Cell.isAt (c : Cell) (key family name : Bytes) : Bool :=
  decide (c.key = key) && decide (c.family = family) && decide (c.column.Name = name)

/-- Modelled from the spec: `Get(key, columnFamily, column) -> value | NotFound`. -/
def Store.Get (s : Store) (key : Bytes) (cp : ColumnPath) : Except StoreError Column :=
  match s.find? (fun c => c.isAt key cp.ColumnFamily cp.Column) with
  | some c => .ok c.column
  | none => .error StoreError.NotFound

/-- Modelled from the spec: writing a column; the write with the latest time
stamp wins (a write is dropped when a later one is stored already). -/
def Store.insert (s : Store) (key family : Bytes) (col : Column) : Store :=
  if s.any (fun c => c.isAt key family col.Name && decide (col.Timestamp.getD 0 < c.ts)) then s
  else s.filter (fun c => !c.isAt key family col.Name) ++ [⟨key, family, col⟩]

/-- The deletion names the column (a deletion without predicate names all). -/
def Deletion.names (del : Deletion) (name : Bytes) : Bool :=
  match del.Predicate with
  | some names => decide (name ∈ names)
  | none => true

/-- Modelled from the spec: a deletion removes the named columns of the
partition that are not written later than the deletion's time stamp. -/
def Store.delete (s : Store) (key family : Bytes) (del : Deletion) : Store :=
  s.filter (fun c => !(decide (c.key = key) && decide (c.family = family)
    && del.names c.column.Name && decide (c.ts ≤ del.Timestamp.getD 0)))

/-- Apply one mutation to a partition and family. -/
def Store.applyMutation (s : Store) (key family : Bytes) (mu : Mutation) : Store :=
  let s1 := match mu.ColumnOrSupercolumn with
    | some col => s.insert key family col
    | none => s
  match mu.Deletion with
  | some del => s1.delete key family del
  | none => s1

/-- Apply the mutations of one family of a partition. -/
def Store.applyFamily (s : Store) (key : Bytes) (fm : Bytes × List Mutation) : Store :=
  fm.2.foldl (fun s1 mu => s1.applyMutation key fm.1 mu) s

/-- Apply the mutations of one partition. -/
def Store.applyPartition (s : Store) (p : Bytes × FamilyMap) : Store :=
  p.2.foldl (fun s1 fm => s1.applyFamily p.1 fm) s

/-- Apply a whole mutation map. -/
def Store.applyMap (s : Store) (mmap : MutationMap) : Store :=
  mmap.foldl Store.applyPartition s

/-- The effect of a call on the store. -/
def Store.applyCall (s : Store) (c : Call) : Store :=
  match c with
  | .Get _ _ _ => s
  | .BatchMutate mmap _ => s.applyMap mmap
  | .AtomicBatchMutate mmap _ => s.applyMap mmap
  | .GetRangeSlices _ _ _ _ => s

/-- The effect of a list of calls on the store. -/
def Store.applyCalls (s : Store) (calls : List Call) : Store :=
  calls.foldl Store.applyCall s

/-- Lexicographic byte order, `a ≤ b`. -/
def bytesLe (a b : Bytes) : Bool :=
  match a, b with
  | [], _ => true
  | _ :: _, [] => false
  | x :: xs, y :: ys => if x < y then true else if y < x then false else bytesLe xs ys

/-- Insert a key into an ascending list of distinct keys. -/
def insertKey (k : Bytes) (keys : List Bytes) : List Bytes :=
  match keys with
  | [] => [k]
  | k1 :: rest =>
    if k = k1 then k1 :: rest
    else if bytesLe k k1 then k :: k1 :: rest
    else k1 :: insertKey k rest

/-- The partition keys of a column family, ascending. -/
def Store.rowKeys (s : Store) (family : Bytes) : List Bytes :=
  (s.filter (fun c => decide (c.family = family))).foldr (fun c acc => insertKey c.key acc) []

/-- The row has the column of the index expression with its value. -/
def Store.rowMatches (s : Store) (key family : Bytes) (e : IndexExpression) : Bool :=
  s.any (fun c => decide (c.key = key) && decide (c.family = family)
    && decide (c.column.Name = e.ColumnName) && decide (c.column.Value = e.Value))

/-- Modelled from the spec: `RangeScan(columnFamily, keyStart, keyEnd,
columnProjection, rowFilter?, limit) -> ordered list of (key, columns)`, keys
in ascending byte order.  The range includes its start and end key, as the key
ranges of the store do. -/
def Store.GetRangeSlices (s : Store) (cp : ColumnParent) (pred : SlicePredicate)
    (kr : KeyRange) : List KeySlice :=
  let keys := (s.rowKeys cp.ColumnFamily).filter (fun k =>
    bytesLe kr.StartKey k && bytesLe k kr.EndKey
      && kr.RowFilter.all (fun e => s.rowMatches k cp.ColumnFamily e))
  let rows := keys.map (fun k => KeySlice.mk k
    ((s.filter (fun c => decide (c.key = k) && decide (c.family = cp.ColumnFamily)
      && decide (c.column.Name ∈ pred.ColumnNames))).map (fun c => c.column)))
  rows.take kr.Count.toNat

/-- The store client of an available store: reads are answered from the
store, every batch is accepted. -/
def Store.conn (s : Store) : Conn where
  Get := fun key cp _ => s.Get key cp
  BatchMutate := fun _ _ => none
  AtomicBatchMutate := fun _ _ => none
  GetRangeSlices := fun cp pred kr _ => .ok (s.GetRangeSlices cp pred kr)

/-! ## Observations on the calls of a method -/

/-- The mutation maps of the `AtomicBatchMutate` calls, with their level. -/
def atomicBatches (calls : List Call) : List (MutationMap × ConsistencyLevel) :=
  calls.filterMap (fun c =>
    match c with
    | .AtomicBatchMutate mmap cl => some (mmap, cl)
    | _ => none)

/-- The mutation maps of all mutating calls. -/
def mutationMaps (calls : List Call) : List MutationMap :=
  calls.filterMap (fun c =>
    match c with
    | .Get _ _ _ => none
    | .BatchMutate mmap _ => some mmap
    | .AtomicBatchMutate mmap _ => some mmap
    | .GetRangeSlices _ _ _ _ => none)

/-- All mutations of a mutation map, with partition key and column family. -/
def MutationMap.mutations (mmap : MutationMap) : List (Bytes × Bytes × Mutation) :=
  mmap.flatMap (fun p => p.2.flatMap (fun fm => fm.2.map (fun mu => (p.1, fm.1, mu))))

/-- All column insertions of a mutation map, with partition key and column
family. -/
def MutationMap.insertions (mmap : MutationMap) : List (Bytes × Bytes × Column) :=
  mmap.mutations.filterMap (fun x => x.2.2.ColumnOrSupercolumn.map (fun col => (x.1, x.2.1, col)))

/-- All deletions of a mutation map, with partition key and column family. -/
def MutationMap.deletions (mmap : MutationMap) : List (Bytes × Bytes × Deletion) :=
  mmap.mutations.filterMap (fun x => x.2.2.Deletion.map (fun del => (x.1, x.2.1, del)))

/-- All column insertions issued by the calls. -/
def insertions (calls : List Call) : List (Bytes × Bytes × Column) :=
  (mutationMaps calls).flatMap MutationMap.insertions

/-- All deletions issued by the calls. -/
def deletions (calls : List Call) : List (Bytes × Bytes × Deletion) :=
  (mutationMaps calls).flatMap MutationMap.deletions

/-! ## A reference library

An instance of `Lib` with an exact codec, used to run the methods on concrete
inputs. -/

/-- One optional field, length-prefixed, in front of the rest. -/
def encodeField (x : Option Bytes) (rest : Bytes) : Bytes :=
  match x with
  | none => 0 :: rest
  | some l => (l.length + 1) :: (l ++ rest)

/-- Read one optional field. -/
def decodeField (b : Bytes) : Option (Option Bytes × Bytes) :=
  match b with
  | [] => none
  | 0 :: rest => some (none, rest)
  | (n + 1) :: rest => if n ≤ rest.length then some (some (rest.take n), rest.drop n) else none

def encodeFields (fs : List (Option Bytes)) : Bytes := fs.foldr encodeField []

/-- Read `n` fields that make up the whole input. -/
def decodeFields (n : Nat) (b : Bytes) : Option (List (Option Bytes)) :=
  match n, b with
  | 0, [] => some []
  | 0, _ :: _ => none
  | k + 1, b =>
    match decodeField b with
    | none => none
    | some (x, rest) => (decodeFields k rest).map (fun xs => x :: xs)

def natField (x : Option Nat) : Option Bytes := x.map (fun n => [n])

def fieldNat (x : Option Bytes) : Option Nat :=
  match x with
  | some [n] => some n
  | _ => none

def boolField (x : Option Bool) : Option Bytes := x.map boolByte

def fieldBool (x : Option Bytes) : Option Bool :=
  match x with
  | some [n] => some (decide (n = 1))
  | _ => none

def Member.toFields (d : Member) : List (Option Bytes) :=
  [d.Name, d.Street, d.City, d.Zipcode, d.Country, d.Email, d.Phone, natField d.Fee,
   d.Username, d.Pwhash, boolField d.FeeYearly, boolField d.HasKey,
   natField d.PaymentsCaughtUpTo]

def MembershipMetadata.toFields (d : MembershipMetadata) : List (Option Bytes) :=
  [natField d.RequestTimestamp, d.RequestSourceIp, d.UserAgent, d.Comment, d.ApproverUid,
   natField d.ApprovalTimestamp, d.GoodbyeInitiator, natField d.GoodbyeTimestamp,
   d.GoodbyeReason]

def MembershipAgreement.toFields (m : MembershipAgreement) : List (Option Bytes) :=
  (match m.MemberData with
    | none => none :: List.replicate 13 none
    | some d => some [] :: d.toFields)
  ++ (match m.Metadata with
    | none => none :: List.replicate 9 none
    | some d => some [] :: d.toFields)
  ++ [some m.AgreementPdf]

def MembershipAgreement.ofFields (fs : List (Option Bytes)) : Option MembershipAgreement :=
  match fs with
  | [p1, a1, a2, a3, a4, a5, a6, a7, a8, a9, a10, a11, a12, a13,
     p2, b1, b2, b3, b4, b5, b6, b7, b8, b9, some pdf] =>
    some {
      MemberData := p1.map (fun _ => {
        Name := a1, Street := a2, City := a3, Zipcode := a4, Country := a5, Email := a6,
        Phone := a7, Fee := fieldNat a8, Username := a9, Pwhash := a10,
        FeeYearly := fieldBool a11, HasKey := fieldBool a12,
        PaymentsCaughtUpTo := fieldNat a13 }),
      Metadata := p2.map (fun _ => {
        RequestTimestamp := fieldNat b1, RequestSourceIp := b2, UserAgent := b3,
        Comment := b4, ApproverUid := b5, ApprovalTimestamp := fieldNat b6,
        GoodbyeInitiator := b7, GoodbyeTimestamp := fieldNat b8, GoodbyeReason := b9 }),
      AgreementPdf := pdf }
  | _ => none

/-- The value of a lowercase hexadecimal digit. -/
def hexValue (c : Nat) : Option Nat :=
  if 48 ≤ c ∧ c ≤ 57 then some (c - 48)
  else if 97 ≤ c ∧ c ≤ 102 then some (c - 87)
  else none

/-- Decode a lowercase hexadecimal string. -/
def hexDecode (b : Bytes) : Option Bytes :=
  match b with
  | [] => some []
  | [_] => none
  | x :: y :: rest =>
    match hexValue x, hexValue y, hexDecode rest with
    | some h, some l, some r => some ((16 * h + l) :: r)
    | _, _, _ => none

/-- A reference library: an exact length-prefixed codec; Modelled from the
spec: the external encoding of a record key is the lowercase hexadecimal
encoding of its 16 bytes; the generated UUID is made of the time. -/
def refLib : Lib where
  Marshal := fun m => some (encodeFields m.toFields)
  Unmarshal := fun b =>
    match (decodeFields 25 b).bind MembershipAgreement.ofFields with
    | some m => (m, none)
    | none => ({}, some Error.Unmarshal)
  ParseUUID := fun id =>
    match hexDecode id with
    | some u => if u.length = 16 then some u else none
    | none => none
  GenTimeUUID := fun now => some (PutUint64 (uint64 now.UnixNano) ++ [0, 0, 0, 0, 0, 0, 0, 1])
  UUIDFromBytes := fun b => b
  UUIDString := hexEncodeToString

/-- The codec is exact: encoding always succeeds and decoding gives the
message back, without error. -/
def Lib.Exact (lib : Lib) : Prop :=
  ∀ m : MembershipAgreement, ∃ b, lib.Marshal m = some b ∧ lib.Unmarshal b = (m, none)

/-- Decoding inverts encoding, where encoding succeeds. -/
def Lib.RoundTrip (lib : Lib) : Prop :=
  ∀ (m : MembershipAgreement) (b : Bytes), lib.Marshal m = some b → lib.Unmarshal b = (m, none)

/-! ## The transitions made by `moveRecordToTable` -/

/-- The three callers of `moveRecordToTable`. -/
inductive Transition where
  | ApplicantToNewMember
  | ApplicantToTrash
  | QueuedRecordToTrash
deriving DecidableEq, Repr

/-- The method of the transition. -/
def Transition.run (t : Transition) (conn : Conn) (lib : Lib) (now : Time)
    (id initiator : Bytes) : Outcome Unit :=
  match t with
  | .ApplicantToNewMember => MoveApplicantToNewMember conn lib now id initiator
  | .ApplicantToTrash => MoveApplicantToTrash conn lib now id initiator
  | .QueuedRecordToTrash => MoveQueuedRecordToTrash conn lib now id initiator

/-- The source column family the caller passes. -/
def Transition.srcTable (t : Transition) : Bytes :=
  match t with
  | .ApplicantToNewMember => str "application"
  | .ApplicantToTrash => str "application"
  | .QueuedRecordToTrash => str "membership_queue"

/-- The source key namespace the caller passes. -/
def Transition.srcPrefix (t : Transition) : Bytes :=
  match t with
  | .ApplicantToNewMember => applicationPrefix
  | .ApplicantToTrash => applicationPrefix
  | .QueuedRecordToTrash => queuePrefix

/-- The destination column family the caller passes. -/
def Transition.dstTable (t : Transition) : Bytes :=
  match t with
  | .ApplicantToNewMember => str "membership_queue"
  | .ApplicantToTrash => str "membership_archive"
  | .QueuedRecordToTrash => str "membership_archive"

/-- The destination key namespace the caller passes. -/
def Transition.dstPrefix (t : Transition) : Bytes :=
  match t with
  | .ApplicantToNewMember => queuePrefix
  | .ApplicantToTrash => archivePrefix
  | .QueuedRecordToTrash => archivePrefix

/-- The time-to-live the caller passes. -/
def Transition.ttl (t : Transition) : Int :=
  match t with
  | .ApplicantToNewMember => 0
  | .ApplicantToTrash => 6 * 30 * 24 * 60 * 60
  | .QueuedRecordToTrash => 6 * 30 * 24 * 60 * 60

/-- The record after `moveRecordToTable` filled in the approval. -/
def approved (member : MembershipAgreement) (md : MembershipMetadata) (initiator : Bytes)
    (now : Time) : MembershipAgreement :=
  { member with Metadata := some { md with
      ApproverUid := some initiator,
      ApprovalTimestamp := some (uint64 now.Unix) } }

/-- The record after `MoveMemberToTrash` filled in the goodbye. -/
def dismissed (member : MembershipAgreement) (md : MembershipMetadata)
    (initiator reason : Bytes) (now : Time) : MembershipAgreement :=
  { member with Metadata := some { md with
      GoodbyeInitiator := some initiator,
      GoodbyeTimestamp := some (uint64 now.Unix),
      GoodbyeReason := some reason } }

/-! ## Sample data -/

/-- One second, two seconds, three seconds after the epoch. -/
def time1 : Time := ⟨1000000000⟩
def time2 : Time := ⟨2000000000⟩
def time3 : Time := ⟨3000000000⟩

def sampleUUID : Bytes := [0, 1, 2, 3, 4, 5, 6, 7, 8, 9, 10, 11, 12, 13, 14, 255]

/-- The external form of `sampleUUID`, `000102030405060708090a0b0c0d0eff`. -/
def sampleId : Bytes := hexEncodeToString sampleUUID

/-- An application with a scanned agreement attached. -/
def sampleRecord : MembershipAgreement :=
  { MemberData := some { Name := some (str "Ada"), Fee := some 20, FeeYearly := some false },
    Metadata := some { RequestTimestamp := some 1 },
    AgreementPdf := [37, 80, 68, 70] }

/-- The same application without a scanned agreement. -/
def sampleRecordNoPdf : MembershipAgreement := { sampleRecord with AgreementPdf := [] }

/-- The encoded `sampleRecord`. -/
def sampleBlob : Bytes := encodeFields sampleRecord.toFields

/-- The encoded `sampleRecordNoPdf`. -/
def sampleBlobNoPdf : Bytes := encodeFields sampleRecordNoPdf.toFields

/-- A store holding `sampleRecord` as an application. -/
def sampleStore : Store :=
  [⟨applicationPrefix ++ sampleUUID, str "application",
      ⟨str "name", str "Ada", some 1000000000, none⟩⟩,
   ⟨applicationPrefix ++ sampleUUID, str "application",
      ⟨str "pb_data", sampleBlob, some 2000000000, none⟩⟩]

/-- A store holding `sampleRecordNoPdf` as an application. -/
def sampleStoreNoPdf : Store :=
  [⟨applicationPrefix ++ sampleUUID, str "application",
      ⟨str "pb_data", sampleBlobNoPdf, some 1000000000, none⟩⟩]

/-! ## All four transitions -/

/-- A transition: one of the three made by `moveRecordToTable`, or
`MoveMemberToTrash` with its reason. -/
inductive Move where
  | table (t : Transition)
  | memberToTrash (reason : Bytes)
deriving DecidableEq, Repr

/-- The method of the transition. -/
def Move.run (m : Move) (conn : Conn) (lib : Lib) (now : Time) (id initiator : Bytes) :
    Outcome Unit :=
  match m with
  | .table t => t.run conn lib now id initiator
  | .memberToTrash reason => MoveMemberToTrash conn lib now id initiator reason

/-- The column family the transition reads and deletes. -/
def Move.srcTable (m : Move) : Bytes :=
  match m with
  | .table t => t.srcTable
  | .memberToTrash _ => str "members"

/-- The column family the transition writes. -/
def Move.dstTable (m : Move) : Bytes :=
  match m with
  | .table t => t.dstTable
  | .memberToTrash _ => str "membership_dequeue"

/-- The consistency level of the read of the transition. -/
def Move.readLevel (m : Move) : ConsistencyLevel :=
  match m with
  | .table _ => ConsistencyLevel.ONE
  | .memberToTrash _ => ConsistencyLevel.QUORUM

/-- The record the transition encodes: the decoded record with the metadata
assignments of the transition. -/
def Move.stamped (m : Move) (member : MembershipAgreement) (md : MembershipMetadata)
    (initiator : Bytes) (now : Time) : MembershipAgreement :=
  match m with
  | .table _ => approved member md initiator now
  | .memberToTrash reason => dismissed member md initiator reason now

/-- The TTL of the column the transition inserts: `newCassandraMutationBytes`
sets the `ttl` passed to `moveRecordToTable` when it is positive;
`MoveMemberToTrash` sets none. -/
def Move.columnTTL (m : Move) : Option Int :=
  match m with
  | .table t => if t.ttl > 0 then some t.ttl else none
  | .memberToTrash _ => none

/-- A member store: `sampleRecord` as the member `ada`. -/
def memberStore : Store :=
  [⟨memberPrefix ++ str "ada", str "members",
      ⟨str "pb_data", sampleBlob, some 1000000000, none⟩⟩]

/-- The UUID the reference library generates at `time3`. -/
def uuid3 : Bytes := [0, 0, 0, 0, 178, 208, 94, 0, 0, 0, 0, 0, 0, 0, 0, 1]

/-! ## The field updates -/

/-- The four field updates with their mutation map computed: they read
`pb_data` of the member, decode it, apply `change` (the assignment to the
record, or the error returned instead), encode, and write, in one atomic batch
under `memberPrefix` + id, the read column with the new value and time stamp
to `members` and `member_agreements`, and the data columns `data` to
`members`. -/
def updateWith (conn : Conn) (lib : Lib) (now : Time) (id : Bytes)
    (change : MembershipAgreement → Except Error MembershipAgreement)
    (data : List Mutation) : Outcome Unit :=
  let cp : ColumnPath := { ColumnFamily := str "members", Column := str "pb_data" }
  let get := Call.Get (memberPrefix ++ id) cp ConsistencyLevel.ONE
  match conn.Get (memberPrefix ++ id) cp ConsistencyLevel.ONE with
  | .error e => ⟨(), some (Error.Store e), [get]⟩
  | .ok r =>
    match lib.Unmarshal r.Value with
    | (_, some e) => ⟨(), some e, [get]⟩
    | (member, none) =>
      match change member with
      | .error e => ⟨(), some e, [get]⟩
      | .ok member =>
        match lib.Marshal member with
        | none => ⟨(), some Error.Marshal, [get]⟩
        | some pb =>
          let mu : Mutation := ⟨some { r with Value := pb, Timestamp := some now.UnixNano }, none⟩
          let mmap : MutationMap :=
            [(memberPrefix ++ id, [(str "members", mu :: data), (str "member_agreements", [mu])])]
          ⟨(), (conn.AtomicBatchMutate mmap ConsistencyLevel.QUORUM).map Error.Store,
            [get, Call.AtomicBatchMutate mmap ConsistencyLevel.QUORUM]⟩

/-- The three updates that take the name of a field, with the new value. -/
inductive Setter where
  | text (value : Bytes)
  | long (value : Nat)
  | bool (value : Bool)
deriving DecidableEq, Repr

/-- The method of the setter. -/
def Setter.run (k : Setter) (conn : Conn) (lib : Lib) (now : Time) (id field : Bytes) :
    Outcome Unit :=
  match k with
  | .text value => SetTextValue conn lib now id field value
  | .long value => SetLongValue conn lib now id field value
  | .bool value => SetBoolValue conn lib now id field value

/-- The field names of the branches of the setter. -/
def Setter.allowList (k : Setter) : List Bytes :=
  match k with
  | .text _ => [str "name", str "street", str "city", str "zipcode", str "country",
      str "phone", str "username"]
  | .long _ => [str "payments_caught_up_to"]
  | .bool _ => [str "has_key"]

/-- An update operation: `SetMemberFee`, or a setter with the field name. -/
inductive Update where
  | fee (fee : Nat) (yearly : Bool)
  | setter (k : Setter) (name : Bytes)
deriving DecidableEq, Repr

/-- The method of the update. -/
def Update.run (u : Update) (conn : Conn) (lib : Lib) (now : Time) (id : Bytes) :
    Outcome Unit :=
  match u with
  | .fee amount yearly => SetMemberFee conn lib now id amount yearly
  | .setter k name => k.run conn lib now id name

/-- The columns that mirror the fields the update changes. -/
def Update.changed (u : Update) : List Bytes :=
  match u with
  | .fee _ _ => [str "fee", str "fee_yearly"]
  | .setter _ name => [name]

/-- The arguments of type `uint64` are below `2 ^ 64`. -/
def Update.InRange (u : Update) : Prop :=
  match u with
  | .fee amount _ => amount < 2 ^ 64
  | .setter (.long value) _ => value < 2 ^ 64
  | .setter _ _ => True

/-- The value of a field of the member data. -/
inductive FieldValue where
  | text (s : Bytes)
  | long (n : Nat)
  | bool (b : Bool)
deriving DecidableEq, Repr

/-- The field of the member data that the column `name` mirrors. -/
def Member.field (d : Member) (name : Bytes) : Option FieldValue :=
  if name = str "name" then d.Name.map FieldValue.text
  else if name = str "street" then d.Street.map FieldValue.text
  else if name = str "city" then d.City.map FieldValue.text
  else if name = str "zipcode" then d.Zipcode.map FieldValue.text
  else if name = str "country" then d.Country.map FieldValue.text
  else if name = str "email" then d.Email.map FieldValue.text
  else if name = str "phone" then d.Phone.map FieldValue.text
  else if name = str "username" then d.Username.map FieldValue.text
  else if name = str "pwhash" then d.Pwhash.map FieldValue.text
  else if name = str "fee" then d.Fee.map FieldValue.long
  else if name = str "fee_yearly" then d.FeeYearly.map FieldValue.bool
  else if name = str "has_key" then d.HasKey.map FieldValue.bool
  else if name = str "payments_caught_up_to" then d.PaymentsCaughtUpTo.map FieldValue.long
  else none

/-- The value decoded from the projected column `name`, the way the
enumerations decode columns: the raw bytes for a text column,
`binary.BigEndian.Uint64` for `fee` and `payments_caught_up_to`, first byte
equal to 1 for `fee_yearly` and `has_key`. -/
def decodeColumn (name value : Bytes) : Option FieldValue :=
  if name = str "fee" ∨ name = str "payments_caught_up_to" then
    (Uint64 value).map FieldValue.long
  else if name = str "fee_yearly" ∨ name = str "has_key" then
    (byteBool value).map FieldValue.bool
  else some (FieldValue.text value)

/-! ## Running methods one after the other -/

/-- The family map holds, under `application`, only column insertions stamped
`now`. -/
def InsertsOnly (now : Time) (m : FamilyMap) : Prop :=
  ∃ l, m = [(str "application", l)] ∧
    ∀ mu ∈ l, ∃ name value, mu = newCassandraMutationBytes name value now 0

/-- All columns of the store are in one partition and family and written no
later than `t`. -/
def Store.Within (s : Store) (key family : Bytes) (t : Int) : Prop :=
  ∀ c ∈ s, c.key = key ∧ c.family = family ∧ c.ts ≤ t

/-- The signup of the example scenario: name "Ada", fee 20, not yearly. -/
def adaRequest : FormInputData :=
  { MemberData := some { Name := some (str "Ada"), Fee := some 20, FeeYearly := some false },
    Metadata := some {} }

/-- The UUID the reference library generates at `time1`. -/
def uuid1 : Bytes := [0, 0, 0, 0, 59, 154, 202, 0, 0, 0, 0, 0, 0, 0, 0, 1]

/-- A member whose username is set to the empty string. -/
def unnamedRecord : MembershipAgreement :=
  { MemberData := some { Name := some (str "Ada"), Username := some [] },
    Metadata := some { RequestTimestamp := some 1 } }

/-- A member store: `unnamedRecord` as the member `ada`. -/
def unnamedStore : Store :=
  [⟨memberPrefix ++ str "ada", str "members",
      ⟨str "pb_data", encodeFields unnamedRecord.toFields, some 1000000000, none⟩⟩]

/-- A member with the username `ada`. -/
def namedRecord : MembershipAgreement :=
  { MemberData := some { Name := some (str "Ada"), Username := some (str "ada") },
    Metadata := some { RequestTimestamp := some 1 } }

/-- A member store: `namedRecord` as the member `ada`. -/
def namedStore : Store :=
  [⟨memberPrefix ++ str "ada", str "members",
      ⟨str "pb_data", encodeFields namedRecord.toFields, some 1000000000, none⟩⟩]

/-! ## The columns of a membership request -/

/-- The mutation `addMembershipRequestInfoString` adds: none for a value that
is not set or empty. -/
def stringColumn (name : Bytes) (value : Option Bytes) (now : Time) : List Mutation :=
  match value with
  | some v => if v.length > 0 then [newCassandraMutationString name v now] else []
  | none => []

/-- The data columns `StoreMembershipRequest` adds before `pb_data`, in the
order of its statements. -/
def requestDataColumns (md : Member) (meta0 : MembershipMetadata) (now : Time) :
    List Mutation :=
  stringColumn (str "name") md.Name now
    ++ stringColumn (str "street") md.Street now
    ++ stringColumn (str "city") md.City now
    ++ stringColumn (str "zipcode") md.Zipcode now
    ++ stringColumn (str "country") md.Country now
    ++ stringColumn (str "email") md.Email now
    ++ [newCassandraMutationBytes (str "email_verified") [0] now 0]
    ++ stringColumn (str "phone") md.Phone now
    ++ [newCassandraMutationBytes (str "fee") (PutUint64 (md.Fee.getD 0)) now 0]
    ++ stringColumn (str "username") md.Username now
    ++ stringColumn (str "pwhash") md.Pwhash now
    ++ [newCassandraMutationBytes (str "fee_yearly")
          (if md.FeeYearly.getD false then [1] else [0]) now 0]
    ++ stringColumn (str "sourceip") meta0.RequestSourceIp now
    ++ stringColumn (str "useragent") meta0.UserAgent now

/-- The names of the data columns of a membership request. -/
def requestDataNames : List Bytes :=
  [str "name", str "street", str "city", str "zipcode", str "country", str "email",
   str "email_verified", str "phone", str "fee", str "username", str "pwhash",
   str "fee_yearly", str "sourceip", str "useragent"]

/-- The metadata `StoreMembershipRequest` stores: the request time stamp is
set to the current time in seconds when it is absent. -/
def stampedMetadata (meta0 : MembershipMetadata) (now : Time) : MembershipMetadata :=
  if meta0.RequestTimestamp = none then
    { meta0 with RequestTimestamp := some (uint64 now.Unix) }
  else meta0

/-- A lowercase hexadecimal digit. -/
def isLowerHex (c : Nat) : Prop := (48 ≤ c ∧ c ≤ 57) ∨ (97 ≤ c ∧ c ≤ 102)

/-! ## `db.go`: the enumerations -/

/-- Go `MemberWithKey`: a `Member` with the key of its record. -/
structure MemberWithKey where
  Key : Bytes := []
  Member : membersys.Member := {}
deriving DecidableEq, Repr

/-- Go slice expression `b[n:]`; `none` where Go panics (`n` beyond the
length). -/
def sliceFrom (b : Bytes) (n : Nat) : Option Bytes :=
  if n ≤ b.length then some (b.drop n) else none

/-- Library `proto.Merge(dst, src)` on `Member`: the fields set in `src` are
copied to `dst`; a nil `src` changes nothing. -/
def Merge (dst : Member) (src : Option Member) : Member :=
  match src with
  | none => dst
  | some s =>
    { Name := s.Name <|> dst.Name, Street := s.Street <|> dst.Street,
      City := s.City <|> dst.City, Zipcode := s.Zipcode <|> dst.Zipcode,
      Country := s.Country <|> dst.Country, Email := s.Email <|> dst.Email,
      Phone := s.Phone <|> dst.Phone, Fee := s.Fee <|> dst.Fee,
      Username := s.Username <|> dst.Username, Pwhash := s.Pwhash <|> dst.Pwhash,
      FeeYearly := s.FeeYearly <|> dst.FeeYearly, HasKey := s.HasKey <|> dst.HasKey,
      PaymentsCaughtUpTo := s.PaymentsCaughtUpTo <|> dst.PaymentsCaughtUpTo }

/-- A loop `for _, scol = range ks.Columns` whose body can panic (`none`). -/
def forColumns {α : Type} (body : α → Column → Option α) (acc : α) : List Column → Option α
  | [] => some acc
  | col :: rest =>
    match body acc col with
    | none => none
    | some acc1 => forColumns body acc1 rest

/-- A loop `for _, ks = range kss` that appends to `rv`: the body gives the
entry to append, or nothing (`continue`, or no entry made), or panics. -/
def forRows {α : Type} (body : KeySlice → Except Error (Option α)) (rv : List α) :
    List KeySlice → Except Error (List α)
  | [] => .ok rv
  | ks :: rest =>
    match body ks with
    | .error e => .error e
    | .ok none => forRows body rv rest
    | .ok (some m) => forRows body (rv ++ [m]) rest

/-- The body of the column loop of `EnumerateMembers`. -/
def memberColumn (member : Member) (col : Column) : Option Member :=
  if col.Name = str "name" then some { member with Name := some col.Value }
  else if col.Name = str "street" then some { member with Street := some col.Value }
  else if col.Name = str "city" then some { member with City := some col.Value }
  else if col.Name = str "country" then some { member with Country := some col.Value }
  else if col.Name = str "email" then some { member with Email := some col.Value }
  else if col.Name = str "phone" then some { member with Phone := some col.Value }
  else if col.Name = str "username" then some { member with Username := some col.Value }
  else if col.Name = str "fee" then
    (Uint64 col.Value).map (fun v => { member with Fee := some v })
  else if col.Name = str "fee_yearly" then
    (byteBool col.Value).map (fun b => { member with FeeYearly := some b })
  else if col.Name = str "has_key" then
    (byteBool col.Value).map (fun b => { member with HasKey := some b })
  else if col.Name = str "payments_caught_up_to" then
    (Uint64 col.Value).map (fun v => { member with PaymentsCaughtUpTo := some v })
  else some member

/-- The body of the row loop of `EnumerateMembers`. -/
def memberRow (ks : KeySlice) : Except Error (Option Member) :=
  if ks.Columns.length = 0 then .ok none
  else
    match sliceFrom ks.Key memberPrefix.length with
    | none => .error Error.IndexOutOfRange
    | some email =>
      match forColumns memberColumn { Email := some email } ks.Columns with
      | none => .error Error.IndexOutOfRange
      | some member => .ok (some member)

/-- Get a list of all members currently in the database. Returns a set of
"num" entries beginning after "prev". -/
def EnumerateMembers (conn : Conn) (prev : Bytes) (num : Int) : Outcome (List Member) :=
  let cp : ColumnParent := { ColumnFamily := str "members" }
  let pred : SlicePredicate :=
    { ColumnNames := [str "name", str "city", str "country", str "email", str "phone",
        str "username", str "fee", str "fee_yearly", str "has_key",
        str "payments_caught_up_to"] }
  let r : KeyRange := { StartKey := memberPrefix ++ prev, EndKey := memberEnd, Count := num }
  let scan := Call.GetRangeSlices cp pred r ConsistencyLevel.ONE
  match conn.GetRangeSlices cp pred r ConsistencyLevel.ONE with
  | .error e => ⟨[], some (Error.Store e), [scan]⟩
  | .ok kss =>
    match forRows memberRow [] kss with
    | .error e => ⟨[], some e, [scan]⟩
    | .ok rv => ⟨rv, none, [scan]⟩

/-- The body of the column loop of `EnumerateMembershipRequests`. -/
def requestColumn (member : MemberWithKey) (col : Column) : Option MemberWithKey :=
  if col.Name = str "name" then
    some { member with Member := { member.Member with Name := some col.Value } }
  else if col.Name = str "street" then
    some { member with Member := { member.Member with Street := some col.Value } }
  else if col.Name = str "city" then
    some { member with Member := { member.Member with City := some col.Value } }
  else if col.Name = str "fee" then
    (Uint64 col.Value).map
      (fun v => { member with Member := { member.Member with Fee := some v } })
  else if col.Name = str "fee_yearly" then
    (byteBool col.Value).map
      (fun b => { member with Member := { member.Member with FeeYearly := some b } })
  else some member

/-- The body of the row loop of `EnumerateMembershipRequests`: the key is
sliced before the test for zero columns. -/
def requestRow (lib : Lib) (ks : KeySlice) : Except Error (Option MemberWithKey) :=
  match sliceFrom ks.Key applicationPrefix.length with
  | none => .error Error.IndexOutOfRange
  | some suffix =>
    let uuid := lib.UUIDFromBytes suffix
    let member : MemberWithKey := { Key := lib.UUIDString uuid }
    if ks.Columns.length = 0 then .ok none
    else
      match forColumns requestColumn member ks.Columns with
      | none => .error Error.IndexOutOfRange
      | some member => .ok (some member)

/-- Get a list of all membership applications currently in the database.
Returns a set of "num" entries beginning after "prev". If "criterion" is
given, it will be compared against the name of the member.  (The code does
not use `criterion`.) -/
def EnumerateMembershipRequests (conn : Conn) (lib : Lib) (_criterion prev : Bytes)
    (num : Int) : Outcome (List MemberWithKey) :=
  let cp : ColumnParent := { ColumnFamily := str "application" }
  let pred : SlicePredicate :=
    { ColumnNames := [str "name", str "street", str "city", str "fee", str "fee_yearly"] }
  let start : Option Bytes :=
    if prev.length > 0 then (lib.ParseUUID prev).map (fun uuid => applicationPrefix ++ uuid)
    else some applicationPrefix
  match start with
  | none => ⟨[], some Error.ParseUUID, []⟩
  | some startKey =>
    let r : KeyRange := { StartKey := startKey, EndKey := applicationEnd, Count := num }
    let scan := Call.GetRangeSlices cp pred r ConsistencyLevel.ONE
    match conn.GetRangeSlices cp pred r ConsistencyLevel.ONE with
    | .error e => ⟨[], some (Error.Store e), [scan]⟩
    | .ok kss =>
      match forRows (requestRow lib) [] kss with
      | .error e => ⟨[], some e, [scan]⟩
      | .ok rv => ⟨rv, none, [scan]⟩

/-- The body of the column loop of `enumerateQueuedMembersIn` and of
`EnumerateTrashedMembers`: a `pb_data` column makes a new entry from the
decoded record (the decoding error is dropped). -/
def queuedColumn (lib : Lib) (uuid : Bytes) (member : Option MemberWithKey) (col : Column) :
    Option MemberWithKey :=
  if col.Name = str "pb_data" then
    some { Member := Merge {} (lib.Unmarshal col.Value).1.MemberData,
           Key := lib.UUIDString uuid }
  else member

/-- The body of the row loop of `enumerateQueuedMembersIn` and of
`EnumerateTrashedMembers`: an entry is appended when one was made. -/
def queuedRow (lib : Lib) (keyPrefix : Bytes) (ks : KeySlice) :
    Except Error (Option MemberWithKey) :=
  match sliceFrom ks.Key keyPrefix.length with
  | none => .error Error.IndexOutOfRange
  | some suffix =>
    let uuid := lib.UUIDFromBytes suffix
    if ks.Columns.length = 0 then .ok none
    else .ok (ks.Columns.foldl (queuedColumn lib uuid) none)

/-- The enumeration of a queue: `membership_queue` or `membership_dequeue`. -/
def enumerateQueuedMembersIn (conn : Conn) (lib : Lib) (cf keyPrefix keyEnd prev : Bytes)
    (num : Int) : Outcome (List MemberWithKey) :=
  let cp : ColumnParent := { ColumnFamily := cf }
  let pred : SlicePredicate := { ColumnNames := [str "pb_data"] }
  let start : Option Bytes :=
    if prev.length > 0 then (lib.ParseUUID prev).map (fun uuid => keyPrefix ++ uuid)
    else some keyPrefix
  match start with
  | none => ⟨[], some Error.ParseUUID, []⟩
  | some startKey =>
    let r : KeyRange := { StartKey := startKey, EndKey := keyEnd, Count := num }
    let scan := Call.GetRangeSlices cp pred r ConsistencyLevel.ONE
    match conn.GetRangeSlices cp pred r ConsistencyLevel.ONE with
    | .error e => ⟨[], some (Error.Store e), [scan]⟩
    | .ok kss =>
      match forRows (queuedRow lib keyPrefix) [] kss with
      | .error e => ⟨[], some e, [scan]⟩
      | .ok rv => ⟨rv, none, [scan]⟩

/-- Get a list of all future members which are currently in the queue. -/
def EnumerateQueuedMembers (conn : Conn) (lib : Lib) (prev : Bytes) (num : Int) :
    Outcome (List MemberWithKey) :=
  enumerateQueuedMembersIn conn lib (str "membership_queue") queuePrefix queueEnd prev num

/-- Get a list of all future members which are currently in the departing
queue. -/
def EnumerateDeQueuedMembers (conn : Conn) (lib : Lib) (prev : Bytes) (num : Int) :
    Outcome (List MemberWithKey) :=
  enumerateQueuedMembersIn conn lib (str "membership_dequeue") dequeuePrefix dequeueEnd prev num

/-- Get a list of all members which are currently in the trash. -/
def EnumerateTrashedMembers (conn : Conn) (lib : Lib) (prev : Bytes) (num : Int) :
    Outcome (List MemberWithKey) :=
  let cp : ColumnParent := { ColumnFamily := str "membership_archive" }
  let pred : SlicePredicate := { ColumnNames := [str "pb_data"] }
  let start : Option Bytes :=
    if prev.length > 0 then (lib.ParseUUID prev).map (fun uuid => archivePrefix ++ uuid)
    else some archivePrefix
  match start with
  | none => ⟨[], some Error.ParseUUID, []⟩
  | some startKey =>
    let r : KeyRange := { StartKey := startKey, EndKey := archiveEnd, Count := num }
    let scan := Call.GetRangeSlices cp pred r ConsistencyLevel.ONE
    match conn.GetRangeSlices cp pred r ConsistencyLevel.ONE with
    | .error e => ⟨[], some (Error.Store e), [scan]⟩
    | .ok kss =>
      match forRows (queuedRow lib archivePrefix) [] kss with
      | .error e => ⟨[], some e, [scan]⟩
      | .ok rv => ⟨rv, none, [scan]⟩

/-- The rows loop of `GetMemberDetailByUsername`: it returns at the first
column of the first row that has a column. -/
def detailRows (lib : Lib) : List KeySlice → Option MembershipAgreement × Option Error
  | [] => (none, some Error.NotFound)
  | ks :: rest =>
    match ks.Columns with
    | [] => detailRows lib rest
    | col :: _ =>
      if col.Name = str "pb_data" then
        (some (lib.Unmarshal col.Value).1, (lib.Unmarshal col.Value).2)
      else (none, some (Error.DataLoss col.Name))

/-- Retrieve a specific members detailed membership data, but fetch it by the
user name of the member. -/
def GetMemberDetailByUsername (conn : Conn) (lib : Lib) (username : Bytes) :
    Outcome (Option MembershipAgreement) :=
  let expr : IndexExpression :=
    { ColumnName := str "username", Op := IndexOperator.EQ, Value := username }
  let cp : ColumnParent := { ColumnFamily := str "members" }
  let pred : SlicePredicate := { ColumnNames := [str "pb_data"] }
  let kr : KeyRange := { StartKey := memberPrefix, EndKey := memberEnd, RowFilter := [expr] }
  let scan := Call.GetRangeSlices cp pred kr ConsistencyLevel.ONE
  match conn.GetRangeSlices cp pred kr ConsistencyLevel.ONE with
  | .error e => ⟨none, some (Error.Internal e), [scan]⟩
  | .ok r => ⟨(detailRows lib r).1, (detailRows lib r).2, [scan]⟩

/-- The five enumerations. -/
inductive Enumeration where
  | members
  | requests (criterion : Bytes)
  | queued
  | dequeued
  | trashed
deriving DecidableEq, Repr

/-- The type of the entries of the enumeration. -/
abbrev Enumeration.Entry : Enumeration → Type
  | .members => Member
  | .requests _ => MemberWithKey
  | .queued => MemberWithKey
  | .dequeued => MemberWithKey
  | .trashed => MemberWithKey

/-- The method of the enumeration. -/
def Enumeration.run (e : Enumeration) (conn : Conn) (lib : Lib) (prev : Bytes) (num : Int) :
    Outcome (List e.Entry) :=
  match e with
  | .members => EnumerateMembers conn prev num
  | .requests criterion => EnumerateMembershipRequests conn lib criterion prev num
  | .queued => EnumerateQueuedMembers conn lib prev num
  | .dequeued => EnumerateDeQueuedMembers conn lib prev num
  | .trashed => EnumerateTrashedMembers conn lib prev num

/-- The body of the row loop of the enumeration. -/
def Enumeration.row (e : Enumeration) (lib : Lib) (ks : KeySlice) :
    Except Error (Option e.Entry) :=
  match e with
  | .members => memberRow ks
  | .requests _ => requestRow lib ks
  | .queued => queuedRow lib queuePrefix ks
  | .dequeued => queuedRow lib dequeuePrefix ks
  | .trashed => queuedRow lib archivePrefix ks

/-! ## The common shape of the enumerations -/

/-- The start key the enumerations by UUID compute from the cursor; `none`
when the cursor does not parse. -/
def cursorStart (lib : Lib) (keyPrefix prev : Bytes) : Option Bytes :=
  if prev.length > 0 then (lib.ParseUUID prev).map (fun uuid => keyPrefix ++ uuid)
  else some keyPrefix

/-- The range scan at ONE followed by the row loop. -/
def scanRows {α : Type} (conn : Conn) (body : KeySlice → Except Error (Option α))
    (cp : ColumnParent) (pred : SlicePredicate) (r : KeyRange) : Outcome (List α) :=
  match conn.GetRangeSlices cp pred r ConsistencyLevel.ONE with
  | .error e => ⟨[], some (Error.Store e), [Call.GetRangeSlices cp pred r ConsistencyLevel.ONE]⟩
  | .ok kss =>
    match forRows body [] kss with
    | .error e => ⟨[], some e, [Call.GetRangeSlices cp pred r ConsistencyLevel.ONE]⟩
    | .ok rv => ⟨rv, none, [Call.GetRangeSlices cp pred r ConsistencyLevel.ONE]⟩

/-- The scan by UUID cursor followed by the row loop. -/
def scanFrom {α : Type} (conn : Conn) (lib : Lib)
    (body : KeySlice → Except Error (Option α))
    (cf keyPrefix keyEnd : Bytes) (names : List Bytes) (prev : Bytes) (num : Int) :
    Outcome (List α) :=
  match cursorStart lib keyPrefix prev with
  | none => ⟨[], some Error.ParseUUID, []⟩
  | some startKey =>
    scanRows conn body { ColumnFamily := cf } { ColumnNames := names }
      { StartKey := startKey, EndKey := keyEnd, Count := num }

/-- Strictly ascending keys. -/
def keyLt (a b : KeySlice) : Bool := bytesLe a.Key b.Key && decide (a.Key ≠ b.Key)

/-- The row has at least one column. -/
def hasColumns (ks : KeySlice) : Bool := decide (ks.Columns ≠ [])

/-- The numeric and boolean columns of the row are wide enough to decode. -/
def KeySlice.Decodable (ks : KeySlice) : Prop :=
  ∀ c ∈ ks.Columns,
    (c.Name = str "fee" ∨ c.Name = str "payments_caught_up_to" → 8 ≤ c.Value.length) ∧
    (c.Name = str "fee_yearly" ∨ c.Name = str "has_key" → 1 ≤ c.Value.length)

/-! ## Sample stores for the enumerations -/

/-- A second application record. -/
def bobRecord : MembershipAgreement :=
  { MemberData := some { Name := some (str "Bob"), Fee := some 50, FeeYearly := some true },
    Metadata := some { RequestTimestamp := some 3 } }

/-- The queue: `sampleRecord` under `uuid1`, a row under `uuid3` that has no
`pb_data` column, and `bobRecord` under `sampleUUID`. -/
def queueStore : Store :=
  [⟨queuePrefix ++ sampleUUID, str "membership_queue",
      ⟨str "pb_data", encodeFields bobRecord.toFields, some 3000000000, none⟩⟩,
   ⟨queuePrefix ++ uuid1, str "membership_queue",
      ⟨str "pb_data", sampleBlob, some 1000000000, none⟩⟩,
   ⟨queuePrefix ++ uuid3, str "membership_queue",
      ⟨str "name", str "Eve", some 2000000000, none⟩⟩]

/-- Two applications, of Ada under `uuid1` and of Bob under `uuid3`, with
their projected columns. -/
def twoRequests : Store :=
  [⟨applicationPrefix ++ uuid1, str "application",
      ⟨str "name", str "Ada", some 1000000000, none⟩⟩,
   ⟨applicationPrefix ++ uuid1, str "application",
      ⟨str "fee", PutUint64 20, some 1000000000, none⟩⟩,
   ⟨applicationPrefix ++ uuid1, str "application",
      ⟨str "fee_yearly", [0], some 1000000000, none⟩⟩,
   ⟨applicationPrefix ++ uuid1, str "application",
      ⟨str "pb_data", sampleBlobNoPdf, some 1000000000, none⟩⟩,
   ⟨applicationPrefix ++ uuid3, str "application",
      ⟨str "name", str "Bob", some 3000000000, none⟩⟩,
   ⟨applicationPrefix ++ uuid3, str "application",
      ⟨str "fee", PutUint64 50, some 3000000000, none⟩⟩,
   ⟨applicationPrefix ++ uuid3, str "application",
      ⟨str "fee_yearly", [1], some 3000000000, none⟩⟩,
   ⟨applicationPrefix ++ uuid3, str "application",
      ⟨str "pb_data", encodeFields bobRecord.toFields, some 3000000000, none⟩⟩]

/-- A member store with two members of the same username `ada`: the member
`ada` with `namedRecord` and the member `eve` with `unnamedRecord`. -/
def twoNamed : Store :=
  [⟨memberPrefix ++ str "eve", str "members",
      ⟨str "pb_data", encodeFields unnamedRecord.toFields, some 2000000000, none⟩⟩,
   ⟨memberPrefix ++ str "eve", str "members",
      ⟨str "username", str "ada", some 2000000000, none⟩⟩,
   ⟨memberPrefix ++ str "ada", str "members",
      ⟨str "pb_data", encodeFields namedRecord.toFields, some 1000000000, none⟩⟩,
   ⟨memberPrefix ++ str "ada", str "members",
      ⟨str "username", str "ada", some 1000000000, none⟩⟩]

/-! ## The consistency levels of the calls -/

/-- The consistency levels of the reads among the calls. -/
def readLevels (calls : List Call) : List ConsistencyLevel :=
  calls.filterMap (fun c =>
    match c with
    | .Get _ _ cl => some cl
    | .GetRangeSlices _ _ _ cl => some cl
    | .BatchMutate _ _ => none
    | .AtomicBatchMutate _ _ => none)

/-- The consistency levels of the writes among the calls. -/
def writeLevels (calls : List Call) : List ConsistencyLevel :=
  calls.filterMap (fun c =>
    match c with
    | .Get _ _ _ => none
    | .GetRangeSlices _ _ _ _ => none
    | .BatchMutate _ cl => some cl
    | .AtomicBatchMutate _ cl => some cl)

/-- Every read of the call was issued at `r` and every write at `w`; a
successful call issued exactly one read and one write. -/
def IssuedAt (o : Outcome Unit) (r w : ConsistencyLevel) : Prop :=
  (∀ cl ∈ readLevels o.calls, cl = r) ∧ (∀ cl ∈ writeLevels o.calls, cl = w) ∧
  (o.err = none → readLevels o.calls = [r] ∧ writeLevels o.calls = [w])

/-! ## `formvalidator.go` -/

/-- The UTF-8 encoding of a code point. -/
def utf8Char (n : Nat) : Bytes :=
  if n < 128 then [n]
  else if n < 2048 then [192 + n / 64, 128 + n % 64]
  else if n < 65536 then [224 + n / 4096, 128 + n / 64 % 64, 128 + n % 64]
  else [240 + n / 262144, 128 + n / 4096 % 64, 128 + n / 64 % 64, 128 + n % 64]

/-- The bytes of a Go string constant (UTF-8). -/
def utf8 (s : String) : Bytes := s.toList.flatMap (fun c => utf8Char c.toNat)

/-- The constant `accepted`. -/
def accepted : Bytes := str "accepted"

/-- The part of `http.Request` the form handler reads: the path of the URL,
the error of `ParseForm` (its text), the posted form (the first value of each
key), the headers `X-Real-IP` and `User-Agent`, and the remote address. -/
structure Request where
  Path : Bytes := []
  ParseForm : Option Bytes := none
  PostForm : List (Bytes × Bytes) := []
  RealIP : Bytes := []
  UserAgent : Bytes := []
  RemoteAddr : Bytes := []
deriving DecidableEq, Repr

/-- Go `req.PostFormValue(key)`: the empty string for a missing key. -/
def Request.PostFormValue (req : Request) (key : Bytes) : Bytes :=
  (mapGet req.PostForm key).getD []

/-- The error of `strconv.ParseFloat`, as the handler tells it apart. -/
inductive FloatError where
  | ErrRange
  | ErrSyntax
  | other (text : Bytes)
deriving DecidableEq, Repr

/-- What the handler observes of a `float64` fee and the error returned with
it: the error, the comparison `fee < minfee`, and the conversion
`uint64(fee)`. -/
structure ParsedFee where
  err : Option FloatError := none
  below : Nat → Bool := fun minfee => decide (0 < minfee)
  toUint64 : Nat := 0

/-- The library functions of the form handler: the two compiled regular
expressions (`MatchString`), `strings.ToLower`, the base64 encoding of the
SHA-1 sum of the password, `strconv.ParseFloat`, and the text of an error. -/
structure FormLib where
  emailRe : Bytes → Bool
  phoneRe : Bytes → Bool
  ToLower : Bytes → Bytes
  sha1Base64 : Bytes → Bytes
  ParseFloat : Bytes → ParsedFee
  errorText : Error → Bytes

/-- The template the handler executes, or the passthrough handler. -/
inductive Page where
  | passthrough
  | application
  | print
deriving DecidableEq, Repr

/-- What a request was answered with: the page and its data, the argument of
`StoreMembershipRequest` when it was called, the calls on the store, and the
keys added to the counters `num-form-submission-errors`. -/
structure Served where
  page : Page
  data : FormInputData
  stored : Option FormInputData
  calls : List Call
  submitErrors : List Bytes
deriving DecidableEq, Repr

/-- The local state of `ServeHTTP` while it checks the fields. -/
structure Checked where
  member : Member := {}
  FieldErr : List (Bytes × Bytes) := []
  ok : Bool := true
  submitErrors : List Bytes := []
deriving DecidableEq, Repr

/-- The statements `numSubmitErrors.Add(counter, 1)` and
`data.FieldErr[key] = text`. -/
def Checked.fieldErr (s : Checked) (counter key text : Bytes) : Checked :=
  { s with FieldErr := mapSet s.FieldErr key text, submitErrors := s.submitErrors ++ [counter] }

/-- The statement `data.FieldErr[key] = text`. -/
def Checked.setErr (s : Checked) (key text : Bytes) : Checked :=
  { s with FieldErr := mapSet s.FieldErr key text }

/-- The statement `ok = false`. -/
def Checked.notOk (s : Checked) : Checked := { s with ok := false }

/-- The checks of `ServeHTTP` on the posted form, in the order of the source. -/
def checkForm (flib : FormLib) (req : Request) : Checked :=
  let s : Checked := {}
  let name := req.PostFormValue (str "mr[name]")
  let s :=
    if name.length ≤ 0 then s.fieldErr (str "no-name") (str "name") (utf8 "Ein Name ist erforderlich")
    else { s with member := { s.member with Name := some name } }
  let address := req.PostFormValue (str "mr[address]")
  let s :=
    if address.length ≤ 0 then
      s.fieldErr (str "no-street") (str "address") (utf8 "Eine Adresse ist erforderlich")
    else { s with member := { s.member with Street := some address } }
  let city := req.PostFormValue (str "mr[city]")
  let s :=
    if city.length ≤ 0 then
      s.fieldErr (str "no-city") (str "city") (utf8 "Ein Wohnort ist erforderlich")
    else { s with member := { s.member with City := some city } }
  let zip := req.PostFormValue (str "mr[zip]")
  let s :=
    if zip.length ≤ 0 then
      s.fieldErr (str "no-zip") (str "zip") (utf8 "Eine Postleitzahl ist erforderlich")
    else { s with member := { s.member with Zipcode := some zip } }
  let country := req.PostFormValue (str "mr[country]")
  let s :=
    if country.length ≤ 0 then
      s.fieldErr (str "no-country") (str "country") (utf8 "Ein Wohnland ist erforderlich")
    else { s with member := { s.member with Country := some country } }
  let email := req.PostFormValue (str "mr[email]")
  let s :=
    if ¬ flib.emailRe email then
      let s :=
        if email.length > 0 then
          s.fieldErr (str "bad-email-format") (str "email")
            (utf8 "Mailadresse sollte im Format a@b.ch sein")
        else s.fieldErr (str "no-email") (str "email") (utf8 "Muss angegeben werden")
      s.notOk
    else { s with member := { s.member with Email := some email } }
  let phone := req.PostFormValue (str "mr[telephone]")
  let s :=
    if phone.length > 0 ∧ ¬ flib.phoneRe phone then
      (s.fieldErr (str "bad-phone-format") (str "telephone")
          (utf8 "Telephonnummer sollte im Format +41 79 123 45 67 sein")).notOk
    else { s with member := { s.member with Phone := some phone } }
  let username := flib.ToLower (req.PostFormValue (str "mr[username]"))
  let s :=
    if username.length > 0 then { s with member := { s.member with Username := some username } }
    else s
  let pw := req.PostFormValue (str "mr[password]")
  let s :=
    if pw ≠ req.PostFormValue (str "mr[passwordConfirm]") then
      (s.fieldErr (str "password-mismatch") (str "password")
          (utf8 "Passworte stimmen nicht überein")).notOk
    else { s with member := { s.member with Pwhash := some (str "{SHA}" ++ flib.sha1Base64 pw) } }
  let s :=
    if req.PostFormValue (str "mr[statutes]") ≠ accepted then
      (s.fieldErr (str "statutes-not-accepted") (str "statutes")
          (utf8 "Statuten müssen akzeptiert werden")).notOk
    else s
  let s :=
    if req.PostFormValue (str "mr[ipay]") ≠ accepted then
      (s.fieldErr (str "payment-not-accepted") (str "ipay")
          (utf8 "Zahlungsbereitschaft ist notwendig")).notOk
    else s
  let s :=
    if req.PostFormValue (str "mr[rules]") ≠ accepted then
      (s.fieldErr (str "rules-not-accepted") (str "rules")
          (utf8 "Reglement muss akzeptiert werden")).notOk
    else s
  let s :=
    if req.PostFormValue (str "mr[privacy_ok]") ≠ accepted then
      (s.fieldErr (str "gdpr-not-accepted") (str "privacy_ok")
          (utf8 "Datenverarbeitung muss genehmigt werden")).notOk
    else s
  let s :=
    if req.PostFormValue (str "mr[email_ok]") ≠ accepted then
      (s.fieldErr (str "email-not-accepted") (str "email_ok")
          (utf8 "E-Mailverkehr muss genehmigt werden")).notOk
    else s
  let s :=
    if req.PostFormValue (str "mr[gt18]") ≠ str "yes" then
      (s.fieldErr (str "not-gt18") (str "gt18")
          (utf8 "Man muss mindestens 18 Jahre sein, um uns beizutreten")).notOk
    else s
  let yearly : Bool := decide (req.PostFormValue (str "mr[yearly]") = str "yes")
  let s := { s with member := { s.member with FeeYearly := some yearly } }
  let minfee : Nat := if yearly then 200 else 20
  let customFee := req.PostFormValue (str "mr[customFee]")
  let fee : ParsedFee := if customFee.length > 0 then flib.ParseFloat customFee else {}
  let s :=
    if customFee.length > 0 then
      match fee.err with
      | some FloatError.ErrRange =>
        (s.fieldErr (str "fee-out-of-range") (str "customFee")
            (utf8 "Der Betrag ist irgendwie etwas gross/klein, oder?")).notOk
      | some FloatError.ErrSyntax =>
        (s.fieldErr (str "fee-not-a-number") (str "customFee")
            (utf8 "Der Mitgliedsbeitrag kann nicht als Zahl identifiziert werden")).notOk
      | some (FloatError.other text) =>
        (s.setErr (str "customFee") text).notOk
      | none => s
    else s
  if req.PostFormValue (str "mr[fee]") = str "custom" then
    if fee.below minfee ∧ req.PostFormValue (str "mr[reduction]") ≠ str "requested" then
      (s.fieldErr (str "low-fee-without-reduction") (str "customFee")
          (utf8 "Für einen Betrag unter " ++ (if yearly then str "200" else str "20")
            ++ utf8 " CHF muss eine Ermässigung beantragt werden")).notOk
    else if customFee.length ≤ 0 then
      (s.setErr (str "customFee")
        (utf8 "Die Angabe eines Mitgliedsbeitrages ist notwendig")).notOk
    else { s with member := { s.member with Fee := some fee.toUint64 } }
  else if req.PostFormValue (str "mr[fee]")
      ≠ str "SFr. " ++ (if yearly then str "200" else str "20") ++ str ".--" then
    (s.fieldErr (str "unknown-fee-value") (str "fee")
        (utf8 "Unbekannter Wert für den Mitgliedsbeitrag")).notOk
  else { s with member := { s.member with Fee := some minfee } }

/-- Parse the form data from the membership signup form and verify that it
can be considered acceptable. If the data looks correct, return the print
template for the user to sign and send in. -/
def ServeHTTP (useProxyRealIP : Bool) (conn : Conn) (lib : Lib) (flib : FormLib) (now : Time)
    (req : Request) : Served :=
  if (str "/css/").isPrefixOf req.Path ∨ (str "/js/").isPrefixOf req.Path ∨
      (str "/img/").isPrefixOf req.Path ∨ req.Path = str "/favicon.ico" then
    ⟨Page.passthrough, {}, none, [], []⟩
  else
    let data : FormInputData := { FieldErr := [], MemberData := some {} }
    match req.ParseForm with
    | some e => ⟨Page.application, { data with CommonErr := e }, none, [], [e]⟩
    | none =>
      if req.PostForm.length = 0 then ⟨Page.application, data, none, [], []⟩
      else
        let s := checkForm flib req
        let meta0 : MembershipMetadata :=
          { Comment := some (req.PostFormValue (str "mr[comments]")),
            RequestSourceIp := some (if useProxyRealIP then req.RealIP else req.RemoteAddr),
            UserAgent := some req.UserAgent }
        let data : FormInputData :=
          { data with MemberData := some s.member, FieldErr := s.FieldErr, Metadata := some meta0 }
        if s.ok then
          let r := StoreMembershipRequest conn lib now data
          let meta1 := if lib.GenTimeUUID now = none then meta0 else stampedMetadata meta0 now
          let data1 : FormInputData := { data with Key := r.value, Metadata := some meta1 }
          match r.err with
          | some err =>
            ⟨Page.application, { data1 with CommonErr := flib.errorText err }, some data, r.calls,
              s.submitErrors ++ [str "cassandra-store"]⟩
          | none => ⟨Page.print, data1, some data, r.calls, s.submitErrors⟩
        else ⟨Page.application, data, none, [], s.submitErrors⟩

/-- A stand-in for the library functions of the form handler: every address
with an `@` and every phone number match, the other functions return their
argument or nothing. -/
def sampleFormLib : FormLib where
  emailRe := fun b => decide (64 ∈ b)
  phoneRe := fun _ => true
  ToLower := fun b => b
  sha1Base64 := fun b => b
  ParseFloat := fun _ => {}
  errorText := fun _ => []

/-- A signup form with every field filled in and every box ticked. -/
def fullForm : Request :=
  { Path := str "/",
    PostForm :=
      [(str "mr[name]", str "Ada"), (str "mr[address]", str "Main Street 1"),
       (str "mr[city]", str "Bern"), (str "mr[zip]", str "3000"), (str "mr[country]", str "CH"),
       (str "mr[email]", str "ada@example.org"), (str "mr[statutes]", str "accepted"),
       (str "mr[ipay]", str "accepted"), (str "mr[rules]", str "accepted"),
       (str "mr[privacy_ok]", str "accepted"), (str "mr[email_ok]", str "accepted"),
       (str "mr[gt18]", str "yes"), (str "mr[fee]", str "SFr. 20.--")],
    UserAgent := str "curl", RemoteAddr := str "192.0.2.1:4711" }

/-- The form `fullForm` with the field of the given key left empty. -/
def formWithout (key : Bytes) : Request :=
  { fullForm with PostForm := mapSet fullForm.PostForm key [] }

/-- A member store with both families: `sampleRecord` as the member `ada` in
`members` and in `member_agreements`. -/
def agreedStore : Store :=
  [⟨memberPrefix ++ str "ada", str "members",
      ⟨str "pb_data", sampleBlob, some 1000000000, none⟩⟩,
   ⟨memberPrefix ++ str "ada", str "member_agreements",
      ⟨str "pb_data", sampleBlob, some 1000000000, none⟩⟩]

/-! ## The key namespaces of the stages -/

/-- Lexicographic byte order, `a < b`. -/
def bytesLt (a b : Bytes) : Bool := !bytesLe b a

/-- The five stages, each with a key prefix and an end key. -/
inductive Stage where
  | application
  | queue
  | dequeue
  | archive
  | member
deriving DecidableEq, Repr

/-- The key prefix of the stage. -/
def Stage.keyPrefix (st : Stage) : Bytes :=
  match st with
  | .application => applicationPrefix
  | .queue => queuePrefix
  | .dequeue => dequeuePrefix
  | .archive => archivePrefix
  | .member => memberPrefix

/-- The end key of the stage. -/
def Stage.keyEnd (st : Stage) : Bytes :=
  match st with
  | .application => applicationEnd
  | .queue => queueEnd
  | .dequeue => dequeueEnd
  | .archive => archiveEnd
  | .member => memberEnd

/-- The stage the enumeration scans. -/
def Enumeration.stage (e : Enumeration) : Stage :=
  match e with
  | .members => Stage.member
  | .requests _ => Stage.application
  | .queued => Stage.queue
  | .dequeued => Stage.dequeue
  | .trashed => Stage.archive

/-! ## Records made by the operations on applications -/

/-- The operations that create and change application records:
`StoreMembershipRequest`, `StoreMembershipAgreement` and the three transitions
made by `moveRecordToTable`, each with the time of the call. -/
inductive Step where
  | request (now : Time) (req : FormInputData)
  | agreement (now : Time) (id agreement_data : Bytes)
  | move (t : Transition) (now : Time) (id initiator : Bytes)
deriving DecidableEq, Repr

/-- The calls the operation issues on the store `s`. -/
def Step.calls (st : Step) (lib : Lib) (s : Store) : List Call :=
  match st with
  | .request now req => (StoreMembershipRequest s.conn lib now req).calls
  | .agreement now id agreement_data =>
    (StoreMembershipAgreement s.conn lib now id agreement_data).calls
  | .move t now id initiator => (t.run s.conn lib now id initiator).calls

/-- The store after the operations, run one after the other. -/
def Store.after (s : Store) (lib : Lib) (steps : List Step) : Store :=
  steps.foldl (fun s1 st => s1.applyCalls (st.calls lib s1)) s

/-- The column has a time stamp and its value decodes, without error, to a
record with metadata. -/
def Column.HasMetadata (col : Column) (lib : Lib) : Prop :=
  col.Timestamp ≠ none ∧
  ∃ m md, lib.Unmarshal col.Value = (m, none) ∧ m.Metadata = some md

/-- Every `pb_data` column of the store has metadata. -/
def Store.HasMetadata (s : Store) (lib : Lib) : Prop :=
  ∀ c ∈ s, c.column.Name = str "pb_data" → c.column.HasMetadata lib

/-- The example scenario: the signup of Ada, her agreement, her approval. -/
def adaSteps : List Step :=
  [Step.request time1 adaRequest,
   Step.agreement time2 (hexEncodeToString uuid1) [37, 80, 68, 70],
   Step.move Transition.ApplicantToNewMember time3 (hexEncodeToString uuid1) (str "admin1")]

/-! ## The scan of an enumeration -/

/-- The column family the enumeration scans. -/
def Enumeration.family (e : Enumeration) : Bytes :=
  match e with
  | .members => str "members"
  | .requests _ => str "application"
  | .queued => str "membership_queue"
  | .dequeued => str "membership_dequeue"
  | .trashed => str "membership_archive"

/-- The column names the enumeration asks for. -/
def Enumeration.columnNames (e : Enumeration) : List Bytes :=
  match e with
  | .members =>
    [str "name", str "city", str "country", str "email", str "phone", str "username",
     str "fee", str "fee_yearly", str "has_key", str "payments_caught_up_to"]
  | .requests _ => [str "name", str "street", str "city", str "fee", str "fee_yearly"]
  | .queued => [str "pb_data"]
  | .dequeued => [str "pb_data"]
  | .trashed => [str "pb_data"]

/-- The cursor the enumeration appends to the key prefix: `EnumerateMembers`
takes `prev` as it is, the others parse a `prev` that is not empty as a UUID
(`none` when it does not parse). -/
def Enumeration.cursor (e : Enumeration) (lib : Lib) (prev : Bytes) : Option Bytes :=
  match e with
  | .members => some prev
  | _ => if prev.length > 0 then lib.ParseUUID prev else some []

/-- The key the entry of the enumeration carries: `Key` of a `MemberWithKey`;
`EnumerateMembers` puts the key of the row into `Email`. -/
def Enumeration.entryKey (e : Enumeration) (m : e.Entry) : Option Bytes :=
  match e, m with
  | .members, m => m.Email
  | .requests _, m => some m.Key
  | .queued, m => some m.Key
  | .dequeued, m => some m.Key
  | .trashed, m => some m.Key

/-- The key of the row as the enumeration presents it: the key without the
prefix of the stage, for `EnumerateMembers` as it is, for the others as the
string of the UUID made of it. -/
def Enumeration.rowKey (e : Enumeration) (lib : Lib) (ks : KeySlice) : Bytes :=
  match e with
  | .members => ks.Key.drop e.stage.keyPrefix.length
  | _ => lib.UUIDString (lib.UUIDFromBytes (ks.Key.drop e.stage.keyPrefix.length))

/-! ## Facts about the reference library -/

theorem decodeField_encodeField (x : Option Bytes) (rest : Bytes) :
    decodeField (encodeField x rest) = some (x, rest) := by
  cases x with
  | none => rfl
  | some l => simp [encodeField, decodeField]

theorem decodeFields_encodeFields (fs : List (Option Bytes)) :
    decodeFields fs.length (encodeFields fs) = some fs := by
  induction fs with
  | nil => rfl
  | cons x xs ih =>
    show decodeFields (xs.length + 1) (encodeField x (encodeFields xs)) = some (x :: xs)
    simp [decodeFields, decodeField_encodeField, ih]

theorem fieldNat_natField (x : Option Nat) : fieldNat (natField x) = x := by
  cases x <;> rfl

theorem fieldBool_boolField (x : Option Bool) : fieldBool (boolField x) = x := by
  cases x with
  | none => rfl
  | some b => cases b <;> rfl

theorem toFields_length (m : MembershipAgreement) : m.toFields.length = 25 := by
  rcases m with ⟨_ | d, _ | e, pdf⟩ <;> rfl

theorem ofFields_toFields (m : MembershipAgreement) :
    MembershipAgreement.ofFields m.toFields = some m := by
  rcases m with ⟨_ | d, _ | e, pdf⟩ <;>
    simp [MembershipAgreement.toFields, MembershipAgreement.ofFields, Member.toFields,
      MembershipMetadata.toFields, fieldNat_natField, fieldBool_boolField, List.replicate]

theorem refLib_exact : refLib.Exact := by
  intro m
  refine ⟨encodeFields m.toFields, rfl, ?_⟩
  have h := decodeFields_encodeFields m.toFields
  rw [toFields_length] at h
  simp [refLib, h, ofFields_toFields]

theorem Lib.Exact.roundTrip {lib : Lib} (h : lib.Exact) : lib.RoundTrip := by
  intro m b hb
  obtain ⟨b1, h1, h2⟩ := h m
  rw [h1] at hb
  cases hb
  exact h2

theorem newCassandraMutationBytes_eq (name value : Bytes) (now : Time) (ttl : Int) :
    newCassandraMutationBytes name value now ttl =
      ⟨some ⟨name, value, some now.UnixNano, if ttl > 0 then some ttl else none⟩, none⟩ := by
  unfold newCassandraMutationBytes
  split <;> rfl

theorem Store.Get_eq_notFound {s : Store} {key : Bytes} {cp : ColumnPath}
    (h : ∀ c ∈ s, c.isAt key cp.ColumnFamily cp.Column = false) :
    s.Get key cp = .error StoreError.NotFound := by
  unfold Store.Get
  have : s.find? (fun c => c.isAt key cp.ColumnFamily cp.Column) = none := by
    rw [List.find?_eq_none]
    intro c hc
    simp [h c hc]
  rw [this]

theorem Store.Get_ok_of_mem {s : Store} {key : Bytes} {cp : ColumnPath} {c : Cell}
    (hc : c ∈ s) (h : c.isAt key cp.ColumnFamily cp.Column = true) :
    ∃ col, s.Get key cp = .ok col := by
  unfold Store.Get
  cases hf : s.find? (fun c => c.isAt key cp.ColumnFamily cp.Column) with
  | some d => exact ⟨d.column, rfl⟩
  | none =>
    rw [List.find?_eq_none] at hf
    exact absurd h (by simpa using hf c hc)

theorem Store.mem_of_Get_ok {s : Store} {key : Bytes} {cp : ColumnPath} {col : Column}
    (h : s.Get key cp = .ok col) :
    ∃ c ∈ s, c.isAt key cp.ColumnFamily cp.Column = true ∧ c.column = col := by
  unfold Store.Get at h
  cases hf : s.find? (fun c => c.isAt key cp.ColumnFamily cp.Column) with
  | some d =>
    rw [hf] at h
    simp only [Except.ok.injEq] at h
    exact ⟨d, List.mem_of_find?_eq_some hf, by simpa using List.find?_some hf, h⟩
  | none => rw [hf] at h; cases h

theorem Store.mem_insert {s : Store} {key family : Bytes} {col : Column} {c : Cell}
    (h : c ∈ s.insert key family col) : c ∈ s ∨ c = ⟨key, family, col⟩ := by
  unfold Store.insert at h
  split at h
  · exact Or.inl h
  · rw [List.mem_append] at h
    rcases h with h | h
    · exact Or.inl (List.mem_filter.mp h).1
    · exact Or.inr (by simpa using h)

theorem Store.exists_mem_insert (s : Store) (key family : Bytes) (col : Column) :
    ∃ c ∈ s.insert key family col, c.isAt key family col.Name = true := by
  unfold Store.insert
  split
  · rename_i h
    rw [List.any_eq_true] at h
    obtain ⟨c, hc, hat⟩ := h
    exact ⟨c, hc, by simp at hat; exact hat.1⟩
  · exact ⟨⟨key, family, col⟩, by simp, by simp [Cell.isAt]⟩

theorem Store.mem_delete {s : Store} {key family : Bytes} {del : Deletion} {c : Cell} :
    c ∈ s.delete key family del ↔
      c ∈ s ∧ ¬ (c.key = key ∧ c.family = family ∧ del.names c.column.Name = true
        ∧ c.ts ≤ del.Timestamp.getD 0) := by
  unfold Store.delete
  cases hn : del.names c.column.Name <;> simp [List.mem_filter, hn]
  intro _
  tauto

/-! ## Facts about `moveRecordToTable` -/

theorem applicationPrefix_eq :
    applicationPrefix = [97, 112, 112, 108, 105, 99, 97, 110, 116, 58] := by rfl

theorem queuePrefix_eq : queuePrefix = [113, 117, 101, 117, 101, 58] := by rfl

theorem archivePrefix_eq : archivePrefix = [97, 114, 99, 104, 105, 118, 101, 58] := by rfl

theorem dequeuePrefix_eq : dequeuePrefix = [100, 101, 113, 117, 101, 117, 101, 58] := by rfl

theorem memberPrefix_eq : memberPrefix = [109, 101, 109, 98, 101, 114, 58] := by rfl

theorem Transition.run_eq (t : Transition) (conn : Conn) (lib : Lib) (now : Time)
    (id initiator : Bytes) :
    t.run conn lib now id initiator =
      moveRecordToTable conn lib now id initiator t.srcTable t.srcPrefix t.dstTable
        t.dstPrefix t.ttl := by
  cases t <;> rfl

theorem Transition.keys_ne (t : Transition) (u : Bytes) :
    t.dstPrefix ++ u ≠ t.srcPrefix ++ u := by
  intro h
  have hl := congrArg List.length h
  cases t <;>
    simp only [Transition.dstPrefix, Transition.srcPrefix, applicationPrefix_eq, queuePrefix_eq,
      archivePrefix_eq, List.length_append, List.length_cons, List.length_nil] at hl <;>
    omega

/-- What a successful `moveRecordToTable` has read and issued, for distinct
source and destination keys. -/
theorem moveRecordToTable_ok {conn : Conn} {lib : Lib} {now : Time}
    {id initiator st sp dt dp : Bytes} {ttl : Int} {u : Bytes}
    (hu : lib.ParseUUID id = some u) (hne : dp ++ u ≠ sp ++ u)
    (h : (moveRecordToTable conn lib now id initiator st sp dt dp ttl).err = none) :
    ∃ r timestamp member md value,
      conn.Get (sp ++ u) ⟨st, str "pb_data"⟩ ConsistencyLevel.ONE = .ok r ∧
      r.Timestamp = some timestamp ∧
      lib.Unmarshal r.Value = (member, none) ∧
      member.Metadata = some md ∧
      ¬ (dt = str "membership_queue" ∧ member.AgreementPdf.length = 0) ∧
      lib.Marshal (approved member md initiator now) = some value ∧
      (moveRecordToTable conn lib now id initiator st sp dt dp ttl).calls =
        [Call.Get (sp ++ u) ⟨st, str "pb_data"⟩ ConsistencyLevel.ONE,
         Call.AtomicBatchMutate
           [(dp ++ u, [(dt, [newCassandraMutationBytes (str "pb_data") value now ttl])]),
            (sp ++ u, [(st, [⟨none, some ⟨some timestamp, some allColumns⟩⟩])])]
           ConsistencyLevel.QUORUM] := by
  unfold moveRecordToTable GetMembershipRequest at *
  simp only [hu] at h ⊢
  cases hget : conn.Get (sp ++ u) ⟨st, str "pb_data"⟩ ConsistencyLevel.ONE with
  | error e => simp [hget] at h
  | ok r =>
    simp only [hget] at h ⊢
    cases hts : r.Timestamp with
    | none => simp [hts] at h
    | some timestamp =>
      simp only [hts] at h ⊢
      cases hum : lib.Unmarshal r.Value with
      | mk member e =>
        simp only [hum] at h ⊢
        cases e with
        | some e => simp at h
        | none =>
          simp only [] at h ⊢
          by_cases hc : dt = str "membership_queue" ∧ member.AgreementPdf.length = 0
          · simp [hc] at h
          · simp only [hc, if_false] at h ⊢
            cases hmd : member.Metadata with
            | none => simp [hmd] at h
            | some md =>
              simp only [hmd] at h ⊢
              cases hmar : lib.Marshal (approved member md initiator now) with
              | none =>
                simp only [approved] at hmar
                simp [hmar] at h
              | some value =>
                simp only [approved] at hmar
                simp only [hmar] at h ⊢
                refine ⟨r, timestamp, member, md, value, rfl, hts, hum, hmd, hc, hmar, ?_⟩
                simp [MutationMap.make, MutationMap.setAt, MutationMap.at, mapSet, mapGet, hne,
                  Ne.symm hne]

/-- The store after the batch of a move: the insertion, then the deletion. -/
theorem Store.applyCalls_move (s : Store) (k1 : Bytes) (cp : ColumnPath) (cl1 cl2 : ConsistencyLevel)
    (dk dt sk st : Bytes) (col : Column) (del : Deletion) :
    s.applyCalls [Call.Get k1 cp cl1,
      Call.AtomicBatchMutate [(dk, [(dt, [⟨some col, none⟩])]), (sk, [(st, [⟨none, some del⟩])])] cl2]
      = (s.insert dk dt col).delete sk st del := by
  rfl

/-- A move leaves nothing readable at the source and something readable at
the destination, when no source column is written later than the deletion's
time stamp. -/
theorem Store.move_effect (s : Store) (dk dt sk st : Bytes) (col : Column) (timestamp : Int)
    (hne : dk ≠ sk) (hname : col.Name = str "pb_data")
    (hts : ∀ c ∈ s, c.key = sk → c.family = st → c.ts ≤ timestamp) :
    ((s.insert dk dt col).delete sk st ⟨some timestamp, some allColumns⟩).Get sk
        ⟨st, str "pb_data"⟩ = .error StoreError.NotFound ∧
    ∃ c, ((s.insert dk dt col).delete sk st ⟨some timestamp, some allColumns⟩).Get dk
        ⟨dt, str "pb_data"⟩ = .ok c := by
  constructor
  · apply Store.Get_eq_notFound
    intro c hc
    rw [Store.mem_delete] at hc
    obtain ⟨hin, hnot⟩ := hc
    by_contra hat
    simp only [Cell.isAt, Bool.not_eq_false, Bool.and_eq_true, decide_eq_true_eq] at hat
    obtain ⟨⟨hk, hf⟩, hn⟩ := hat
    rcases Store.mem_insert hin with hs | hnew
    · apply hnot
      refine ⟨hk, hf, ?_, hts c hs hk hf⟩
      simp only [Deletion.names, hn]
      decide
    · rw [hnew] at hk
      exact hne hk
  · obtain ⟨c, hc, hat⟩ := Store.exists_mem_insert s dk dt col
    rw [hname] at hat
    apply Store.Get_ok_of_mem (c := c)
    · rw [Store.mem_delete]
      refine ⟨hc, ?_⟩
      intro hcon
      simp only [Cell.isAt, Bool.and_eq_true, decide_eq_true_eq] at hat
      exact hne (hat.1.1.symm.trans hcon.1)
    · exact hat

/-! ## Facts about `MoveMemberToTrash` -/

theorem member_ne_dequeue (a b : Bytes) : memberPrefix ++ a ≠ dequeuePrefix ++ b := by
  simp [memberPrefix_eq, dequeuePrefix_eq]

/-- What a successful `MoveMemberToTrash` has read and issued. -/
theorem MoveMemberToTrash_ok {conn : Conn} {lib : Lib} {now : Time}
    {id initiator reason : Bytes}
    (h : (MoveMemberToTrash conn lib now id initiator reason).err = none) :
    ∃ uuid cos member md value,
      lib.GenTimeUUID now = some uuid ∧
      conn.Get (memberPrefix ++ id) ⟨str "members", str "pb_data"⟩ ConsistencyLevel.QUORUM
        = .ok cos ∧
      lib.Unmarshal cos.Value = (member, none) ∧
      member.Metadata = some md ∧
      lib.Marshal (dismissed member md initiator reason now) = some value ∧
      (MoveMemberToTrash conn lib now id initiator reason).calls =
        [Call.Get (memberPrefix ++ id) ⟨str "members", str "pb_data"⟩ ConsistencyLevel.QUORUM,
         Call.AtomicBatchMutate
           (if id = uuid then
              [(memberPrefix ++ id, [(str "members",
                  [⟨none, some ⟨cos.Timestamp, some allColumns⟩⟩])]),
               (dequeuePrefix ++ uuid, [(str "membership_dequeue",
                  [⟨some ⟨str "pb_data", value, some now.UnixNano, none⟩, none⟩])])]
            else
              [(memberPrefix ++ id, [(str "members",
                  [⟨none, some ⟨cos.Timestamp, some allColumns⟩⟩])]),
               (dequeuePrefix ++ id, []),
               (dequeuePrefix ++ uuid, [(str "membership_dequeue",
                  [⟨some ⟨str "pb_data", value, some now.UnixNano, none⟩, none⟩])])])
           ConsistencyLevel.QUORUM] := by
  unfold MoveMemberToTrash at *
  cases hgen : lib.GenTimeUUID now with
  | none => simp [hgen] at h
  | some uuid =>
    simp only [hgen] at h ⊢
    cases hget : conn.Get (memberPrefix ++ id) ⟨str "members", str "pb_data"⟩
        ConsistencyLevel.QUORUM with
    | error e => simp [hget] at h
    | ok cos =>
      simp only [hget] at h ⊢
      cases hum : lib.Unmarshal cos.Value with
      | mk member e =>
        simp only [hum] at h ⊢
        cases e with
        | some e => simp at h
        | none =>
          simp only [] at h ⊢
          cases hmd : member.Metadata with
          | none => simp [hmd] at h
          | some md =>
            simp only [hmd] at h ⊢
            cases hmar : lib.Marshal (dismissed member md initiator reason now) with
            | none =>
              simp only [dismissed] at hmar
              simp [hmar] at h
            | some value =>
              simp only [dismissed] at hmar
              simp only [hmar] at h ⊢
              refine ⟨uuid, cos, member, md, value, rfl, rfl, hum, hmd, hmar, ?_⟩
              have h1 : memberPrefix ++ id ≠ dequeuePrefix ++ id := member_ne_dequeue id id
              have h2 : memberPrefix ++ id ≠ dequeuePrefix ++ uuid := member_ne_dequeue id uuid
              by_cases hid : id = uuid
              · subst hid
                simp [MutationMap.make, MutationMap.setAt, MutationMap.at, mapSet, mapGet, h1]
              · simp [MutationMap.make, MutationMap.setAt, MutationMap.at, mapSet, mapGet, h1, h2,
                  hid]

/-- The insertions and deletions of the batch of `MoveMemberToTrash`. -/
theorem trash_batch_mutations (id uuid : Bytes) (del : Deletion) (col : Column) :
    insertions [Call.Get (memberPrefix ++ id) ⟨str "members", str "pb_data"⟩
        ConsistencyLevel.QUORUM,
      Call.AtomicBatchMutate
        (if id = uuid then
          [(memberPrefix ++ id, [(str "members", [⟨none, some del⟩])]),
           (dequeuePrefix ++ uuid, [(str "membership_dequeue", [⟨some col, none⟩])])]
        else
          [(memberPrefix ++ id, [(str "members", [⟨none, some del⟩])]),
           (dequeuePrefix ++ id, []),
           (dequeuePrefix ++ uuid, [(str "membership_dequeue", [⟨some col, none⟩])])])
        ConsistencyLevel.QUORUM]
      = [(dequeuePrefix ++ uuid, str "membership_dequeue", col)] ∧
    deletions [Call.Get (memberPrefix ++ id) ⟨str "members", str "pb_data"⟩
        ConsistencyLevel.QUORUM,
      Call.AtomicBatchMutate
        (if id = uuid then
          [(memberPrefix ++ id, [(str "members", [⟨none, some del⟩])]),
           (dequeuePrefix ++ uuid, [(str "membership_dequeue", [⟨some col, none⟩])])]
        else
          [(memberPrefix ++ id, [(str "members", [⟨none, some del⟩])]),
           (dequeuePrefix ++ id, []),
           (dequeuePrefix ++ uuid, [(str "membership_dequeue", [⟨some col, none⟩])])])
        ConsistencyLevel.QUORUM]
      = [(memberPrefix ++ id, str "members", del)] := by
  by_cases hid : id = uuid <;>
    simp [hid, insertions, deletions, mutationMaps, MutationMap.insertions,
      MutationMap.deletions, MutationMap.mutations]

/-- The insertions and deletions of the batch of a move. -/
theorem move_batch_mutations (k : Bytes) (cp : ColumnPath) (dk dt sk st : Bytes)
    (del : Deletion) (col : Column) :
    insertions [Call.Get k cp ConsistencyLevel.ONE,
      Call.AtomicBatchMutate [(dk, [(dt, [⟨some col, none⟩])]), (sk, [(st, [⟨none, some del⟩])])]
        ConsistencyLevel.QUORUM] = [(dk, dt, col)] ∧
    deletions [Call.Get k cp ConsistencyLevel.ONE,
      Call.AtomicBatchMutate [(dk, [(dt, [⟨some col, none⟩])]), (sk, [(st, [⟨none, some del⟩])])]
        ConsistencyLevel.QUORUM] = [(sk, st, del)] := by
  simp [insertions, deletions, mutationMaps, MutationMap.insertions,
      MutationMap.deletions, MutationMap.mutations]

/-- What a successful transition has read and issued: the column read at the
source key, the record decoded from it, the one insertion and the one deletion
of its batch, and the keys. -/
theorem Move.run_ok {m : Move} {conn : Conn} {lib : Lib} {now : Time} {id initiator : Bytes}
    (h : (m.run conn lib now id initiator).err = none) :
    ∃ srcKey dstKey r member md value,
      conn.Get srcKey ⟨m.srcTable, str "pb_data"⟩ m.readLevel = .ok r ∧
      lib.Unmarshal r.Value = (member, none) ∧
      member.Metadata = some md ∧
      lib.Marshal (m.stamped member md initiator now) = some value ∧
      (∀ t, m = Move.table t → ∃ u, lib.ParseUUID id = some u ∧ srcKey = t.srcPrefix ++ u
          ∧ dstKey = t.dstPrefix ++ u ∧ r.Timestamp ≠ none) ∧
      (∀ reason, m = Move.memberToTrash reason → ∃ uuid, lib.GenTimeUUID now = some uuid
          ∧ srcKey = memberPrefix ++ id ∧ dstKey = dequeuePrefix ++ uuid) ∧
      (m.run conn lib now id initiator).calls.length = 2 ∧
      (∃ mmap, atomicBatches (m.run conn lib now id initiator).calls
        = [(mmap, ConsistencyLevel.QUORUM)]) ∧
      insertions (m.run conn lib now id initiator).calls =
        [(dstKey, m.dstTable, ⟨str "pb_data", value, some now.UnixNano, m.columnTTL⟩)] ∧
      deletions (m.run conn lib now id initiator).calls =
        [(srcKey, m.srcTable, ⟨r.Timestamp, some allColumns⟩)] := by
  cases m with
  | table t =>
    simp only [Move.run, Transition.run_eq] at h ⊢
    cases hu : lib.ParseUUID id with
    | none => simp [moveRecordToTable, hu] at h
    | some u =>
      obtain ⟨r, timestamp, member, md, value, hget, hts, hum, hmd, -, hmar, hcalls⟩ :=
        moveRecordToTable_ok hu (t.keys_ne u) h
      rw [newCassandraMutationBytes_eq] at hcalls
      refine ⟨t.srcPrefix ++ u, t.dstPrefix ++ u, r, member, md, value, hget, hum, hmd, hmar,
        ?_, ?_, ?_, ?_, ?_, ?_⟩
      · intro t1 ht1
        cases ht1
        exact ⟨u, rfl, rfl, rfl, by simp [hts]⟩
      · intro reason hr
        cases hr
      · rw [hcalls]; rfl
      · rw [hcalls]; exact ⟨_, rfl⟩
      · rw [hcalls]; exact (move_batch_mutations _ _ _ _ _ _ _ _).1
      · rw [hcalls, hts]; exact (move_batch_mutations _ _ _ _ _ _ _ _).2
  | memberToTrash reason =>
    simp only [Move.run] at h ⊢
    obtain ⟨uuid, cos, member, md, value, hgen, hget, hum, hmd, hmar, hcalls⟩ :=
      MoveMemberToTrash_ok h
    refine ⟨memberPrefix ++ id, dequeuePrefix ++ uuid, cos, member, md, value, hget, hum, hmd,
      hmar, ?_, ?_, ?_, ?_, ?_, ?_⟩
    · intro t ht
      cases ht
    · intro reason1 hr
      exact ⟨uuid, hgen, rfl, rfl⟩
    · rw [hcalls]; rfl
    · rw [hcalls]; exact ⟨_, rfl⟩
    · rw [hcalls]; exact (trash_batch_mutations _ _ _ _).1
    · rw [hcalls]; exact (trash_batch_mutations _ _ _ _).2

theorem archive_ne_queue : str "membership_archive" ≠ str "membership_queue" := by decide

theorem Move.columnTTL_eq (m : Move) :
    m.columnTTL = if m.dstTable = str "membership_archive" then some 15552000 else none := by
  cases m with
  | table t => cases t <;> decide
  | memberToTrash reason =>
    have h : str "membership_dequeue" ≠ str "membership_archive" := by decide
    simp only [Move.columnTTL, Move.dstTable, if_neg h]

theorem Move.dstTable_archive_iff (m : Move) :
    m.dstTable = str "membership_archive" ↔
      (m = Move.table Transition.ApplicantToTrash
        ∨ m = Move.table Transition.QueuedRecordToTrash) := by
  cases m with
  | table t => cases t <;> decide
  | memberToTrash reason =>
    simp only [Move.dstTable, reduceCtorEq, or_self, iff_false]
    decide

/-! ## Facts about the field updates -/

theorem Uint64_PutUint64 (v : Nat) (h : v < 2 ^ 64) : Uint64 (PutUint64 v) = some v := by
  simp only [PutUint64, Uint64, Option.some.injEq, Nat.mod_mod]
  omega

theorem byteBool_ite (b : Bool) : byteBool (if b then [1] else [0]) = some b := by
  cases b <;> rfl

theorem members_ne_agreements : str "members" ≠ str "member_agreements" := by decide

theorem SetMemberFee_eq (conn : Conn) (lib : Lib) (now : Time) (id : Bytes) (fee : Nat)
    (yearly : Bool) :
    SetMemberFee conn lib now id fee yearly =
      updateWith conn lib now id (fun member => setFee member fee yearly)
        [newCassandraMutationBytes (str "fee") (PutUint64 fee) now 0,
         newCassandraMutationBytes (str "fee_yearly") (if yearly then [1] else [0]) now 0] := by
  unfold SetMemberFee updateWith
  simp [MutationMap.setAt, MutationMap.at, mapSet, mapGet, Time.UnixNano, members_ne_agreements]

theorem SetLongValue_eq (conn : Conn) (lib : Lib) (now : Time) (id field : Bytes) (value : Nat) :
    SetLongValue conn lib now id field value =
      updateWith conn lib now id (fun member => setLongField member field value)
        [newCassandraMutationBytes field (PutUint64 value) now 0] := by
  unfold SetLongValue updateWith
  simp [MutationMap.setAt, MutationMap.at, mapSet, mapGet, Time.UnixNano, members_ne_agreements]

theorem SetBoolValue_eq (conn : Conn) (lib : Lib) (now : Time) (id field : Bytes) (value : Bool) :
    SetBoolValue conn lib now id field value =
      updateWith conn lib now id (fun member => setBoolField member field value)
        [newCassandraMutationBytes field (if value then [1] else [0]) now 0] := by
  unfold SetBoolValue updateWith
  simp [MutationMap.setAt, MutationMap.at, mapSet, mapGet, Time.UnixNano, members_ne_agreements]

theorem SetTextValue_eq (conn : Conn) (lib : Lib) (now : Time) (id field value : Bytes) :
    SetTextValue conn lib now id field value =
      updateWith conn lib now id (fun member => setTextField member field value)
        [newCassandraMutationString field value now] := by
  unfold SetTextValue updateWith
  simp [MutationMap.setAt, MutationMap.at, mapSet, mapGet, Time.UnixNano, members_ne_agreements]

/-- What a successful update has read and issued. -/
theorem updateWith_ok {conn : Conn} {lib : Lib} {now : Time} {id : Bytes}
    {change : MembershipAgreement → Except Error MembershipAgreement} {data : List Mutation}
    (h : (updateWith conn lib now id change data).err = none) :
    ∃ r member changed pb,
      conn.Get (memberPrefix ++ id) ⟨str "members", str "pb_data"⟩ ConsistencyLevel.ONE = .ok r ∧
      lib.Unmarshal r.Value = (member, none) ∧
      change member = .ok changed ∧
      lib.Marshal changed = some pb ∧
      (updateWith conn lib now id change data).calls =
        [Call.Get (memberPrefix ++ id) ⟨str "members", str "pb_data"⟩ ConsistencyLevel.ONE,
         Call.AtomicBatchMutate
           [(memberPrefix ++ id,
              [(str "members",
                  ⟨some { r with Value := pb, Timestamp := some now.UnixNano }, none⟩ :: data),
               (str "member_agreements",
                  [⟨some { r with Value := pb, Timestamp := some now.UnixNano }, none⟩])])]
           ConsistencyLevel.QUORUM] := by
  unfold updateWith at *
  cases hget : conn.Get (memberPrefix ++ id) ⟨str "members", str "pb_data"⟩
      ConsistencyLevel.ONE with
  | error e => simp [hget] at h
  | ok r =>
    simp only [hget] at h ⊢
    cases hum : lib.Unmarshal r.Value with
    | mk member e =>
      simp only [hum] at h ⊢
      cases e with
      | some e => simp at h
      | none =>
        simp only [] at h ⊢
        cases hch : change member with
        | error e => simp [hch] at h
        | ok changed =>
          simp only [hch] at h ⊢
          cases hmar : lib.Marshal changed with
          | none => simp [hmar] at h
          | some pb =>
            simp only [hmar] at h ⊢
            exact ⟨r, member, changed, pb, rfl, hum, hch, hmar, rfl⟩

/-- An update whose change is refused issues no mutation. -/
theorem updateWith_refused (conn : Conn) (lib : Lib) (now : Time) (id : Bytes)
    (change : MembershipAgreement → Except Error MembershipAgreement) (data : List Mutation)
    (h : ∀ member, ∃ e, change member = .error e) :
    (updateWith conn lib now id change data).err ≠ none ∧
    mutationMaps (updateWith conn lib now id change data).calls = [] := by
  unfold updateWith
  cases hget : conn.Get (memberPrefix ++ id) ⟨str "members", str "pb_data"⟩
      ConsistencyLevel.ONE with
  | error e => simp [hget, mutationMaps]
  | ok r =>
    simp only [hget]
    cases hum : lib.Unmarshal r.Value with
    | mk member e =>
      cases e with
      | some e => simp [hum, mutationMaps]
      | none =>
        obtain ⟨e, he⟩ := h member
        simp [hum, he, mutationMaps]

/-- The error of an update whose read and decoding succeeded is the error of
the change, the encoding error, or an error of the store. -/
theorem updateWith_err {conn : Conn} {lib : Lib} {now : Time} {id : Bytes}
    {change : MembershipAgreement → Except Error MembershipAgreement} {data : List Mutation}
    {r : Column} {member : MembershipAgreement} {e : Error}
    (hget : conn.Get (memberPrefix ++ id) ⟨str "members", str "pb_data"⟩ ConsistencyLevel.ONE
      = .ok r)
    (hum : lib.Unmarshal r.Value = (member, none))
    (h : (updateWith conn lib now id change data).err = some e) :
    change member = .error e ∨ e = Error.Marshal ∨ ∃ se, e = Error.Store se := by
  unfold updateWith at h
  simp only [hget, hum] at h
  cases hch : change member with
  | error e1 =>
    simp only [hch, Option.some.injEq] at h
    exact Or.inl (by rw [h])
  | ok changed =>
    simp only [hch] at h
    cases hmar : lib.Marshal changed with
    | none =>
      simp only [hmar, Option.some.injEq] at h
      exact Or.inr (Or.inl h.symm)
    | some pb =>
      simp only [hmar, Option.map_eq_some'] at h
      obtain ⟨se, -, hse⟩ := h
      exact Or.inr (Or.inr ⟨se, hse.symm⟩)

theorem Setter.run_eq_updateWith (k : Setter) (conn : Conn) (lib : Lib) (now : Time) (id field : Bytes) :
    ∃ change data, k.run conn lib now id field = updateWith conn lib now id change data ∧
      (field ∉ k.allowList → ∀ member, change member = .error (Error.UnknownField field)) ∧
      (field ∈ k.allowList → ∀ member, change member ≠ .error (Error.UnknownField field)) := by
  cases k with
  | text value =>
    refine ⟨_, _, SetTextValue_eq conn lib now id field value, ?_, ?_⟩
    · intro h member
      simp only [Setter.allowList, List.mem_cons, List.mem_singleton, List.not_mem_nil, or_false,
        not_or] at h
      simp [setTextField, h]
    · intro h member
      simp only [Setter.allowList, List.mem_cons, List.mem_singleton, List.not_mem_nil,
        or_false] at h
      rcases h with h | h | h | h | h | h | h <;> subst h <;>
        cases hmd : member.MemberData <;>
        simp +decide [setTextField, assignMemberData, hmd]
      split <;> simp
  | long value =>
    refine ⟨_, _, SetLongValue_eq conn lib now id field value, ?_, ?_⟩
    · intro h member
      simp only [Setter.allowList, List.mem_singleton] at h
      simp [setLongField, h]
    · intro h member
      simp only [Setter.allowList, List.mem_singleton] at h
      subst h
      cases hmd : member.MemberData <;> simp [setLongField, assignMemberData, hmd]
  | bool value =>
    refine ⟨_, _, SetBoolValue_eq conn lib now id field value, ?_, ?_⟩
    · intro h member
      simp only [Setter.allowList, List.mem_singleton] at h
      simp [setBoolField, h]
    · intro h member
      simp only [Setter.allowList, List.mem_singleton] at h
      subst h
      cases hmd : member.MemberData <;> simp [setBoolField, assignMemberData, hmd]

theorem setFee_ok {member changed : MembershipAgreement} {fee : Nat} {yearly : Bool}
    (h : setFee member fee yearly = .ok changed) :
    ∃ md, changed.MemberData = some md ∧
      md.field (str "fee") = some (FieldValue.long fee) ∧
      md.field (str "fee_yearly") = some (FieldValue.bool yearly) := by
  unfold setFee assignMemberData at h
  cases hmd : member.MemberData with
  | none => simp [hmd] at h
  | some d =>
    simp only [hmd, Except.ok.injEq] at h
    subst h
    exact ⟨_, rfl, by simp +decide [Member.field], by simp +decide [Member.field]⟩

theorem setLongField_ok {member changed : MembershipAgreement} {field : Bytes} {value : Nat}
    (h : setLongField member field value = .ok changed) :
    field = str "payments_caught_up_to" ∧
    ∃ md, changed.MemberData = some md ∧ md.field field = some (FieldValue.long value) := by
  unfold setLongField assignMemberData at h
  split at h
  · rename_i hf
    subst hf
    cases hmd : member.MemberData with
    | none => simp [hmd] at h
    | some d =>
      simp only [hmd, Except.ok.injEq] at h
      subst h
      exact ⟨rfl, _, rfl, by simp +decide [Member.field]⟩
  · cases h

theorem setBoolField_ok {member changed : MembershipAgreement} {field : Bytes} {value : Bool}
    (h : setBoolField member field value = .ok changed) :
    field = str "has_key" ∧
    ∃ md, changed.MemberData = some md ∧ md.field field = some (FieldValue.bool value) := by
  unfold setBoolField assignMemberData at h
  split at h
  · rename_i hf
    subst hf
    cases hmd : member.MemberData with
    | none => simp [hmd] at h
    | some d =>
      simp only [hmd, Except.ok.injEq] at h
      subst h
      exact ⟨rfl, _, rfl, by simp +decide [Member.field]⟩
  · cases h

theorem setTextField_ok {member changed : MembershipAgreement} {field value : Bytes}
    (h : setTextField member field value = .ok changed) :
    decodeColumn field value = some (FieldValue.text value) ∧
    ∃ md, changed.MemberData = some md ∧ md.field field = some (FieldValue.text value) := by
  unfold setTextField assignMemberData at h
  cases hmd : member.MemberData with
  | none =>
    simp only [hmd] at h
    split_ifs at h
  | some d =>
    simp only [hmd] at h
    have hfield : field ∈ (Setter.text value).allowList := by
      by_contra hn
      simp only [Setter.allowList, List.mem_cons, List.mem_singleton, List.not_mem_nil,
        or_false, not_or] at hn
      simp [hn] at h
    simp only [Setter.allowList, List.mem_cons, List.mem_singleton, List.not_mem_nil,
      or_false] at hfield
    rcases hfield with hf | hf | hf | hf | hf | hf | hf <;> subst hf <;>
      simp +decide only [if_true, if_false, Except.ok.injEq] at h <;>
      first
        | (subst h
           exact ⟨by simp +decide [decodeColumn], _, rfl, by simp +decide [Member.field]⟩)
        | (split_ifs at h
           simp only [Except.ok.injEq] at h
           subst h
           exact ⟨by simp +decide [decodeColumn], _, rfl, by simp +decide [Member.field]⟩)

/-! ## Facts about `StoreMembershipRequest` and the store -/

theorem InsertsOnly.addString {now : Time} {m : FamilyMap} (h : InsertsOnly now m)
    (name : Bytes) (value : Option Bytes) :
    InsertsOnly now (addMembershipRequestInfoString m name value now) := by
  obtain ⟨l, rfl, hl⟩ := h
  unfold addMembershipRequestInfoString
  cases value with
  | none => exact ⟨l, rfl, hl⟩
  | some v =>
    simp only
    split
    · refine ⟨l ++ [newCassandraMutationString name v now], by simp [mapSet, mapGet], ?_⟩
      intro mu hmu
      rw [List.mem_append, List.mem_singleton] at hmu
      rcases hmu with hmu | hmu
      · exact hl mu hmu
      · exact ⟨name, v, hmu⟩
    · exact ⟨l, rfl, hl⟩

theorem InsertsOnly.addBytes {now : Time} {m : FamilyMap} (h : InsertsOnly now m)
    (name value : Bytes) :
    InsertsOnly now (addMembershipRequestInfoBytes m name value now) := by
  obtain ⟨l, rfl, hl⟩ := h
  unfold addMembershipRequestInfoBytes
  refine ⟨l ++ [newCassandraMutationBytes name value now 0], by simp [mapSet, mapGet], ?_⟩
  intro mu hmu
  rw [List.mem_append, List.mem_singleton] at hmu
  rcases hmu with hmu | hmu
  · exact hl mu hmu
  · exact ⟨name, value, hmu⟩

theorem InsertsOnly.init (now : Time) : InsertsOnly now [(str "application", [])] :=
  ⟨[], rfl, by simp⟩

/-- What `StoreMembershipRequest` returns and issues when its inputs are
present, the encoding succeeds and the store accepts the batch. -/
theorem StoreMembershipRequest_ok (conn : Conn) {lib : Lib} {now : Time} {req : FormInputData}
    {md : Member} {meta0 : MembershipMetadata} {uuid bdata : Bytes}
    (hgen : lib.GenTimeUUID now = some uuid)
    (hmd : req.MemberData = some md) (hmeta : req.Metadata = some meta0)
    (hmar : lib.Marshal ⟨some md, some (if meta0.RequestTimestamp = none then
        { meta0 with RequestTimestamp := some (uint64 now.Unix) } else meta0), []⟩ = some bdata)
    (hbatch : ∀ mmap, conn.BatchMutate mmap ConsistencyLevel.QUORUM = none) :
    ∃ cols, (∀ mu ∈ cols, ∃ name value, mu = newCassandraMutationBytes name value now 0) ∧
      StoreMembershipRequest conn lib now req =
        ⟨hexEncodeToString uuid, none,
         [Call.BatchMutate [(applicationPrefix ++ uuid, [(str "application",
            cols ++ [newCassandraMutationBytes (str "pb_data") bdata now 0])])]
            ConsistencyLevel.QUORUM]⟩ := by
  unfold StoreMembershipRequest
  simp only [hgen, hmd, hmeta, hmar, hbatch, Option.map_none']
  generalize hm :
    addMembershipRequestInfoString
      (addMembershipRequestInfoString _ (str "sourceip") meta0.RequestSourceIp now)
      (str "useragent") meta0.UserAgent now = m
  have hP : InsertsOnly now m := by
    rw [← hm]
    apply InsertsOnly.addString
    apply InsertsOnly.addString
    split <;>
    · apply InsertsOnly.addBytes
      apply InsertsOnly.addString
      apply InsertsOnly.addString
      apply InsertsOnly.addBytes
      apply InsertsOnly.addString
      apply InsertsOnly.addBytes
      apply InsertsOnly.addString
      apply InsertsOnly.addString
      apply InsertsOnly.addString
      apply InsertsOnly.addString
      apply InsertsOnly.addString
      apply InsertsOnly.addString
      exact InsertsOnly.init now
  obtain ⟨l, rfl, hl⟩ := hP
  exact ⟨l, hl, by simp [addMembershipRequestInfoBytes, mapSet, mapGet]⟩

theorem Store.Within.insert {s : Store} {key family : Bytes} {t : Int} (h : s.Within key family t)
    (col : Column) (hcol : col.Timestamp.getD 0 ≤ t) : (s.insert key family col).Within key family t := by
  intro c hc
  rcases Store.mem_insert hc with hs | hnew
  · exact h c hs
  · subst hnew
    exact ⟨rfl, rfl, hcol⟩

theorem Store.Within.mono {s : Store} {key family : Bytes} {t t1 : Int}
    (h : s.Within key family t) (ht : t ≤ t1) : s.Within key family t1 :=
  fun c hc => ⟨(h c hc).1, (h c hc).2.1, le_trans (h c hc).2.2 ht⟩

/-- Applying insertions stamped `now` keeps the store within the partition
and the time. -/
theorem Store.Within.applyInserts {key family : Bytes} {now : Time} (cols : List Mutation)
    (hcols : ∀ mu ∈ cols, ∃ name value, mu = newCassandraMutationBytes name value now 0)
    (s : Store) (h : s.Within key family now.UnixNano) :
    (cols.foldl (fun s1 mu => s1.applyMutation key family mu) s).Within key family
      now.UnixNano := by
  induction cols generalizing s with
  | nil => exact h
  | cons mu rest ih =>
    simp only [List.foldl_cons]
    apply ih (fun mu1 h1 => hcols mu1 (List.mem_cons_of_mem _ h1))
    obtain ⟨name, value, rfl⟩ := hcols mu (List.mem_cons_self _ _)
    rw [newCassandraMutationBytes_eq]
    exact h.insert _ (le_refl _)

theorem find?_filter_of_imp {α : Type} (p q : α → Bool) (l : List α)
    (h : ∀ a ∈ l, p a = true → q a = true) :
    (l.filter q).find? p = l.find? p := by
  induction l with
  | nil => rfl
  | cons a rest ih =>
    have ih1 := ih (fun b hb => h b (List.mem_cons_of_mem _ hb))
    by_cases hq : q a = true
    · simp only [List.filter_cons, hq, if_true, List.find?_cons, ih1]
    · have hp : p a = false := by
        cases hpa : p a with
        | false => rfl
        | true => exact absurd (h a (List.mem_cons_self _ _) hpa) hq
      have hq1 : q a = false := by simpa using hq
      simp [List.filter_cons, hq1, List.find?_cons, hp, ih1]

/-- A column written no earlier than what is stored at its place is read
back. -/
theorem Store.Get_insert_self (s : Store) (key family : Bytes) (col : Column)
    (h : ∀ c ∈ s, c.isAt key family col.Name = true → c.ts ≤ col.Timestamp.getD 0) :
    (s.insert key family col).Get key ⟨family, col.Name⟩ = .ok col := by
  unfold Store.insert
  have hany : s.any (fun c => c.isAt key family col.Name
      && decide (col.Timestamp.getD 0 < c.ts)) = false := by
    rw [List.any_eq_false]
    intro c hc
    simp only [Bool.and_eq_true, decide_eq_true_eq, not_and, not_lt]
    exact h c hc
  simp only [hany, Bool.false_eq_true, if_false]
  unfold Store.Get
  have hnone : (s.filter (fun c => !c.isAt key family col.Name)).find?
      (fun c => c.isAt key family col.Name) = none := by
    rw [List.find?_eq_none]
    intro c hc
    have := (List.mem_filter.mp hc).2
    simpa using this
  rw [List.find?_append, hnone]
  simp [Cell.isAt]

/-- Writing a column does not change what is read at another place. -/
theorem Store.Get_insert_other (s : Store) (key family : Bytes) (col : Column)
    (key1 : Bytes) (cp : ColumnPath)
    (h : ¬ (key = key1 ∧ family = cp.ColumnFamily ∧ col.Name = cp.Column)) :
    (s.insert key family col).Get key1 cp = s.Get key1 cp := by
  unfold Store.insert
  split
  · rfl
  · unfold Store.Get
    have hnew : Cell.isAt ⟨key, family, col⟩ key1 cp.ColumnFamily cp.Column = false := by
      simp only [Cell.isAt, Bool.and_eq_false_iff, decide_eq_false_iff_not]
      tauto
    have hf : (s.filter (fun c => !c.isAt key family col.Name)).find?
        (fun c => c.isAt key1 cp.ColumnFamily cp.Column)
        = s.find? (fun c => c.isAt key1 cp.ColumnFamily cp.Column) := by
      apply find?_filter_of_imp
      intro c _ hc
      simp only [Cell.isAt, Bool.and_eq_true, decide_eq_true_eq] at hc
      simp only [Cell.isAt, Bool.not_eq_true', Bool.and_eq_false_iff, decide_eq_false_iff_not]
      obtain ⟨⟨h1, h2⟩, h3⟩ := hc
      by_contra hcon
      push_neg at hcon
      exact h ⟨hcon.1.1.symm.trans h1, hcon.1.2.symm.trans h2, hcon.2.symm.trans h3⟩
    rw [List.find?_append, hf]
    simp only [List.find?_cons, hnew, List.find?_nil]
    cases s.find? (fun c => c.isAt key1 cp.ColumnFamily cp.Column) <;> rfl

/-- A deletion does not change what is read in another partition. -/
theorem Store.Get_delete_other (s : Store) (key family : Bytes) (del : Deletion)
    (key1 : Bytes) (cp : ColumnPath) (h : key ≠ key1) :
    (s.delete key family del).Get key1 cp = s.Get key1 cp := by
  unfold Store.delete Store.Get
  rw [find?_filter_of_imp]
  intro c _ hc
  simp only [Cell.isAt, Bool.and_eq_true, decide_eq_true_eq] at hc
  simp only [Bool.not_eq_true', Bool.and_eq_false_iff, decide_eq_false_iff_not]
  left; left; left
  intro hk
  exact h (hk.symm.trans hc.1.1)

/-- `GetMembershipRequest` on a record that is stored and decodes. -/
theorem GetMembershipRequest_run {s : Store} {lib : Lib} {id table keyPrefix u : Bytes}
    {r : Column} {timestamp : Int} {member : MembershipAgreement}
    (hu : lib.ParseUUID id = some u)
    (hget : s.Get (keyPrefix ++ u) ⟨table, str "pb_data"⟩ = .ok r)
    (hts : r.Timestamp = some timestamp)
    (hum : lib.Unmarshal r.Value = (member, none)) :
    GetMembershipRequest s.conn lib id table keyPrefix =
      ⟨(some member, timestamp), none,
       [Call.Get (keyPrefix ++ u) ⟨table, str "pb_data"⟩ ConsistencyLevel.ONE]⟩ := by
  simp [GetMembershipRequest, hu, Store.conn, hget, hts, hum]

/-- `StoreMembershipAgreement` on a record that is stored and decodes. -/
theorem StoreMembershipAgreement_run (now : Time) {s : Store} {lib : Lib}
    {id u data value : Bytes} {r : Column} {timestamp : Int} {member : MembershipAgreement}
    (hu : lib.ParseUUID id = some u)
    (hget : s.Get (applicationPrefix ++ u) ⟨str "application", str "pb_data"⟩ = .ok r)
    (hts : r.Timestamp = some timestamp)
    (hum : lib.Unmarshal r.Value = (member, none))
    (hmar : lib.Marshal { member with AgreementPdf := data } = some value) :
    StoreMembershipAgreement s.conn lib now id data =
      ⟨(), none,
       [Call.Get (applicationPrefix ++ u) ⟨str "application", str "pb_data"⟩
          ConsistencyLevel.ONE,
        Call.AtomicBatchMutate [(applicationPrefix ++ u, [(str "application",
          [⟨some ⟨str "pb_data", value, some now.UnixNano, none⟩, none⟩,
           ⟨some ⟨str "application_pdf", data, some now.UnixNano, none⟩, none⟩])])]
          ConsistencyLevel.QUORUM]⟩ := by
  unfold StoreMembershipAgreement
  rw [GetMembershipRequest_run hu hget hts hum]
  simp [hu, hmar, Store.conn, MutationMap.make, MutationMap.setAt, mapSet, mapGet,
    addMembershipRequestInfoBytes, newCassandraMutationBytes_eq]

/-- `moveRecordToTable` on a record that is stored, decodes, has metadata and
passes the agreement check. -/
theorem moveRecordToTable_run (now : Time) (initiator : Bytes) (ttl : Int) {s : Store} {lib : Lib}
    {id st sp dt dp u value : Bytes} {r : Column} {timestamp : Int}
    {member : MembershipAgreement} {md : MembershipMetadata}
    (hu : lib.ParseUUID id = some u) (hne : dp ++ u ≠ sp ++ u)
    (hget : s.Get (sp ++ u) ⟨st, str "pb_data"⟩ = .ok r)
    (hts : r.Timestamp = some timestamp)
    (hum : lib.Unmarshal r.Value = (member, none))
    (hc : ¬ (dt = str "membership_queue" ∧ member.AgreementPdf.length = 0))
    (hmd : member.Metadata = some md)
    (hmar : lib.Marshal (approved member md initiator now) = some value) :
    moveRecordToTable s.conn lib now id initiator st sp dt dp ttl =
      ⟨(), none,
       [Call.Get (sp ++ u) ⟨st, str "pb_data"⟩ ConsistencyLevel.ONE,
        Call.AtomicBatchMutate
          [(dp ++ u, [(dt, [⟨some ⟨str "pb_data", value, some now.UnixNano,
              if ttl > 0 then some ttl else none⟩, none⟩])]),
           (sp ++ u, [(st, [⟨none, some ⟨some timestamp, some allColumns⟩⟩])])]
          ConsistencyLevel.QUORUM]⟩ := by
  unfold moveRecordToTable
  rw [GetMembershipRequest_run hu hget hts hum]
  simp only [approved] at hmar
  simp only [hu, hc, if_false, hmd, hmar]
  simp [Store.conn, MutationMap.make, MutationMap.setAt, MutationMap.at,
    mapSet, mapGet, hne, Ne.symm hne, newCassandraMutationBytes_eq]

theorem pdf_ne_pb : str "application_pdf" ≠ str "pb_data" := by decide

theorem pb_data_mem_allColumns : str "pb_data" ∈ allColumns := by decide

theorem assignMemberData_ok {member changed : MembershipAgreement} {f : Member → Member}
    (h : assignMemberData member f = .ok changed) :
    ∃ md, member.MemberData = some md ∧
      changed = { member with MemberData := some (f md) } := by
  unfold assignMemberData at h
  cases hmd : member.MemberData with
  | none => simp [hmd] at h
  | some d =>
    simp only [hmd, Except.ok.injEq] at h
    exact ⟨d, rfl, h.symm⟩

/-- What the branch of `SetTextValue` assigns, for each field it accepts. -/
theorem setTextField_eq {member changed : MembershipAgreement} {field value : Bytes}
    (h : setTextField member field value = .ok changed) :
    ∃ md, member.MemberData = some md ∧
      ((field = str "name" ∧
          changed = { member with MemberData := some { md with Name := some value } }) ∨
       (field = str "street" ∧
          changed = { member with MemberData := some { md with Street := some value } }) ∨
       (field = str "city" ∧
          changed = { member with MemberData := some { md with City := some value } }) ∨
       (field = str "zipcode" ∧
          changed = { member with MemberData := some { md with Zipcode := some value } }) ∨
       (field = str "country" ∧
          changed = { member with MemberData := some { md with Country := some value } }) ∨
       (field = str "phone" ∧
          changed = { member with MemberData := some { md with Phone := some value } }) ∨
       (field = str "username" ∧
          changed = { member with MemberData := some { md with Username := some value } })) := by
  unfold setTextField at h
  split_ifs at h with h1 h2 h3 h4 h5 h6 h7
  · obtain ⟨md, hmd, hc⟩ := assignMemberData_ok h
    exact ⟨md, hmd, Or.inl ⟨h1, hc⟩⟩
  · obtain ⟨md, hmd, hc⟩ := assignMemberData_ok h
    exact ⟨md, hmd, Or.inr (Or.inl ⟨h2, hc⟩)⟩
  · obtain ⟨md, hmd, hc⟩ := assignMemberData_ok h
    exact ⟨md, hmd, Or.inr (Or.inr (Or.inl ⟨h3, hc⟩))⟩
  · obtain ⟨md, hmd, hc⟩ := assignMemberData_ok h
    exact ⟨md, hmd, Or.inr (Or.inr (Or.inr (Or.inl ⟨h4, hc⟩)))⟩
  · obtain ⟨md, hmd, hc⟩ := assignMemberData_ok h
    exact ⟨md, hmd, Or.inr (Or.inr (Or.inr (Or.inr (Or.inl ⟨h5, hc⟩))))⟩
  · obtain ⟨md, hmd, hc⟩ := assignMemberData_ok h
    exact ⟨md, hmd, Or.inr (Or.inr (Or.inr (Or.inr (Or.inr (Or.inl ⟨h6, hc⟩)))))⟩
  · cases hmd : member.MemberData with
    | none => simp [hmd] at h
    | some d =>
      simp only [hmd] at h
      split_ifs at h
      simp only [Except.ok.injEq] at h
      exact ⟨d, rfl, Or.inr (Or.inr (Or.inr (Or.inr (Or.inr (Or.inr ⟨h7, h.symm⟩)))))⟩

/-! ## Facts about the columns of a membership request -/

theorem addString_eq (l : List Mutation) (name : Bytes) (value : Option Bytes) (now : Time) :
    addMembershipRequestInfoString [(str "application", l)] name value now
      = [(str "application", l ++ stringColumn name value now)] := by
  unfold addMembershipRequestInfoString stringColumn
  cases value with
  | none => simp
  | some v =>
    simp only
    split <;> simp [mapSet, mapGet]

theorem addBytes_eq (l : List Mutation) (name value : Bytes) (now : Time) :
    addMembershipRequestInfoBytes [(str "application", l)] name value now
      = [(str "application", l ++ [newCassandraMutationBytes name value now 0])] := by
  simp [addMembershipRequestInfoBytes, mapSet, mapGet]

/-- What `StoreMembershipRequest` returns and issues when its inputs are
present and the encoding succeeds: one `BatchMutate`, at QUORUM, of the data
columns and `pb_data` under the key of the generated UUID. -/
theorem StoreMembershipRequest_eq (conn : Conn) {lib : Lib} {now : Time} {req : FormInputData}
    {md : Member} {meta0 : MembershipMetadata} {uuid bdata : Bytes}
    (hgen : lib.GenTimeUUID now = some uuid)
    (hmd : req.MemberData = some md) (hmeta : req.Metadata = some meta0)
    (hmar : lib.Marshal ⟨some md, some (stampedMetadata meta0 now), []⟩ = some bdata) :
    StoreMembershipRequest conn lib now req =
      ⟨hexEncodeToString uuid,
       (conn.BatchMutate [(applicationPrefix ++ uuid, [(str "application",
          requestDataColumns md meta0 now
            ++ [newCassandraMutationBytes (str "pb_data") bdata now 0])])]
          ConsistencyLevel.QUORUM).map Error.Store,
       [Call.BatchMutate [(applicationPrefix ++ uuid, [(str "application",
          requestDataColumns md meta0 now
            ++ [newCassandraMutationBytes (str "pb_data") bdata now 0])])]
          ConsistencyLevel.QUORUM]⟩ := by
  unfold stampedMetadata at hmar
  unfold StoreMembershipRequest
  simp only [hgen, hmd, hmeta, hmar]
  cases hfy : md.FeeYearly.getD false <;>
    simp [addString_eq, addBytes_eq, requestDataColumns, hfy, List.append_assoc]

/-- A successful `StoreMembershipRequest` had its inputs present, and the
encoding and the batch succeeded. -/
theorem StoreMembershipRequest_accepted {conn : Conn} {lib : Lib} {now : Time}
    {req : FormInputData}
    (h : (StoreMembershipRequest conn lib now req).err = none) :
    ∃ uuid md meta0 bdata,
      lib.GenTimeUUID now = some uuid ∧ req.MemberData = some md ∧ req.Metadata = some meta0 ∧
      lib.Marshal ⟨some md, some (stampedMetadata meta0 now), []⟩ = some bdata := by
  unfold StoreMembershipRequest at h
  cases hgen : lib.GenTimeUUID now with
  | none => simp [hgen] at h
  | some uuid =>
    cases hmd : req.MemberData with
    | none => simp [hgen, hmd] at h
    | some md =>
      cases hmeta : req.Metadata with
      | none => simp [hgen, hmd, hmeta] at h
      | some meta0 =>
        cases hmar : lib.Marshal ⟨some md, some (stampedMetadata meta0 now), []⟩ with
        | none =>
          unfold stampedMetadata at hmar
          simp [hgen, hmd, hmeta, hmar] at h
        | some bdata => exact ⟨uuid, md, meta0, bdata, rfl, rfl, rfl, hmar⟩

/-- The mutating calls of `StoreMembershipRequest`: at most one `BatchMutate`
with the single key of the generated UUID and the single family
`application`. -/
theorem StoreMembershipRequest_maps (conn : Conn) (lib : Lib) (now : Time)
    (req : FormInputData) (uuid : Bytes) (hgen : lib.GenTimeUUID now = some uuid) :
    (StoreMembershipRequest conn lib now req).value = hexEncodeToString uuid ∧
    ((StoreMembershipRequest conn lib now req).calls = [] ∨
      ∃ cols, cols ≠ [] ∧ (StoreMembershipRequest conn lib now req).calls =
        [Call.BatchMutate [(applicationPrefix ++ uuid, [(str "application", cols)])]
          ConsistencyLevel.QUORUM]) := by
  cases hmd : req.MemberData with
  | none => simp [StoreMembershipRequest, hgen, hmd]
  | some md =>
    cases hmeta : req.Metadata with
    | none => simp [StoreMembershipRequest, hgen, hmd, hmeta]
    | some meta0 =>
      cases hmar : lib.Marshal ⟨some md, some (stampedMetadata meta0 now), []⟩ with
      | none =>
        unfold stampedMetadata at hmar
        simp [StoreMembershipRequest, hgen, hmd, hmeta, hmar]
      | some bdata =>
        rw [StoreMembershipRequest_eq conn hgen hmd hmeta hmar]
        exact ⟨rfl, Or.inr ⟨_, by simp, rfl⟩⟩

theorem stringColumn_mem {name : Bytes} {value : Option Bytes} {now : Time} {mu : Mutation}
    (h : mu ∈ stringColumn name value now) :
    ∃ v, mu = newCassandraMutationBytes name v now 0 := by
  unfold stringColumn at h
  cases value with
  | none => simp at h
  | some v =>
    simp only at h
    split at h
    · exact ⟨v, by simpa [newCassandraMutationString] using h⟩
    · simp at h

/-- Every data column of a membership request is an insertion, stamped `now`
and without TTL, of one of the data column names. -/
theorem requestDataColumns_mem {md : Member} {meta0 : MembershipMetadata} {now : Time}
    {mu : Mutation} (h : mu ∈ requestDataColumns md meta0 now) :
    ∃ name v, name ∈ requestDataNames ∧ mu = newCassandraMutationBytes name v now 0 := by
  simp only [requestDataColumns, List.mem_append, List.mem_singleton] at h
  rcases h with ((((((((((((h | h) | h) | h) | h) | h) | h) | h) | h) | h) | h) | h) | h) | h
  all_goals first
    | (obtain ⟨v, hv⟩ := stringColumn_mem h
       exact ⟨_, v, by simp [requestDataNames], hv⟩)
    | exact ⟨_, _, by simp [requestDataNames], h⟩

theorem hexValue_hexDigit : ∀ d, d < 16 → hexValue (hexDigit d) = some d := by decide

theorem hexDigit_isLowerHex : ∀ d, d < 16 → isLowerHex (hexDigit d) := by
  unfold isLowerHex
  decide

theorem hexDecode_hexEncodeToString (u : Bytes) (h : ∀ x ∈ u, x < 256) :
    hexDecode (hexEncodeToString u) = some u := by
  induction u with
  | nil => rfl
  | cons x rest ih =>
    have hx : x < 256 := h x (List.mem_cons_self _ _)
    have ih1 := ih (fun y hy => h y (List.mem_cons_of_mem _ hy))
    have h1 : hexValue (hexDigit (x / 16 % 16)) = some (x / 16 % 16) :=
      hexValue_hexDigit _ (Nat.mod_lt _ (by norm_num))
    have h2 : hexValue (hexDigit (x % 16)) = some (x % 16) :=
      hexValue_hexDigit _ (Nat.mod_lt _ (by norm_num))
    have hrest : hexEncodeToString (x :: rest)
        = hexDigit (x / 16 % 16) :: hexDigit (x % 16) :: hexEncodeToString rest := by
      simp [hexEncodeToString]
    rw [hrest]
    unfold hexDecode
    simp only [h1, h2, ih1, Option.some.injEq, List.cons.injEq, and_true]
    omega

theorem hexEncodeToString_length (u : Bytes) : (hexEncodeToString u).length = 2 * u.length := by
  induction u with
  | nil => rfl
  | cons x rest ih =>
    have hrest : hexEncodeToString (x :: rest)
        = hexDigit (x / 16 % 16) :: hexDigit (x % 16) :: hexEncodeToString rest := by
      simp [hexEncodeToString]
    rw [hrest]
    simp only [List.length_cons, ih]
    omega

theorem hexEncodeToString_isLowerHex (u : Bytes) : ∀ c ∈ hexEncodeToString u, isLowerHex c := by
  induction u with
  | nil => intro c hc; simp [hexEncodeToString] at hc
  | cons x rest ih =>
    have hrest : hexEncodeToString (x :: rest)
        = hexDigit (x / 16 % 16) :: hexDigit (x % 16) :: hexEncodeToString rest := by
      simp [hexEncodeToString]
    rw [hrest]
    intro c hc
    simp only [List.mem_cons] at hc
    rcases hc with rfl | rfl | hc
    · exact hexDigit_isLowerHex _ (Nat.mod_lt _ (by norm_num))
    · exact hexDigit_isLowerHex _ (Nat.mod_lt _ (by norm_num))
    · exact ih c hc

/-! ## Facts about the enumerations -/

theorem EnumerateMembers_eq (conn : Conn) (prev : Bytes) (num : Int) :
    EnumerateMembers conn prev num =
      scanRows conn memberRow { ColumnFamily := str "members" }
        { ColumnNames := [str "name", str "city", str "country", str "email", str "phone",
            str "username", str "fee", str "fee_yearly", str "has_key",
            str "payments_caught_up_to"] }
        { StartKey := memberPrefix ++ prev, EndKey := memberEnd, Count := num } := by
  unfold EnumerateMembers scanRows
  dsimp only
  cases conn.GetRangeSlices _ _ _ _ with
  | error e => rfl
  | ok kss =>
    dsimp only
    cases forRows memberRow [] kss <;> rfl

theorem scanFrom_eq {α : Type} (conn : Conn) (lib : Lib)
    (body : KeySlice → Except Error (Option α))
    (cf keyPrefix keyEnd : Bytes) (names : List Bytes) (prev : Bytes) (num : Int) :
    scanFrom conn lib body cf keyPrefix keyEnd names prev num =
      match cursorStart lib keyPrefix prev with
      | none => ⟨[], some Error.ParseUUID, []⟩
      | some startKey =>
        match conn.GetRangeSlices { ColumnFamily := cf } { ColumnNames := names }
            { StartKey := startKey, EndKey := keyEnd, Count := num } ConsistencyLevel.ONE with
        | .error e => ⟨[], some (Error.Store e), [Call.GetRangeSlices { ColumnFamily := cf }
            { ColumnNames := names } { StartKey := startKey, EndKey := keyEnd, Count := num }
            ConsistencyLevel.ONE]⟩
        | .ok kss =>
          match forRows body [] kss with
          | .error e => ⟨[], some e, [Call.GetRangeSlices { ColumnFamily := cf }
            { ColumnNames := names } { StartKey := startKey, EndKey := keyEnd, Count := num }
            ConsistencyLevel.ONE]⟩
          | .ok rv => ⟨rv, none, [Call.GetRangeSlices { ColumnFamily := cf }
            { ColumnNames := names } { StartKey := startKey, EndKey := keyEnd, Count := num }
            ConsistencyLevel.ONE]⟩ := by
  unfold scanFrom scanRows
  rfl

theorem EnumerateMembershipRequests_eq (conn : Conn) (lib : Lib) (criterion prev : Bytes)
    (num : Int) :
    EnumerateMembershipRequests conn lib criterion prev num =
      scanFrom conn lib (requestRow lib) (str "application") applicationPrefix applicationEnd
        [str "name", str "street", str "city", str "fee", str "fee_yearly"] prev num := by
  rw [scanFrom_eq]
  unfold EnumerateMembershipRequests cursorStart
  dsimp only
  cases (if prev.length > 0 then Option.map (fun uuid => applicationPrefix ++ uuid)
      (lib.ParseUUID prev) else some applicationPrefix) with
  | none => rfl
  | some k =>
    dsimp only
    cases conn.GetRangeSlices _ _ _ _ with
    | error e => rfl
    | ok kss =>
      dsimp only
      cases forRows (requestRow lib) [] kss <;> rfl

theorem enumerateQueuedMembersIn_eq (conn : Conn) (lib : Lib) (cf keyPrefix keyEnd prev : Bytes)
    (num : Int) :
    enumerateQueuedMembersIn conn lib cf keyPrefix keyEnd prev num =
      scanFrom conn lib (queuedRow lib keyPrefix) cf keyPrefix keyEnd [str "pb_data"] prev num := by
  rw [scanFrom_eq]
  unfold enumerateQueuedMembersIn cursorStart
  dsimp only
  cases (if prev.length > 0 then Option.map (fun uuid => keyPrefix ++ uuid)
      (lib.ParseUUID prev) else some keyPrefix) with
  | none => rfl
  | some k =>
    dsimp only
    cases conn.GetRangeSlices _ _ _ _ with
    | error e => rfl
    | ok kss =>
      dsimp only
      cases forRows (queuedRow lib keyPrefix) [] kss <;> rfl

theorem EnumerateTrashedMembers_eq (conn : Conn) (lib : Lib) (prev : Bytes) (num : Int) :
    EnumerateTrashedMembers conn lib prev num =
      scanFrom conn lib (queuedRow lib archivePrefix) (str "membership_archive") archivePrefix
        archiveEnd [str "pb_data"] prev num := by
  rw [scanFrom_eq]
  unfold EnumerateTrashedMembers cursorStart
  dsimp only
  cases (if prev.length > 0 then Option.map (fun uuid => archivePrefix ++ uuid)
      (lib.ParseUUID prev) else some archivePrefix) with
  | none => rfl
  | some k =>
    dsimp only
    cases conn.GetRangeSlices _ _ _ _ with
    | error e => rfl
    | ok kss =>
      dsimp only
      cases forRows (queuedRow lib archivePrefix) [] kss <;> rfl

theorem scanRows_calls {α : Type} (conn : Conn) (body : KeySlice → Except Error (Option α))
    (cp : ColumnParent) (pred : SlicePredicate) (r : KeyRange) :
    (scanRows conn body cp pred r).calls = [Call.GetRangeSlices cp pred r ConsistencyLevel.ONE] := by
  unfold scanRows
  cases conn.GetRangeSlices cp pred r ConsistencyLevel.ONE with
  | error e => rfl
  | ok kss =>
    simp only
    cases forRows body [] kss <;> rfl

theorem cursorStart_eq {lib : Lib} {keyPrefix prev k : Bytes}
    (h : cursorStart lib keyPrefix prev = some k) : ∃ cursor, k = keyPrefix ++ cursor := by
  unfold cursorStart at h
  split at h
  · cases hp : lib.ParseUUID prev with
    | none => simp [hp] at h
    | some u =>
      simp only [hp, Option.map_some', Option.some.injEq] at h
      exact ⟨u, h.symm⟩
  · exact ⟨[], by simpa using h.symm⟩

/-- The call a scan by cursor issued, when it issued one. -/
theorem scanFrom_call {α : Type} {conn : Conn} {lib : Lib}
    {body : KeySlice → Except Error (Option α)} {cf keyPrefix keyEnd : Bytes}
    {names : List Bytes} {prev : Bytes} {num : Int}
    {cp : ColumnParent} {pred : SlicePredicate} {kr : KeyRange} {cl : ConsistencyLevel}
    (h : (scanFrom conn lib body cf keyPrefix keyEnd names prev num).calls
      = [Call.GetRangeSlices cp pred kr cl]) :
    ∃ cursor, cp = { ColumnFamily := cf } ∧ pred = { ColumnNames := names } ∧
      kr = { StartKey := keyPrefix ++ cursor, EndKey := keyEnd, Count := num } ∧
      cl = ConsistencyLevel.ONE ∧
      scanFrom conn lib body cf keyPrefix keyEnd names prev num = scanRows conn body cp pred kr := by
  unfold scanFrom at h ⊢
  cases hs : cursorStart lib keyPrefix prev with
  | none => simp [hs] at h
  | some k =>
    simp only [hs, scanRows_calls, List.cons.injEq, Call.GetRangeSlices.injEq, and_true] at h
    obtain ⟨cursor, rfl⟩ := cursorStart_eq hs
    obtain ⟨rfl, rfl, rfl, rfl⟩ := h
    exact ⟨cursor, rfl, rfl, rfl, rfl, by simp only [hs]⟩

/-- The row loop appends one entry for each row with a column, in order. -/
theorem forRows_ok {α : Type} (body : KeySlice → Except Error (Option α)) (kss : List KeySlice)
    (h : ∀ ks ∈ kss, (ks.Columns = [] → body ks = .ok none) ∧
      (ks.Columns ≠ [] → ∃ m, body ks = .ok (some m))) (rv : List α) :
    ∃ out, forRows body rv kss = .ok (rv ++ out) ∧
      List.Forall₂ (fun ks m => body ks = .ok (some m)) (kss.filter hasColumns) out := by
  induction kss generalizing rv with
  | nil => exact ⟨[], by simp [forRows], by simp⟩
  | cons ks rest ih =>
    have hrest : ∀ ks ∈ rest, (ks.Columns = [] → body ks = .ok none) ∧
        (ks.Columns ≠ [] → ∃ m, body ks = .ok (some m)) :=
      fun k hk => h k (List.mem_cons_of_mem _ hk)
    by_cases hc : ks.Columns = []
    · have hb := (h ks (List.mem_cons_self _ _)).1 hc
      obtain ⟨out, hout, hall⟩ := ih hrest rv
      refine ⟨out, ?_, ?_⟩
      · simp only [forRows, hb]
        exact hout
      · simpa [List.filter_cons, hasColumns, hc] using hall
    · obtain ⟨m, hb⟩ := (h ks (List.mem_cons_self _ _)).2 hc
      obtain ⟨out, hout, hall⟩ := ih hrest (rv ++ [m])
      refine ⟨m :: out, ?_, ?_⟩
      · simp only [forRows, hb]
        rw [hout]
        simp
      · simp only [List.filter_cons, hasColumns, hc, ne_eq, not_false_eq_true, decide_True,
          ite_true]
        exact List.Forall₂.cons hb hall

/-- A successful scan followed by a row loop that does not panic. -/
theorem scanRows_ok {α : Type} {conn : Conn} {body : KeySlice → Except Error (Option α)}
    {cp : ColumnParent} {pred : SlicePredicate} {r : KeyRange} {kss : List KeySlice}
    (hscan : conn.GetRangeSlices cp pred r ConsistencyLevel.ONE = .ok kss)
    (h : ∀ ks ∈ kss, (ks.Columns = [] → body ks = .ok none) ∧
      (ks.Columns ≠ [] → ∃ m, body ks = .ok (some m))) :
    (scanRows conn body cp pred r).err = none ∧
    List.Forall₂ (fun ks m => body ks = .ok (some m)) (kss.filter hasColumns)
      (scanRows conn body cp pred r).value := by
  obtain ⟨out, hout, hall⟩ := forRows_ok body kss h []
  unfold scanRows
  simp only [hscan, hout, List.nil_append]
  exact ⟨trivial, hall⟩

/-- A key between `p ++ [a] ++ x` and `p ++ [a + 1]` is at least as long as
`p ++ [a]`. -/
theorem length_le_of_between (p : Bytes) (a : Nat) (x k : Bytes)
    (h1 : bytesLe (p ++ a :: x) k = true) (h2 : bytesLe k (p ++ [a + 1]) = true) :
    (p ++ [a]).length ≤ k.length := by
  induction p generalizing k with
  | nil =>
    cases k with
    | nil => simp [bytesLe] at h1
    | cons y ys => simp
  | cons q p ih =>
    cases k with
    | nil => simp [bytesLe] at h1
    | cons y ys =>
      simp only [List.cons_append, bytesLe] at h1 h2
      by_cases hqy : q < y
      · have : ¬ y < q := by omega
        simp [hqy, this] at h2
      · by_cases hyq : y < q
        · simp [hqy, hyq] at h1
        · simp only [hqy, hyq, ite_false] at h1 h2
          have := ih ys h1 h2
          simpa using this

theorem sliceFrom_of_le {b : Bytes} {n : Nat} (h : n ≤ b.length) :
    sliceFrom b n = some (b.drop n) := by
  simp [sliceFrom, h]

theorem application_key_length (cursor k : Bytes)
    (h1 : bytesLe (applicationPrefix ++ cursor) k = true)
    (h2 : bytesLe k applicationEnd = true) : applicationPrefix.length ≤ k.length :=
  length_le_of_between (str "applicant") 58 cursor k h1 h2

theorem queue_key_length (cursor k : Bytes)
    (h1 : bytesLe (queuePrefix ++ cursor) k = true)
    (h2 : bytesLe k queueEnd = true) : queuePrefix.length ≤ k.length :=
  length_le_of_between (str "queue") 58 cursor k h1 h2

theorem dequeue_key_length (cursor k : Bytes)
    (h1 : bytesLe (dequeuePrefix ++ cursor) k = true)
    (h2 : bytesLe k dequeueEnd = true) : dequeuePrefix.length ≤ k.length :=
  length_le_of_between (str "dequeue") 58 cursor k h1 h2

theorem archive_key_length (cursor k : Bytes)
    (h1 : bytesLe (archivePrefix ++ cursor) k = true)
    (h2 : bytesLe k archiveEnd = true) : archivePrefix.length ≤ k.length :=
  length_le_of_between (str "archive") 58 cursor k h1 h2

theorem member_key_length (cursor k : Bytes)
    (h1 : bytesLe (memberPrefix ++ cursor) k = true)
    (h2 : bytesLe k memberEnd = true) : memberPrefix.length ≤ k.length :=
  length_le_of_between (str "member") 58 cursor k h1 h2

theorem Uint64_isSome {b : Bytes} (h : 8 ≤ b.length) : (Uint64 b).isSome = true := by
  match b, h with
  | _ :: _ :: _ :: _ :: _ :: _ :: _ :: _ :: _, _ => rfl

theorem byteBool_isSome {b : Bytes} (h : 1 ≤ b.length) : (byteBool b).isSome = true := by
  match b, h with
  | _ :: _, _ => rfl

theorem memberColumn_some (member : Member) (col : Column)
    (h8 : col.Name = str "fee" ∨ col.Name = str "payments_caught_up_to" → 8 ≤ col.Value.length)
    (h1 : col.Name = str "fee_yearly" ∨ col.Name = str "has_key" → 1 ≤ col.Value.length) :
    ∃ m, memberColumn member col = some m := by
  apply Option.isSome_iff_exists.mp
  unfold memberColumn
  by_cases n0 : col.Name = str "name"
  · rw [if_pos n0]; rfl
  rw [if_neg n0]
  by_cases n1 : col.Name = str "street"
  · rw [if_pos n1]; rfl
  rw [if_neg n1]
  by_cases n2 : col.Name = str "city"
  · rw [if_pos n2]; rfl
  rw [if_neg n2]
  by_cases n3 : col.Name = str "country"
  · rw [if_pos n3]; rfl
  rw [if_neg n3]
  by_cases n4 : col.Name = str "email"
  · rw [if_pos n4]; rfl
  rw [if_neg n4]
  by_cases n5 : col.Name = str "phone"
  · rw [if_pos n5]; rfl
  rw [if_neg n5]
  by_cases n6 : col.Name = str "username"
  · rw [if_pos n6]; rfl
  rw [if_neg n6]
  by_cases n7 : col.Name = str "fee"
  · rw [if_pos n7, Option.isSome_map']; exact Uint64_isSome (h8 (Or.inl n7))
  rw [if_neg n7]
  by_cases n8 : col.Name = str "fee_yearly"
  · rw [if_pos n8, Option.isSome_map']; exact byteBool_isSome (h1 (Or.inl n8))
  rw [if_neg n8]
  by_cases n9 : col.Name = str "has_key"
  · rw [if_pos n9, Option.isSome_map']; exact byteBool_isSome (h1 (Or.inr n9))
  rw [if_neg n9]
  by_cases n10 : col.Name = str "payments_caught_up_to"
  · rw [if_pos n10, Option.isSome_map']; exact Uint64_isSome (h8 (Or.inr n10))
  rw [if_neg n10]
  rfl

theorem requestColumn_some (member : MemberWithKey) (col : Column)
    (h8 : col.Name = str "fee" ∨ col.Name = str "payments_caught_up_to" → 8 ≤ col.Value.length)
    (h1 : col.Name = str "fee_yearly" ∨ col.Name = str "has_key" → 1 ≤ col.Value.length) :
    ∃ m, requestColumn member col = some m := by
  apply Option.isSome_iff_exists.mp
  unfold requestColumn
  by_cases n0 : col.Name = str "name"
  · rw [if_pos n0]; rfl
  rw [if_neg n0]
  by_cases n1 : col.Name = str "street"
  · rw [if_pos n1]; rfl
  rw [if_neg n1]
  by_cases n2 : col.Name = str "city"
  · rw [if_pos n2]; rfl
  rw [if_neg n2]
  by_cases n3 : col.Name = str "fee"
  · rw [if_pos n3, Option.isSome_map']; exact Uint64_isSome (h8 (Or.inl n3))
  rw [if_neg n3]
  by_cases n4 : col.Name = str "fee_yearly"
  · rw [if_pos n4, Option.isSome_map']; exact byteBool_isSome (h1 (Or.inl n4))
  rw [if_neg n4]
  rfl

theorem forColumns_some {α : Type} (body : α → Column → Option α) (cols : List Column)
    (h : ∀ c ∈ cols, ∀ acc, ∃ m, body acc c = some m) (acc : α) :
    ∃ m, forColumns body acc cols = some m := by
  induction cols generalizing acc with
  | nil => exact ⟨acc, rfl⟩
  | cons c rest ih =>
    obtain ⟨m, hm⟩ := h c (List.mem_cons_self _ _) acc
    simp only [forColumns, hm]
    exact ih (fun c1 hc1 => h c1 (List.mem_cons_of_mem _ hc1)) m

theorem memberRow_ok (ks : KeySlice) (hlen : memberPrefix.length ≤ ks.Key.length)
    (hwf : ks.Decodable) :
    (ks.Columns = [] → memberRow ks = .ok none) ∧
    (ks.Columns ≠ [] → ∃ m, memberRow ks = .ok (some m)) := by
  constructor
  · intro h
    simp [memberRow, h]
  · intro h
    obtain ⟨m, hm⟩ := forColumns_some memberColumn ks.Columns
      (fun c hc acc => memberColumn_some acc c (hwf c hc).1 (hwf c hc).2)
      { Email := some (ks.Key.drop memberPrefix.length) }
    refine ⟨m, ?_⟩
    have h0 : ks.Columns.length ≠ 0 := by simpa using h
    simp only [memberRow, h0, ite_false, sliceFrom_of_le hlen, hm]

theorem requestRow_ok (lib : Lib) (ks : KeySlice)
    (hlen : applicationPrefix.length ≤ ks.Key.length) (hwf : ks.Decodable) :
    (ks.Columns = [] → requestRow lib ks = .ok none) ∧
    (ks.Columns ≠ [] → ∃ m, requestRow lib ks = .ok (some m)) := by
  constructor
  · intro h
    simp [requestRow, h, sliceFrom_of_le hlen]
  · intro h
    obtain ⟨m, hm⟩ := forColumns_some requestColumn ks.Columns
      (fun c hc acc => requestColumn_some acc c (hwf c hc).1 (hwf c hc).2)
      { Key := lib.UUIDString (lib.UUIDFromBytes (ks.Key.drop applicationPrefix.length)) }
    refine ⟨m, ?_⟩
    have h0 : ks.Columns.length ≠ 0 := by simpa using h
    simp only [requestRow, h0, ite_false, sliceFrom_of_le hlen, hm]

theorem foldl_queuedColumn_some (lib : Lib) (uuid : Bytes) (cols : List Column)
    (h : ∀ c ∈ cols, c.Name = str "pb_data") (acc : Option MemberWithKey)
    (hne : cols ≠ [] ∨ acc.isSome) :
    ∃ m, cols.foldl (queuedColumn lib uuid) acc = some m := by
  induction cols generalizing acc with
  | nil =>
    rcases hne with hne | hne
    · exact absurd rfl hne
    · exact Option.isSome_iff_exists.mp hne
  | cons c rest ih =>
    simp only [List.foldl_cons]
    apply ih (fun c1 hc1 => h c1 (List.mem_cons_of_mem _ hc1))
    right
    simp [queuedColumn, h c (List.mem_cons_self _ _)]

theorem queuedRow_ok (lib : Lib) (keyPrefix : Bytes) (ks : KeySlice)
    (hlen : keyPrefix.length ≤ ks.Key.length)
    (hcols : ∀ c ∈ ks.Columns, c.Name = str "pb_data") :
    (ks.Columns = [] → queuedRow lib keyPrefix ks = .ok none) ∧
    (ks.Columns ≠ [] → ∃ m, queuedRow lib keyPrefix ks = .ok (some m)) := by
  constructor
  · intro h
    simp [queuedRow, h, sliceFrom_of_le hlen]
  · intro h
    obtain ⟨m, hm⟩ := foldl_queuedColumn_some lib
      (lib.UUIDFromBytes (ks.Key.drop keyPrefix.length)) ks.Columns hcols none (Or.inl h)
    refine ⟨m, ?_⟩
    have h0 : ks.Columns.length ≠ 0 := by simpa using h
    simp only [queuedRow, h0, ite_false, sliceFrom_of_le hlen, hm]

/-! ## Facts about the numeric and boolean columns -/

theorem PutUint64_lt (v : Nat) : ∀ x ∈ PutUint64 v, x < 256 := by
  intro x hx
  simp only [PutUint64, List.mem_cons, List.mem_singleton, List.not_mem_nil, or_false] at hx
  rcases hx with rfl | rfl | rfl | rfl | rfl | rfl | rfl | rfl <;> exact Nat.mod_lt _ (by norm_num)

theorem PutUint64_bigEndian (v : Nat) (h : v < 2 ^ 64) :
    (PutUint64 v).foldl (fun acc x => 256 * acc + x) 0 = v := by
  simp only [PutUint64, List.foldl_cons, List.foldl_nil]
  omega

/-- The data columns named `fee` and `fee_yearly` of a membership request
hold the encoded fee and the encoded flag. -/
theorem requestDataColumns_fee {md : Member} {meta0 : MembershipMetadata} {now : Time}
    {c : Column} (h : (⟨some c, none⟩ : Mutation) ∈ requestDataColumns md meta0 now) :
    (c.Name = str "fee" → c.Value = PutUint64 (md.Fee.getD 0)) ∧
    (c.Name = str "fee_yearly" → c.Value = boolByte (md.FeeYearly.getD false)) := by
  simp only [requestDataColumns, List.mem_append, List.mem_singleton] at h
  rcases h with ((((((((((((h | h) | h) | h) | h) | h) | h) | h) | h) | h) | h) | h) | h) | h
  all_goals first
    | (obtain ⟨v, hv⟩ := stringColumn_mem h
       rw [newCassandraMutationBytes_eq] at hv
       simp only [Mutation.mk.injEq, Option.some.injEq, and_true] at hv
       subst hv
       dsimp only
       exact ⟨fun h => absurd h (by decide), fun h => absurd h (by decide)⟩)
    | (rw [newCassandraMutationBytes_eq] at h
       simp only [Mutation.mk.injEq, Option.some.injEq, and_true] at h
       subst h
       dsimp only
       first
         | exact ⟨fun h => absurd h (by decide), fun h => absurd h (by decide)⟩
         | exact ⟨fun _ => rfl, fun h => absurd h (by decide)⟩
         | exact ⟨fun h => absurd h (by decide), fun _ => rfl⟩)

/-! ## Facts about `GetMemberDetailByUsername` -/

theorem detailRows_skip (lib : Lib) (pre rest : List KeySlice)
    (h : ∀ k ∈ pre, k.Columns = []) :
    detailRows lib (pre ++ rest) = detailRows lib rest := by
  induction pre with
  | nil => rfl
  | cons k pre ih =>
    have hk : k.Columns = [] := h k (List.mem_cons_self _ _)
    simp only [List.cons_append, detailRows, hk]
    exact ih (fun k1 hk1 => h k1 (List.mem_cons_of_mem _ hk1))

theorem detailRows_none (lib : Lib) (r : List KeySlice) (h : ∀ k ∈ r, k.Columns = []) :
    detailRows lib r = (none, some Error.NotFound) := by
  have := detailRows_skip lib r [] h
  simpa [detailRows] using this

/-! ## Facts about the consistency levels -/

theorem GetMembershipRequest_levels (conn : Conn) (lib : Lib) (id table keyPrefix : Bytes) :
    (readLevels (GetMembershipRequest conn lib id table keyPrefix).calls = [] ∨
      readLevels (GetMembershipRequest conn lib id table keyPrefix).calls
        = [ConsistencyLevel.ONE]) ∧
    writeLevels (GetMembershipRequest conn lib id table keyPrefix).calls = [] ∧
    (lib.ParseUUID id ≠ none →
      readLevels (GetMembershipRequest conn lib id table keyPrefix).calls
        = [ConsistencyLevel.ONE]) := by
  unfold GetMembershipRequest
  cases lib.ParseUUID id with
  | none => simp [readLevels, writeLevels]
  | some uuid =>
    dsimp only
    cases conn.Get (keyPrefix ++ uuid) ⟨table, str "pb_data"⟩ ConsistencyLevel.ONE with
    | error e => simp [readLevels, writeLevels]
    | ok r =>
      dsimp only
      cases r.Timestamp <;> simp [readLevels, writeLevels]

theorem readLevels_append (a b : List Call) : readLevels (a ++ b) = readLevels a ++ readLevels b := by
  simp [readLevels]

theorem writeLevels_append (a b : List Call) :
    writeLevels (a ++ b) = writeLevels a ++ writeLevels b := by
  simp [writeLevels]

theorem moveRecordToTable_levels (conn : Conn) (lib : Lib) (now : Time)
    (id initiator st sp dt dp : Bytes) (ttl : Int) :
    IssuedAt (moveRecordToTable conn lib now id initiator st sp dt dp ttl)
      ConsistencyLevel.ONE ConsistencyLevel.QUORUM := by
  obtain ⟨hr, hw, hp⟩ := GetMembershipRequest_levels conn lib id st sp
  unfold IssuedAt moveRecordToTable
  cases hid : lib.ParseUUID id with
  | none => simp [readLevels, writeLevels]
  | some uuid =>
    have hone := hp (by simp [hid])
    dsimp only
    repeat' split
    all_goals
      simp only [readLevels_append, writeLevels_append, hone, hw]
      simp [readLevels, writeLevels]

theorem StoreMembershipAgreement_levels (conn : Conn) (lib : Lib) (now : Time)
    (id agreement_data : Bytes) :
    IssuedAt (StoreMembershipAgreement conn lib now id agreement_data)
      ConsistencyLevel.ONE ConsistencyLevel.QUORUM := by
  obtain ⟨hr, hw, hp⟩ := GetMembershipRequest_levels conn lib id (str "application")
    applicationPrefix
  unfold IssuedAt StoreMembershipAgreement
  cases hid : lib.ParseUUID id with
  | none => simp [readLevels, writeLevels]
  | some uuid =>
    have hone := hp (by simp [hid])
    dsimp only
    repeat' split
    all_goals
      simp only [readLevels_append, writeLevels_append, hone, hw]
      simp [readLevels, writeLevels]

theorem updateWith_levels (conn : Conn) (lib : Lib) (now : Time) (id : Bytes)
    (change : MembershipAgreement → Except Error MembershipAgreement) (data : List Mutation) :
    IssuedAt (updateWith conn lib now id change data)
      ConsistencyLevel.ONE ConsistencyLevel.QUORUM := by
  unfold IssuedAt updateWith
  dsimp only
  repeat' split
  all_goals simp [readLevels, writeLevels]

theorem MoveMemberToTrash_levels (conn : Conn) (lib : Lib) (now : Time)
    (id initiator reason : Bytes) :
    IssuedAt (MoveMemberToTrash conn lib now id initiator reason)
      ConsistencyLevel.QUORUM ConsistencyLevel.QUORUM := by
  unfold IssuedAt MoveMemberToTrash
  dsimp only
  repeat' split
  all_goals simp [readLevels, writeLevels]

theorem Update.run_levels (u : Update) (conn : Conn) (lib : Lib) (now : Time) (id : Bytes) :
    IssuedAt (u.run conn lib now id) ConsistencyLevel.ONE ConsistencyLevel.QUORUM := by
  cases u with
  | fee amount yearly =>
    simp only [Update.run, SetMemberFee_eq]
    exact updateWith_levels _ _ _ _ _ _
  | setter k name =>
    cases k <;>
      simp only [Update.run, Setter.run, SetTextValue_eq, SetLongValue_eq, SetBoolValue_eq] <;>
      exact updateWith_levels _ _ _ _ _ _

/-! ## Facts about the user name guard -/

theorem setTextField_username_refused {member : MembershipAgreement} {md : Member}
    {name : Bytes} (value : Bytes)
    (hmd : member.MemberData = some md) (hname : md.Username = some name) (hne : name ≠ []) :
    setTextField member (str "username") value = .error Error.CannotModifyUserName := by
  simp +decide [setTextField, hmd, hname, hne]

theorem setTextField_username_accepted {member : MembershipAgreement} {md : Member}
    (value : Bytes)
    (hmd : member.MemberData = some md) (h : md.Username = none ∨ md.Username = some []) :
    setTextField member (str "username") value
      = .ok { member with MemberData := some { md with Username := some value } } := by
  rcases h with h | h <;> simp +decide [setTextField, hmd, h]

/-! ## What a call that issued a batch has read and written -/

theorem mutationMaps_get_batch (k : Bytes) (cp : ColumnPath) (cl1 cl2 : ConsistencyLevel)
    (mmap : MutationMap) :
    mutationMaps [Call.Get k cp cl1, Call.AtomicBatchMutate mmap cl2] = [mmap] := rfl

/-- What `StoreMembershipRequest` had at hand when it issued its batch. -/
theorem StoreMembershipRequest_issued {conn : Conn} {lib : Lib} {now : Time}
    {req : FormInputData}
    (h : mutationMaps (StoreMembershipRequest conn lib now req).calls ≠ []) :
    ∃ uuid md meta0 bdata,
      lib.GenTimeUUID now = some uuid ∧ req.MemberData = some md ∧ req.Metadata = some meta0 ∧
      lib.Marshal ⟨some md, some (stampedMetadata meta0 now), []⟩ = some bdata := by
  unfold StoreMembershipRequest at h
  cases hgen : lib.GenTimeUUID now with
  | none => simp [hgen, mutationMaps] at h
  | some uuid =>
    cases hmd : req.MemberData with
    | none => simp [hgen, hmd, mutationMaps] at h
    | some md =>
      cases hmeta : req.Metadata with
      | none => simp [hgen, hmd, hmeta, mutationMaps] at h
      | some meta0 =>
        cases hmar : lib.Marshal ⟨some md, some (stampedMetadata meta0 now), []⟩ with
        | none =>
          unfold stampedMetadata at hmar
          simp [hgen, hmd, hmeta, hmar, mutationMaps] at h
        | some bdata => exact ⟨uuid, md, meta0, bdata, rfl, rfl, rfl, hmar⟩

/-- What an update that issued its batch has read and issued. -/
theorem updateWith_issued {conn : Conn} {lib : Lib} {now : Time} {id : Bytes}
    {change : MembershipAgreement → Except Error MembershipAgreement} {data : List Mutation}
    (h : mutationMaps (updateWith conn lib now id change data).calls ≠ []) :
    ∃ r member changed pb,
      conn.Get (memberPrefix ++ id) ⟨str "members", str "pb_data"⟩ ConsistencyLevel.ONE = .ok r ∧
      lib.Unmarshal r.Value = (member, none) ∧
      change member = .ok changed ∧
      lib.Marshal changed = some pb ∧
      (updateWith conn lib now id change data).calls =
        [Call.Get (memberPrefix ++ id) ⟨str "members", str "pb_data"⟩ ConsistencyLevel.ONE,
         Call.AtomicBatchMutate
           [(memberPrefix ++ id,
              [(str "members",
                  ⟨some { r with Value := pb, Timestamp := some now.UnixNano }, none⟩ :: data),
               (str "member_agreements",
                  [⟨some { r with Value := pb, Timestamp := some now.UnixNano }, none⟩])])]
           ConsistencyLevel.QUORUM] := by
  unfold updateWith at *
  cases hget : conn.Get (memberPrefix ++ id) ⟨str "members", str "pb_data"⟩
      ConsistencyLevel.ONE with
  | error e => simp [hget, mutationMaps] at h
  | ok r =>
    simp only [hget] at h ⊢
    cases hum : lib.Unmarshal r.Value with
    | mk member e =>
      simp only [hum] at h ⊢
      cases e with
      | some e => simp [mutationMaps] at h
      | none =>
        simp only [] at h ⊢
        cases hch : change member with
        | error e => simp [hch, mutationMaps] at h
        | ok changed =>
          simp only [hch] at h ⊢
          cases hmar : lib.Marshal changed with
          | none => simp [hmar, mutationMaps] at h
          | some pb =>
            simp only [hmar] at h ⊢
            exact ⟨r, member, changed, pb, rfl, hum, hch, hmar, rfl⟩

/-- What `MoveMemberToTrash` has read and issued when it issued its batch. -/
theorem MoveMemberToTrash_issued {conn : Conn} {lib : Lib} {now : Time}
    {id initiator reason : Bytes}
    (h : mutationMaps (MoveMemberToTrash conn lib now id initiator reason).calls ≠ []) :
    ∃ uuid cos member md value,
      lib.GenTimeUUID now = some uuid ∧
      conn.Get (memberPrefix ++ id) ⟨str "members", str "pb_data"⟩ ConsistencyLevel.QUORUM
        = .ok cos ∧
      lib.Unmarshal cos.Value = (member, none) ∧
      member.Metadata = some md ∧
      lib.Marshal (dismissed member md initiator reason now) = some value ∧
      (MoveMemberToTrash conn lib now id initiator reason).calls =
        [Call.Get (memberPrefix ++ id) ⟨str "members", str "pb_data"⟩ ConsistencyLevel.QUORUM,
         Call.AtomicBatchMutate
           (if id = uuid then
              [(memberPrefix ++ id, [(str "members",
                  [⟨none, some ⟨cos.Timestamp, some allColumns⟩⟩])]),
               (dequeuePrefix ++ uuid, [(str "membership_dequeue",
                  [⟨some ⟨str "pb_data", value, some now.UnixNano, none⟩, none⟩])])]
            else
              [(memberPrefix ++ id, [(str "members",
                  [⟨none, some ⟨cos.Timestamp, some allColumns⟩⟩])]),
               (dequeuePrefix ++ id, []),
               (dequeuePrefix ++ uuid, [(str "membership_dequeue",
                  [⟨some ⟨str "pb_data", value, some now.UnixNano, none⟩, none⟩])])])
           ConsistencyLevel.QUORUM] := by
  unfold MoveMemberToTrash at *
  cases hgen : lib.GenTimeUUID now with
  | none => simp [hgen, mutationMaps] at h
  | some uuid =>
    simp only [hgen] at h ⊢
    cases hget : conn.Get (memberPrefix ++ id) ⟨str "members", str "pb_data"⟩
        ConsistencyLevel.QUORUM with
    | error e => simp [hget, mutationMaps] at h
    | ok cos =>
      simp only [hget] at h ⊢
      cases hum : lib.Unmarshal cos.Value with
      | mk member e =>
        simp only [hum] at h ⊢
        cases e with
        | some e => simp [mutationMaps] at h
        | none =>
          simp only [] at h ⊢
          cases hmd : member.Metadata with
          | none => simp [hmd, mutationMaps] at h
          | some md =>
            simp only [hmd] at h ⊢
            cases hmar : lib.Marshal (dismissed member md initiator reason now) with
            | none =>
              simp only [dismissed] at hmar
              simp [hmar, mutationMaps] at h
            | some value =>
              simp only [dismissed] at hmar
              simp only [hmar] at h ⊢
              refine ⟨uuid, cos, member, md, value, rfl, rfl, hum, hmd, hmar, ?_⟩
              have h1 : memberPrefix ++ id ≠ dequeuePrefix ++ id := member_ne_dequeue id id
              have h2 : memberPrefix ++ id ≠ dequeuePrefix ++ uuid := member_ne_dequeue id uuid
              by_cases hid : id = uuid
              · subst hid
                simp [MutationMap.make, MutationMap.setAt, MutationMap.at, mapSet, mapGet, h1]
              · simp [MutationMap.make, MutationMap.setAt, MutationMap.at, mapSet, mapGet, h1, h2,
                  hid]

/-- What `moveRecordToTable` has read and issued when it issued its batch,
for distinct source and destination keys. -/
theorem moveRecordToTable_issued {conn : Conn} {lib : Lib} {now : Time}
    {id initiator st sp dt dp : Bytes} {ttl : Int} {u : Bytes}
    (hu : lib.ParseUUID id = some u) (hne : dp ++ u ≠ sp ++ u)
    (h : mutationMaps (moveRecordToTable conn lib now id initiator st sp dt dp ttl).calls ≠ []) :
    ∃ r timestamp member md value,
      conn.Get (sp ++ u) ⟨st, str "pb_data"⟩ ConsistencyLevel.ONE = .ok r ∧
      r.Timestamp = some timestamp ∧
      lib.Unmarshal r.Value = (member, none) ∧
      member.Metadata = some md ∧
      ¬ (dt = str "membership_queue" ∧ member.AgreementPdf.length = 0) ∧
      lib.Marshal (approved member md initiator now) = some value ∧
      (moveRecordToTable conn lib now id initiator st sp dt dp ttl).calls =
        [Call.Get (sp ++ u) ⟨st, str "pb_data"⟩ ConsistencyLevel.ONE,
         Call.AtomicBatchMutate
           [(dp ++ u, [(dt, [newCassandraMutationBytes (str "pb_data") value now ttl])]),
            (sp ++ u, [(st, [⟨none, some ⟨some timestamp, some allColumns⟩⟩])])]
           ConsistencyLevel.QUORUM] := by
  unfold moveRecordToTable GetMembershipRequest at *
  simp only [hu] at h ⊢
  cases hget : conn.Get (sp ++ u) ⟨st, str "pb_data"⟩ ConsistencyLevel.ONE with
  | error e => simp [hget, mutationMaps] at h
  | ok r =>
    simp only [hget] at h ⊢
    cases hts : r.Timestamp with
    | none => simp [hts, mutationMaps] at h
    | some timestamp =>
      simp only [hts] at h ⊢
      cases hum : lib.Unmarshal r.Value with
      | mk member e =>
        simp only [hum] at h ⊢
        cases e with
        | some e => simp [mutationMaps] at h
        | none =>
          simp only [] at h ⊢
          by_cases hc : dt = str "membership_queue" ∧ member.AgreementPdf.length = 0
          · simp [hc, mutationMaps] at h
          · simp only [hc, if_false] at h ⊢
            cases hmd : member.Metadata with
            | none => simp [hmd, mutationMaps] at h
            | some md =>
              simp only [hmd] at h ⊢
              cases hmar : lib.Marshal (approved member md initiator now) with
              | none =>
                simp only [approved] at hmar
                simp [hmar, mutationMaps] at h
              | some value =>
                simp only [approved] at hmar
                simp only [hmar] at h ⊢
                refine ⟨r, timestamp, member, md, value, rfl, hts, hum, hmd, hc, hmar, ?_⟩
                simp [MutationMap.make, MutationMap.setAt, MutationMap.at, mapSet, mapGet, hne,
                  Ne.symm hne]

/-- What `StoreMembershipAgreement` has read and issued when it issued its
batch. -/
theorem StoreMembershipAgreement_issued {conn : Conn} {lib : Lib} {now : Time}
    {id data : Bytes}
    (h : mutationMaps (StoreMembershipAgreement conn lib now id data).calls ≠ []) :
    ∃ u r timestamp member value,
      lib.ParseUUID id = some u ∧
      conn.Get (applicationPrefix ++ u) ⟨str "application", str "pb_data"⟩ ConsistencyLevel.ONE
        = .ok r ∧
      r.Timestamp = some timestamp ∧
      lib.Unmarshal r.Value = (member, none) ∧
      lib.Marshal { member with AgreementPdf := data } = some value ∧
      (StoreMembershipAgreement conn lib now id data).calls =
        [Call.Get (applicationPrefix ++ u) ⟨str "application", str "pb_data"⟩
          ConsistencyLevel.ONE,
         Call.AtomicBatchMutate [(applicationPrefix ++ u, [(str "application",
          [⟨some ⟨str "pb_data", value, some now.UnixNano, none⟩, none⟩,
           ⟨some ⟨str "application_pdf", data, some now.UnixNano, none⟩, none⟩])])]
          ConsistencyLevel.QUORUM] := by
  unfold StoreMembershipAgreement GetMembershipRequest at *
  cases hu : lib.ParseUUID id with
  | none => simp [hu, mutationMaps] at h
  | some u =>
    simp only [hu] at h ⊢
    cases hget : conn.Get (applicationPrefix ++ u) ⟨str "application", str "pb_data"⟩
        ConsistencyLevel.ONE with
    | error e => simp [hget, mutationMaps] at h
    | ok r =>
      simp only [hget] at h ⊢
      cases hts : r.Timestamp with
      | none => simp [hts, mutationMaps] at h
      | some timestamp =>
        simp only [hts] at h ⊢
        cases hum : lib.Unmarshal r.Value with
        | mk member e =>
          simp only [hum] at h ⊢
          cases e with
          | some e => simp [mutationMaps] at h
          | none =>
            simp only [] at h ⊢
            cases hmar : lib.Marshal { member with AgreementPdf := data } with
            | none => simp [hmar, mutationMaps] at h
            | some value =>
              simp only [hmar] at h ⊢
              refine ⟨u, r, timestamp, member, value, rfl, hget, hts, hum, hmar, ?_⟩
              simp [MutationMap.make, MutationMap.setAt, MutationMap.at, mapSet, mapGet,
                addMembershipRequestInfoBytes, newCassandraMutationBytes_eq]

/-! ## The cells of the store after a list of calls -/

theorem Store.Get_name {s : Store} {key : Bytes} {cp : ColumnPath} {col : Column}
    (h : s.Get key cp = .ok col) : col.Name = cp.Column := by
  obtain ⟨c, -, hat, rfl⟩ := Store.mem_of_Get_ok h
  simp only [Cell.isAt, Bool.and_eq_true, decide_eq_true_eq] at hat
  exact hat.2

/-- A deletion does not change what is read in another column family. -/
theorem Store.Get_delete_family (s : Store) (key family : Bytes) (del : Deletion)
    (key1 : Bytes) (cp : ColumnPath) (h : family ≠ cp.ColumnFamily) :
    (s.delete key family del).Get key1 cp = s.Get key1 cp := by
  unfold Store.delete Store.Get
  rw [find?_filter_of_imp]
  intro c _ hc
  simp only [Cell.isAt, Bool.and_eq_true, decide_eq_true_eq] at hc
  simp only [Bool.not_eq_true', Bool.and_eq_false_iff, decide_eq_false_iff_not]
  left; left; right
  intro hf
  exact h (hf.symm.trans hc.1.2)

theorem Store.mem_applyMutation {s : Store} {key family : Bytes} {mu : Mutation} {c : Cell}
    (h : c ∈ s.applyMutation key family mu) :
    c ∈ s ∨ ∃ col, mu.ColumnOrSupercolumn = some col ∧ c = ⟨key, family, col⟩ := by
  unfold Store.applyMutation at h
  have hins : ∀ {c1 : Cell},
      c1 ∈ (match mu.ColumnOrSupercolumn with
        | some col => s.insert key family col
        | none => s) →
      c1 ∈ s ∨ ∃ col, mu.ColumnOrSupercolumn = some col ∧ c1 = ⟨key, family, col⟩ := by
    intro c1 h1
    cases hcol : mu.ColumnOrSupercolumn with
    | none =>
      simp only [hcol] at h1
      exact Or.inl h1
    | some col =>
      simp only [hcol] at h1
      rcases Store.mem_insert h1 with h2 | h2
      · exact Or.inl h2
      · exact Or.inr ⟨col, rfl, h2⟩
  cases hdel : mu.Deletion with
  | none =>
    simp only [hdel] at h
    exact hins h
  | some del =>
    simp only [hdel] at h
    exact hins (Store.mem_delete.mp h).1

theorem Store.mem_applyFamily {key : Bytes} {fm : Bytes × List Mutation} {c : Cell}
    {s : Store} (h : c ∈ s.applyFamily key fm) :
    c ∈ s ∨ ∃ mu ∈ fm.2, ∃ col, mu.ColumnOrSupercolumn = some col ∧ c = ⟨key, fm.1, col⟩ := by
  obtain ⟨f, mus⟩ := fm
  unfold Store.applyFamily at h
  simp only at h ⊢
  induction mus generalizing s with
  | nil => exact Or.inl h
  | cons mu rest ih =>
    simp only [List.foldl_cons] at h
    rcases ih h with h1 | ⟨mu1, hmu1, col, hcol, hc⟩
    · rcases Store.mem_applyMutation h1 with h2 | ⟨col, hcol, hc⟩
      · exact Or.inl h2
      · exact Or.inr ⟨mu, List.mem_cons_self _ _, col, hcol, hc⟩
    · exact Or.inr ⟨mu1, List.mem_cons_of_mem _ hmu1, col, hcol, hc⟩

theorem Store.mem_applyPartition {p : Bytes × FamilyMap} {c : Cell} {s : Store}
    (h : c ∈ s.applyPartition p) :
    c ∈ s ∨ ∃ fm ∈ p.2, ∃ mu ∈ fm.2, ∃ col,
      mu.ColumnOrSupercolumn = some col ∧ c = ⟨p.1, fm.1, col⟩ := by
  obtain ⟨key, fms⟩ := p
  unfold Store.applyPartition at h
  simp only at h ⊢
  induction fms generalizing s with
  | nil => exact Or.inl h
  | cons fm rest ih =>
    simp only [List.foldl_cons] at h
    rcases ih h with h1 | ⟨fm1, hfm1, hrest⟩
    · rcases Store.mem_applyFamily h1 with h2 | hnew
      · exact Or.inl h2
      · exact Or.inr ⟨fm, List.mem_cons_self _ _, hnew⟩
    · exact Or.inr ⟨fm1, List.mem_cons_of_mem _ hfm1, hrest⟩

theorem MutationMap.mem_insertions {mmap : MutationMap} {p : Bytes × FamilyMap}
    {fm : Bytes × List Mutation} {mu : Mutation} {col : Column}
    (hp : p ∈ mmap) (hfm : fm ∈ p.2) (hmu : mu ∈ fm.2)
    (hcol : mu.ColumnOrSupercolumn = some col) :
    (p.1, fm.1, col) ∈ mmap.insertions := by
  unfold MutationMap.insertions MutationMap.mutations
  rw [List.mem_filterMap]
  refine ⟨(p.1, fm.1, mu), ?_, by simp [hcol]⟩
  rw [List.mem_flatMap]
  refine ⟨p, hp, ?_⟩
  rw [List.mem_flatMap]
  exact ⟨fm, hfm, List.mem_map.mpr ⟨mu, hmu, rfl⟩⟩

theorem Store.mem_applyMap {mmap : MutationMap} {c : Cell} {s : Store}
    (h : c ∈ s.applyMap mmap) :
    c ∈ s ∨ ∃ x ∈ mmap.insertions, c = ⟨x.1, x.2.1, x.2.2⟩ := by
  unfold Store.applyMap at h
  induction mmap generalizing s with
  | nil => exact Or.inl h
  | cons p rest ih =>
    simp only [List.foldl_cons] at h
    rcases ih h with h1 | ⟨x, hx, hc⟩
    · rcases Store.mem_applyPartition h1 with h2 | ⟨fm, hfm, mu, hmu, col, hcol, hc⟩
      · exact Or.inl h2
      · exact Or.inr ⟨(p.1, fm.1, col),
          MutationMap.mem_insertions (List.mem_cons_self _ _) hfm hmu hcol, hc⟩
    · refine Or.inr ⟨x, ?_, hc⟩
      unfold MutationMap.insertions MutationMap.mutations at hx ⊢
      simp only [List.flatMap_cons, List.filterMap_append, List.mem_append]
      exact Or.inr hx

/-- Every cell of the store after the calls was in the store before or is a
column insertion of the calls. -/
theorem Store.mem_applyCalls {calls : List Call} {c : Cell} {s : Store}
    (h : c ∈ s.applyCalls calls) :
    c ∈ s ∨ ∃ x ∈ insertions calls, c = ⟨x.1, x.2.1, x.2.2⟩ := by
  unfold Store.applyCalls at h
  induction calls generalizing s with
  | nil => exact Or.inl h
  | cons call rest ih =>
    simp only [List.foldl_cons] at h
    have hrest : ∀ x ∈ insertions rest, x ∈ insertions (call :: rest) := by
      intro x hx
      unfold insertions mutationMaps at hx ⊢
      cases call <;> simp_all
    rcases ih h with h1 | ⟨x, hx, hc⟩
    · cases call with
      | Get k cp cl => exact Or.inl h1
      | GetRangeSlices cp pred kr cl => exact Or.inl h1
      | BatchMutate mmap cl =>
        rcases Store.mem_applyMap h1 with h2 | ⟨x, hx, hc⟩
        · exact Or.inl h2
        · refine Or.inr ⟨x, ?_, hc⟩
          unfold insertions mutationMaps
          simp [hx]
      | AtomicBatchMutate mmap cl =>
        rcases Store.mem_applyMap h1 with h2 | ⟨x, hx, hc⟩
        · exact Or.inl h2
        · refine Or.inr ⟨x, ?_, hc⟩
          unfold insertions mutationMaps
          simp [hx]
    · exact Or.inr ⟨x, hrest x hx, hc⟩

/-- Calls without a batch leave the store as it is. -/
theorem Store.applyCalls_of_no_batch {calls : List Call} (s : Store)
    (h : mutationMaps calls = []) : s.applyCalls calls = s := by
  unfold Store.applyCalls
  induction calls generalizing s with
  | nil => rfl
  | cons call rest ih =>
    cases call with
    | Get k cp cl =>
      simp only [List.foldl_cons, Store.applyCall]
      exact ih s (by simpa [mutationMaps] using h)
    | GetRangeSlices cp pred kr cl =>
      simp only [List.foldl_cons, Store.applyCall]
      exact ih s (by simpa [mutationMaps] using h)
    | BatchMutate mmap cl => simp [mutationMaps] at h
    | AtomicBatchMutate mmap cl => simp [mutationMaps] at h

theorem insertions_of_no_batch {calls : List Call} (h : mutationMaps calls = []) :
    insertions calls = [] := by
  simp [insertions, h]

/-! ## Facts about the two families of a member -/

/-- What a successful update call has issued: the rewritten blob to `members`
and `member_agreements`, the data columns to `members`. -/
theorem Update.run_issues_both {u : Update} {conn : Conn} {lib : Lib} {now : Time} {id : Bytes}
    (h : (u.run conn lib now id).err = none) :
    ∃ (pb : Column) (data : List Mutation),
      (u.run conn lib now id).calls =
        [Call.Get (memberPrefix ++ id) ⟨str "members", str "pb_data"⟩ ConsistencyLevel.ONE,
         Call.AtomicBatchMutate
           [(memberPrefix ++ id,
              [(str "members", ⟨some pb, none⟩ :: data),
               (str "member_agreements", [⟨some pb, none⟩])])]
           ConsistencyLevel.QUORUM] := by
  cases u with
  | fee amount yearly =>
    simp only [Update.run, SetMemberFee_eq] at h ⊢
    obtain ⟨r, member, changed, pb, -, -, -, -, hcalls⟩ := updateWith_ok h
    exact ⟨_, _, hcalls⟩
  | setter k name =>
    cases k <;>
      simp only [Update.run, Setter.run, SetTextValue_eq, SetLongValue_eq, SetBoolValue_eq]
        at h ⊢ <;>
      (obtain ⟨r, member, changed, pb, -, -, -, -, hcalls⟩ := updateWith_ok h
       exact ⟨_, _, hcalls⟩)

/-- The store after the batch of `MoveMemberToTrash`. -/
theorem Store.applyCalls_trash (s : Store) (k1 : Bytes) (cp : ColumnPath)
    (cl1 cl2 : ConsistencyLevel) (id uuid : Bytes) (del : Deletion) (col : Column) :
    s.applyCalls [Call.Get k1 cp cl1,
      Call.AtomicBatchMutate
        (if id = uuid then
          [(memberPrefix ++ id, [(str "members", [⟨none, some del⟩])]),
           (dequeuePrefix ++ uuid, [(str "membership_dequeue", [⟨some col, none⟩])])]
        else
          [(memberPrefix ++ id, [(str "members", [⟨none, some del⟩])]),
           (dequeuePrefix ++ id, []),
           (dequeuePrefix ++ uuid, [(str "membership_dequeue", [⟨some col, none⟩])])]) cl2]
      = (s.delete (memberPrefix ++ id) (str "members") del).insert (dequeuePrefix ++ uuid)
          (str "membership_dequeue") col := by
  split <;> rfl

/-! ## Facts about the key namespaces -/

/-- The keys from `q ++ [a]` up to, not including, `q ++ [a + 1]` are the keys
that start with `q ++ [a]`. -/
theorem between_iff_starts (q : Bytes) (a : Nat) (k : Bytes) :
    (bytesLe (q ++ [a]) k = true ∧ bytesLt k (q ++ [a + 1]) = true) ↔
      ∃ rest, k = q ++ [a] ++ rest := by
  unfold bytesLt
  induction q generalizing k with
  | nil =>
    cases k with
    | nil => simp [bytesLe]
    | cons y ys =>
      simp only [List.nil_append, bytesLe, List.singleton_append, List.cons.injEq,
        exists_and_left, exists_eq', and_true]
      by_cases h1 : a < y
      · have h2 : ¬ y < a := by omega
        have h3 : ¬ y = a := by omega
        by_cases h4 : a + 1 < y
        · simp [h1, h4, h3]
        · have h5 : ¬ y < a + 1 := by omega
          simp [h1, h4, h5, h3]
      · by_cases h2 : y < a
        · have h3 : ¬ y = a := by omega
          simp [h1, h2, h3]
        · have h3 : y = a := by omega
          subst h3
          simp
  | cons x q ih =>
    cases k with
    | nil => simp [bytesLe]
    | cons y ys =>
      simp only [List.cons_append, bytesLe, List.cons.injEq]
      by_cases h1 : x < y
      · have h2 : ¬ y = x := by omega
        simp [h1, h2]
      · by_cases h2 : y < x
        · have h3 : ¬ y = x := by omega
          simp [h1, h2, h3]
        · have h3 : y = x := by omega
          subst h3
          have := ih ys
          simp only [List.append_assoc, List.singleton_append] at this
          simpa [h1] using this

theorem Stage.keys (st : Stage) :
    ∃ q, st.keyPrefix = q ++ [58] ∧ st.keyEnd = q ++ [59] := by
  cases st
  · exact ⟨str "applicant", rfl, rfl⟩
  · exact ⟨str "queue", rfl, rfl⟩
  · exact ⟨str "dequeue", rfl, rfl⟩
  · exact ⟨str "archive", rfl, rfl⟩
  · exact ⟨str "member", rfl, rfl⟩

/-- The range of a stage holds the keys that start with its prefix. -/
theorem Stage.range_iff (st : Stage) (k : Bytes) :
    (bytesLe st.keyPrefix k = true ∧ bytesLt k st.keyEnd = true) ↔
      ∃ rest, k = st.keyPrefix ++ rest := by
  obtain ⟨q, hp, he⟩ := st.keys
  rw [hp, he]
  exact between_iff_starts q 58 k

/-- No key starts with the prefixes of two stages. -/
theorem Stage.disjoint (st st1 : Stage) (k : Bytes) (hne : st1 ≠ st)
    (h : ∃ rest, k = st.keyPrefix ++ rest) (h1 : ∃ rest, k = st1.keyPrefix ++ rest) : False := by
  obtain ⟨r, hr⟩ := h
  obtain ⟨r1, hr1⟩ := h1
  rw [hr] at hr1
  cases st <;> cases st1 <;>
    first
      | exact hne rfl
      | (simp [Stage.keyPrefix, applicationPrefix_eq, queuePrefix_eq, dequeuePrefix_eq,
          archivePrefix_eq, memberPrefix_eq] at hr1)

/-- A key within the range of a stage, from any cursor, the end key included,
is at least as long as the prefix. -/
theorem Stage.key_length (st : Stage) (cursor k : Bytes)
    (h1 : bytesLe (st.keyPrefix ++ cursor) k = true) (h2 : bytesLe k st.keyEnd = true) :
    st.keyPrefix.length ≤ k.length := by
  cases st
  · exact application_key_length cursor k h1 h2
  · exact queue_key_length cursor k h1 h2
  · exact dequeue_key_length cursor k h1 h2
  · exact archive_key_length cursor k h1 h2
  · exact member_key_length cursor k h1 h2

/-- The range the enumeration asks for is the range of its stage, from the
cursor. -/
theorem Enumeration.run_range (e : Enumeration) (conn : Conn) (lib : Lib) (prev : Bytes)
    (num : Int) (cp : ColumnParent) (pred : SlicePredicate) (kr : KeyRange)
    (cl : ConsistencyLevel)
    (hcall : (e.run conn lib prev num).calls = [Call.GetRangeSlices cp pred kr cl]) :
    (∃ cursor, kr.StartKey = e.stage.keyPrefix ++ cursor) ∧ kr.EndKey = e.stage.keyEnd := by
  cases e with
  | members =>
    simp only [Enumeration.run, EnumerateMembers_eq, scanRows_calls, List.cons.injEq,
      Call.GetRangeSlices.injEq, and_true] at hcall
    obtain ⟨-, -, rfl, -⟩ := hcall
    exact ⟨⟨prev, rfl⟩, rfl⟩
  | requests criterion =>
    simp only [Enumeration.run, EnumerateMembershipRequests_eq] at hcall
    obtain ⟨cursor, -, -, rfl, -, -⟩ := scanFrom_call hcall
    exact ⟨⟨cursor, rfl⟩, rfl⟩
  | queued =>
    simp only [Enumeration.run, EnumerateQueuedMembers, enumerateQueuedMembersIn_eq] at hcall
    obtain ⟨cursor, -, -, rfl, -, -⟩ := scanFrom_call hcall
    exact ⟨⟨cursor, rfl⟩, rfl⟩
  | dequeued =>
    simp only [Enumeration.run, EnumerateDeQueuedMembers, enumerateQueuedMembersIn_eq] at hcall
    obtain ⟨cursor, -, -, rfl, -, -⟩ := scanFrom_call hcall
    exact ⟨⟨cursor, rfl⟩, rfl⟩
  | trashed =>
    simp only [Enumeration.run, EnumerateTrashedMembers_eq] at hcall
    obtain ⟨cursor, -, -, rfl, -, -⟩ := scanFrom_call hcall
    exact ⟨⟨cursor, rfl⟩, rfl⟩

theorem queuedRow_of_length (lib : Lib) (keyPrefix : Bytes) (ks : KeySlice)
    (hlen : keyPrefix.length ≤ ks.Key.length) :
    ∃ m, queuedRow lib keyPrefix ks = .ok m := by
  unfold queuedRow
  rw [sliceFrom_of_le hlen]
  dsimp only
  split
  · exact ⟨_, rfl⟩
  · exact ⟨_, rfl⟩

/-- The row loop of an enumeration does not panic on a row whose key is at
least as long as the prefix of the stage and whose numeric and boolean columns
are wide enough. -/
theorem Enumeration.row_ok (e : Enumeration) (lib : Lib) (ks : KeySlice)
    (hlen : e.stage.keyPrefix.length ≤ ks.Key.length) (hwf : ks.Decodable) :
    ∃ m, e.row lib ks = .ok m := by
  cases e with
  | members =>
    by_cases hc : ks.Columns = []
    · exact ⟨none, (memberRow_ok ks hlen hwf).1 hc⟩
    · obtain ⟨m, hm⟩ := (memberRow_ok ks hlen hwf).2 hc
      exact ⟨some m, hm⟩
  | requests criterion =>
    by_cases hc : ks.Columns = []
    · exact ⟨none, (requestRow_ok lib ks hlen hwf).1 hc⟩
    · obtain ⟨m, hm⟩ := (requestRow_ok lib ks hlen hwf).2 hc
      exact ⟨some m, hm⟩
  | queued => exact queuedRow_of_length lib queuePrefix ks hlen
  | dequeued => exact queuedRow_of_length lib dequeuePrefix ks hlen
  | trashed => exact queuedRow_of_length lib archivePrefix ks hlen

/-! ## The column names the writers write -/

theorem requestDataNames_subset : ∀ name ∈ requestDataNames, name ∈ allColumns := by decide

theorem pb_data_ne_requestData : str "pb_data" ∉ requestDataNames := by decide

theorem insertions_get_batch (k : Bytes) (cp : ColumnPath) (cl1 cl2 : ConsistencyLevel)
    (mmap : MutationMap) :
    insertions [Call.Get k cp cl1, Call.AtomicBatchMutate mmap cl2] = mmap.insertions := by
  simp [insertions, mutationMaps]

theorem deletions_get_batch (k : Bytes) (cp : ColumnPath) (cl1 cl2 : ConsistencyLevel)
    (mmap : MutationMap) :
    deletions [Call.Get k cp cl1, Call.AtomicBatchMutate mmap cl2] = mmap.deletions := by
  simp [deletions, mutationMaps]

/-- The columns `StoreMembershipRequest` writes are named in `allColumns`,
and stamped `now`. -/
theorem StoreMembershipRequest_names (conn : Conn) (lib : Lib) (now : Time)
    (req : FormInputData) :
    ∀ x ∈ insertions (StoreMembershipRequest conn lib now req).calls,
      x.2.2.Name ∈ allColumns ∧ x.2.2.Timestamp = some now.UnixNano := by
  intro x hx
  by_cases hnone : mutationMaps (StoreMembershipRequest conn lib now req).calls = []
  · rw [insertions_of_no_batch hnone] at hx
    simp at hx
  · obtain ⟨uuid, md, meta0, bdata, hg, hmd, hmeta, hmar⟩ := StoreMembershipRequest_issued hnone
    rw [StoreMembershipRequest_eq conn hg hmd hmeta hmar] at hx
    simp only [insertions, mutationMaps, List.filterMap_cons, List.filterMap_nil,
      List.flatMap_cons, List.flatMap_nil, List.append_nil, MutationMap.insertions,
      MutationMap.mutations, List.mem_filterMap, List.mem_map, List.mem_append,
      List.mem_singleton] at hx
    obtain ⟨y, ⟨mu, hmu, rfl⟩, hy⟩ := hx
    rcases hmu with hmu | hmu
    · obtain ⟨name, v, hname, rfl⟩ := requestDataColumns_mem hmu
      rw [newCassandraMutationBytes_eq] at hy
      simp only [Option.map_some', Option.some.injEq] at hy
      subst hy
      exact ⟨requestDataNames_subset name hname, rfl⟩
    · subst hmu
      rw [newCassandraMutationBytes_eq] at hy
      simp only [Option.map_some', Option.some.injEq] at hy
      subst hy
      exact ⟨pb_data_mem_allColumns, rfl⟩

/-- The columns `StoreMembershipAgreement` writes are named in `allColumns`. -/
theorem StoreMembershipAgreement_names (conn : Conn) (lib : Lib) (now : Time)
    (id data : Bytes) :
    ∀ x ∈ insertions (StoreMembershipAgreement conn lib now id data).calls,
      x.2.2.Name ∈ allColumns ∧ x.2.2.Timestamp = some now.UnixNano := by
  intro x hx
  by_cases hnone : mutationMaps (StoreMembershipAgreement conn lib now id data).calls = []
  · rw [insertions_of_no_batch hnone] at hx
    simp at hx
  · obtain ⟨u, r, timestamp, member, value, -, -, -, -, -, hcalls⟩ :=
      StoreMembershipAgreement_issued hnone
    rw [hcalls, insertions_get_batch] at hx
    simp only [MutationMap.insertions, MutationMap.mutations, List.flatMap_cons,
      List.flatMap_nil, List.append_nil, List.map_cons, List.map_nil, List.filterMap_cons,
      List.filterMap_nil, Option.map_some', List.mem_cons, List.not_mem_nil, or_false] at hx
    rcases hx with rfl | rfl
    · exact ⟨pb_data_mem_allColumns, rfl⟩
    · exact ⟨by show str "application_pdf" ∈ allColumns; decide, rfl⟩

/-- The columns an update writes: the column read, rewritten, and the data
columns; all stamped `now`. -/
theorem updateWith_names (conn : Conn) (lib : Lib) (now : Time) (id : Bytes)
    (change : MembershipAgreement → Except Error MembershipAgreement) (data : List Mutation) :
    ∀ x ∈ insertions (updateWith conn lib now id change data).calls,
      ∃ r member changed,
        conn.Get (memberPrefix ++ id) ⟨str "members", str "pb_data"⟩ ConsistencyLevel.ONE
          = .ok r ∧
        change member = .ok changed ∧
        ((x.2.2.Name = r.Name ∧ x.2.2.Timestamp = some now.UnixNano) ∨
          ∃ mu ∈ data, mu.ColumnOrSupercolumn = some x.2.2) := by
  intro x hx
  by_cases hnone : mutationMaps (updateWith conn lib now id change data).calls = []
  · rw [insertions_of_no_batch hnone] at hx
    simp at hx
  · obtain ⟨r, member, changed, pb, hget, -, hch, -, hcalls⟩ := updateWith_issued hnone
    refine ⟨r, member, changed, hget, hch, ?_⟩
    rw [hcalls, insertions_get_batch] at hx
    simp only [MutationMap.insertions, MutationMap.mutations, List.flatMap_cons,
      List.flatMap_nil, List.append_nil, List.map_cons, List.map_nil, List.filterMap_cons,
      List.filterMap_append, List.mem_append, List.mem_filterMap, List.mem_map,
      List.filterMap_nil, Option.map_some', List.mem_cons, List.not_mem_nil, or_false] at hx
    rcases hx with (rfl | ⟨y, ⟨mu, hmu, rfl⟩, hy⟩) | rfl
    · exact Or.inl ⟨rfl, rfl⟩
    · right
      cases hcos : mu.ColumnOrSupercolumn with
      | none => simp [hcos] at hy
      | some col =>
        simp only [hcos, Option.map_some', Option.some.injEq] at hy
        subst hy
        exact ⟨mu, hmu, hcos⟩
    · exact Or.inl ⟨rfl, rfl⟩

/-- The columns an update writes are named in `allColumns`, when the store
answers a read with the column asked for; all are stamped `now`. -/
theorem Update.run_names (u : Update) (conn : Conn) (lib : Lib) (now : Time) (id : Bytes)
    (hget : ∀ key cp cl r, conn.Get key cp cl = .ok r → r.Name = cp.Column) :
    ∀ x ∈ insertions (u.run conn lib now id).calls,
      x.2.2.Name ∈ allColumns ∧ x.2.2.Timestamp = some now.UnixNano := by
  intro x hx
  have hblob : ∀ r, conn.Get (memberPrefix ++ id) ⟨str "members", str "pb_data"⟩
      ConsistencyLevel.ONE = .ok r → x.2.2.Name = r.Name → x.2.2.Name ∈ allColumns := by
    intro r hr hname
    rw [hname, hget _ _ _ _ hr]
    exact pb_data_mem_allColumns
  cases u with
  | fee amount yearly =>
    simp only [Update.run, SetMemberFee_eq] at hx
    obtain ⟨r, member, changed, hr, -, h | ⟨mu, hmu, hcos⟩⟩ := updateWith_names _ _ _ _ _ _ x hx
    · exact ⟨hblob r hr h.1, h.2⟩
    · simp only [List.mem_cons, List.mem_singleton, List.not_mem_nil, or_false] at hmu
      rcases hmu with rfl | rfl <;>
        (rw [newCassandraMutationBytes_eq] at hcos
         simp only [Option.some.injEq] at hcos
         rw [← hcos]
         exact ⟨by dsimp only; decide, rfl⟩)
  | setter k name =>
    cases k with
    | text value =>
      simp only [Update.run, Setter.run, SetTextValue_eq] at hx
      obtain ⟨r, member, changed, hr, hch, h | ⟨mu, hmu, hcos⟩⟩ :=
        updateWith_names _ _ _ _ _ _ x hx
      · exact ⟨hblob r hr h.1, h.2⟩
      · simp only [List.mem_singleton] at hmu
        subst hmu
        rw [newCassandraMutationString, newCassandraMutationBytes_eq] at hcos
        simp only [Option.some.injEq] at hcos
        rw [← hcos]
        obtain ⟨md, -, hf⟩ := setTextField_eq hch
        refine ⟨?_, rfl⟩
        rcases hf with ⟨rfl, -⟩ | ⟨rfl, -⟩ | ⟨rfl, -⟩ | ⟨rfl, -⟩ | ⟨rfl, -⟩ | ⟨rfl, -⟩ | ⟨rfl, -⟩ <;>
          (dsimp only; decide)
    | long value =>
      simp only [Update.run, Setter.run, SetLongValue_eq] at hx
      obtain ⟨r, member, changed, hr, hch, h | ⟨mu, hmu, hcos⟩⟩ :=
        updateWith_names _ _ _ _ _ _ x hx
      · exact ⟨hblob r hr h.1, h.2⟩
      · simp only [List.mem_singleton] at hmu
        subst hmu
        rw [newCassandraMutationBytes_eq] at hcos
        simp only [Option.some.injEq] at hcos
        rw [← hcos]
        obtain ⟨rfl, -⟩ := setLongField_ok hch
        exact ⟨by dsimp only; decide, rfl⟩
    | bool value =>
      simp only [Update.run, Setter.run, SetBoolValue_eq] at hx
      obtain ⟨r, member, changed, hr, hch, h | ⟨mu, hmu, hcos⟩⟩ :=
        updateWith_names _ _ _ _ _ _ x hx
      · exact ⟨hblob r hr h.1, h.2⟩
      · simp only [List.mem_singleton] at hmu
        subst hmu
        rw [newCassandraMutationBytes_eq] at hcos
        simp only [Option.some.injEq] at hcos
        rw [← hcos]
        obtain ⟨rfl, -⟩ := setBoolField_ok hch
        exact ⟨by dsimp only; decide, rfl⟩

/-- The batch of a move: the one column it writes is `pb_data`, and the one
deletion names `allColumns`. -/
theorem Move.run_batch_names (m : Move) (conn : Conn) (lib : Lib) (now : Time)
    (id initiator : Bytes) :
    (∀ x ∈ insertions (m.run conn lib now id initiator).calls,
      x.2.2.Name = str "pb_data" ∧ x.2.2.Timestamp = some now.UnixNano) ∧
    (∀ x ∈ deletions (m.run conn lib now id initiator).calls,
      x.2.1 = m.srcTable ∧ x.2.2.Predicate = some allColumns) := by
  by_cases hnone : mutationMaps (m.run conn lib now id initiator).calls = []
  · simp [insertions, deletions, hnone]
  · cases m with
    | table t =>
      simp only [Move.run, Transition.run_eq] at hnone ⊢
      cases hu : lib.ParseUUID id with
      | none =>
        exfalso
        apply hnone
        simp [moveRecordToTable, hu, mutationMaps]
      | some u =>
        obtain ⟨r, timestamp, member, md, value, -, -, -, -, -, -, hcalls⟩ :=
          moveRecordToTable_issued hu (t.keys_ne u) hnone
        rw [hcalls, newCassandraMutationBytes_eq]
        obtain ⟨hins, hdel⟩ := move_batch_mutations (t.srcPrefix ++ u)
          ⟨t.srcTable, str "pb_data"⟩ (t.dstPrefix ++ u) t.dstTable (t.srcPrefix ++ u)
          t.srcTable ⟨some timestamp, some allColumns⟩
          ⟨str "pb_data", value, some now.UnixNano, if t.ttl > 0 then some t.ttl else none⟩
        rw [hins, hdel]
        simp [Move.srcTable]
    | memberToTrash reason =>
      simp only [Move.run] at hnone ⊢
      obtain ⟨uuid, cos, member, md, value, -, -, -, -, -, hcalls⟩ :=
        MoveMemberToTrash_issued hnone
      obtain ⟨hins, hdel⟩ := trash_batch_mutations id uuid ⟨cos.Timestamp, some allColumns⟩
        ⟨str "pb_data", value, some now.UnixNano, none⟩
      rw [hcalls, hins, hdel]
      simp [Move.srcTable]

/-- After a successful move nothing is left of a source row whose columns are
named in `allColumns` and written no later than the blob that was read. -/
theorem Move.leaves_nothing (m : Move) (s : Store) (lib : Lib) (now : Time)
    (id initiator : Bytes)
    (hok : (m.run s.conn lib now id initiator).err = none) :
    ∃ srcKey r,
      s.Get srcKey ⟨m.srcTable, str "pb_data"⟩ = .ok r ∧
      deletions (m.run s.conn lib now id initiator).calls
        = [(srcKey, m.srcTable, ⟨r.Timestamp, some allColumns⟩)] ∧
      ((∀ c ∈ s, c.key = srcKey → c.family = m.srcTable →
          c.column.Name ∈ allColumns ∧ c.ts ≤ r.Timestamp.getD 0) →
        ∀ c ∈ s.applyCalls (m.run s.conn lib now id initiator).calls,
          ¬ (c.key = srcKey ∧ c.family = m.srcTable)) := by
  cases m with
  | table t =>
    simp only [Move.run, Transition.run_eq] at hok ⊢
    cases hu : lib.ParseUUID id with
    | none => simp [moveRecordToTable, hu] at hok
    | some u =>
      obtain ⟨r, timestamp, member, md, value, hget, hts, -, -, -, -, hcalls⟩ :=
        moveRecordToTable_ok hu (t.keys_ne u) hok
      refine ⟨t.srcPrefix ++ u, r, hget, ?_, ?_⟩
      · rw [hcalls, newCassandraMutationBytes_eq, hts]
        exact (move_batch_mutations _ _ _ _ _ _ _ _).2
      · intro hrow c hc hat
        rw [hcalls, newCassandraMutationBytes_eq, Store.applyCalls_move] at hc
        obtain ⟨hc1, hc2⟩ := Store.mem_delete.mp hc
        rcases Store.mem_insert hc1 with h | h
        · obtain ⟨hname, hle⟩ := hrow c h hat.1 hat.2
          apply hc2
          refine ⟨hat.1, hat.2, ?_, ?_⟩
          · simpa [Deletion.names] using hname
          · simpa [hts] using hle
        · rw [h] at hat
          exact t.keys_ne u hat.1
  | memberToTrash reason =>
    simp only [Move.run] at hok ⊢
    obtain ⟨uuid, cos, member, md, value, -, hget, -, -, -, hcalls⟩ := MoveMemberToTrash_ok hok
    refine ⟨memberPrefix ++ id, cos, hget, ?_, ?_⟩
    · rw [hcalls]
      exact (trash_batch_mutations _ _ _ _).2
    · intro hrow c hc hat
      rw [hcalls, Store.applyCalls_trash] at hc
      rcases Store.mem_insert hc with h | h
      · obtain ⟨hc1, hc2⟩ := Store.mem_delete.mp h
        obtain ⟨hname, hle⟩ := hrow c hc1 hat.1 hat.2
        apply hc2
        refine ⟨hat.1, hat.2, ?_, ?_⟩
        · simpa [Deletion.names] using hname
        · exact hle
      · rw [h] at hat
        exact member_ne_dequeue id uuid hat.1.symm

/-! ## Facts about the metadata of stored records -/

/-- The blob `StoreMembershipRequest` writes decodes to a record with
metadata whose request time stamp is set. -/
theorem StoreMembershipRequest_blob (conn : Conn) (lib : Lib) (now : Time)
    (req : FormInputData) (hrt : lib.RoundTrip) :
    ∀ x ∈ insertions (StoreMembershipRequest conn lib now req).calls,
      x.2.2.Name = str "pb_data" →
      x.2.2.Timestamp ≠ none ∧
      ∃ m md ts, lib.Unmarshal x.2.2.Value = (m, none) ∧ m.Metadata = some md ∧
        md.RequestTimestamp = some ts := by
  intro x hx hname
  by_cases hnone : mutationMaps (StoreMembershipRequest conn lib now req).calls = []
  · rw [insertions_of_no_batch hnone] at hx
    simp at hx
  · obtain ⟨uuid, md, meta0, bdata, hg, hmd, hmeta, hmar⟩ := StoreMembershipRequest_issued hnone
    rw [StoreMembershipRequest_eq conn hg hmd hmeta hmar] at hx
    simp only [insertions, mutationMaps, List.filterMap_cons, List.filterMap_nil,
      List.flatMap_cons, List.flatMap_nil, List.append_nil, MutationMap.insertions,
      MutationMap.mutations, List.mem_filterMap, List.mem_map, List.mem_append,
      List.mem_singleton] at hx
    obtain ⟨y, ⟨mu, hmu, rfl⟩, hy⟩ := hx
    rcases hmu with hmu | hmu
    · obtain ⟨name, v, hn, rfl⟩ := requestDataColumns_mem hmu
      rw [newCassandraMutationBytes_eq] at hy
      simp only [Option.map_some', Option.some.injEq] at hy
      subst hy
      dsimp only at hname
      subst hname
      exact absurd hn pb_data_ne_requestData
    · subst hmu
      rw [newCassandraMutationBytes_eq] at hy
      simp only [Option.map_some', Option.some.injEq] at hy
      subst hy
      refine ⟨by simp, _, stampedMetadata meta0 now, ?_, hrt _ _ hmar, rfl, ?_⟩
      · exact (stampedMetadata meta0 now).RequestTimestamp.getD 0
      · unfold stampedMetadata
        cases hrq : meta0.RequestTimestamp with
        | none => simp
        | some t => simp [hrq]

/-- The blob `StoreMembershipAgreement` writes decodes to the record read
with the agreement replaced: its metadata is the metadata read. -/
theorem StoreMembershipAgreement_blob (conn : Conn) (lib : Lib) (now : Time)
    (id data : Bytes) (hrt : lib.RoundTrip) :
    ∀ x ∈ insertions (StoreMembershipAgreement conn lib now id data).calls,
      x.2.2.Name = str "pb_data" →
      x.2.2.Timestamp ≠ none ∧
      ∃ u r member,
        lib.ParseUUID id = some u ∧
        conn.Get (applicationPrefix ++ u) ⟨str "application", str "pb_data"⟩
          ConsistencyLevel.ONE = .ok r ∧
        lib.Unmarshal r.Value = (member, none) ∧
        lib.Unmarshal x.2.2.Value = ({ member with AgreementPdf := data }, none) := by
  intro x hx hname
  by_cases hnone : mutationMaps (StoreMembershipAgreement conn lib now id data).calls = []
  · rw [insertions_of_no_batch hnone] at hx
    simp at hx
  · obtain ⟨u, r, timestamp, member, value, hu, hget, -, hum, hmar, hcalls⟩ :=
      StoreMembershipAgreement_issued hnone
    rw [hcalls, insertions_get_batch] at hx
    simp only [MutationMap.insertions, MutationMap.mutations, List.flatMap_cons,
      List.flatMap_nil, List.append_nil, List.map_cons, List.map_nil, List.filterMap_cons,
      List.filterMap_nil, Option.map_some', List.mem_cons, List.not_mem_nil, or_false] at hx
    rcases hx with rfl | rfl
    · exact ⟨by simp, u, r, member, hu, hget, hum, hrt _ _ hmar⟩
    · dsimp only at hname
      exact absurd hname (by decide)

/-- The blob a transition writes decodes to a record with metadata, approver
and approval time filled in. -/
theorem Transition.run_blob (t : Transition) (conn : Conn) (lib : Lib) (now : Time)
    (id initiator : Bytes) (hrt : lib.RoundTrip) :
    ∀ x ∈ insertions (t.run conn lib now id initiator).calls,
      x.2.2.Timestamp ≠ none ∧
      ∃ m md, lib.Unmarshal x.2.2.Value = (m, none) ∧ m.Metadata = some md ∧
        md.ApproverUid = some initiator ∧ md.ApprovalTimestamp = some (uint64 now.Unix) := by
  intro x hx
  rw [Transition.run_eq] at hx
  by_cases hnone : mutationMaps (moveRecordToTable conn lib now id initiator t.srcTable
      t.srcPrefix t.dstTable t.dstPrefix t.ttl).calls = []
  · rw [insertions_of_no_batch hnone] at hx
    simp at hx
  · cases hu : lib.ParseUUID id with
    | none =>
      exfalso
      apply hnone
      simp [moveRecordToTable, hu, mutationMaps]
    | some u =>
      obtain ⟨r, timestamp, member, md, value, -, -, -, -, -, hmar, hcalls⟩ :=
        moveRecordToTable_issued hu (t.keys_ne u) hnone
      rw [hcalls, newCassandraMutationBytes_eq,
        (move_batch_mutations _ _ _ _ _ _ _ _).1, List.mem_singleton] at hx
      subst hx
      exact ⟨by simp, _, _, hrt _ _ hmar, rfl, rfl, rfl⟩

/-- Each operation keeps the metadata of the stored blobs present. -/
theorem Store.HasMetadata.after_step {s : Store} {lib : Lib} (hrt : lib.RoundTrip)
    (h : s.HasMetadata lib) (st : Step) :
    (s.applyCalls (st.calls lib s)).HasMetadata lib := by
  intro c hc hname
  rcases Store.mem_applyCalls hc with hold | ⟨x, hx, rfl⟩
  · exact h c hold hname
  · dsimp only at hname ⊢
    cases st with
    | request now req =>
      obtain ⟨hts, m, md, ts, hum, hmd, -⟩ :=
        StoreMembershipRequest_blob s.conn lib now req hrt x hx hname
      exact ⟨hts, m, md, hum, hmd⟩
    | agreement now id data =>
      obtain ⟨hts, u, r, member, -, hget, hum, hnew⟩ :=
        StoreMembershipAgreement_blob s.conn lib now id data hrt x hx hname
      obtain ⟨c0, hc0, hat, hcol⟩ := Store.mem_of_Get_ok hget
      have hn0 : c0.column.Name = str "pb_data" := by
        rw [hcol]
        exact Store.Get_name hget
      obtain ⟨-, m0, md0, hum0, hmd0⟩ := h c0 hc0 hn0
      rw [hcol, hum] at hum0
      have hm : member = m0 := (Prod.mk.inj hum0).1
      subst hm
      exact ⟨hts, _, md0, hnew, hmd0⟩
    | move t now id initiator =>
      obtain ⟨hts, m, md, hum, hmd, -, -⟩ := t.run_blob s.conn lib now id initiator hrt x hx
      exact ⟨hts, m, md, hum, hmd⟩

/-- The store made by the operations from the empty store has metadata in
every blob. -/
theorem Store.HasMetadata.after_steps {s : Store} {lib : Lib} (hrt : lib.RoundTrip)
    (h : s.HasMetadata lib) (steps : List Step) : (s.after lib steps).HasMetadata lib := by
  unfold Store.after
  induction steps generalizing s with
  | nil => exact h
  | cons st rest ih =>
    simp only [List.foldl_cons]
    exact ih (h.after_step hrt st)

/-- On a store whose blobs have metadata `moveRecordToTable` does not
dereference a nil pointer. -/
theorem moveRecordToTable_no_nil {s : Store} {lib : Lib} (h : s.HasMetadata lib) (now : Time)
    (id initiator st sp dt dp : Bytes) (ttl : Int) :
    (moveRecordToTable s.conn lib now id initiator st sp dt dp ttl).err
      ≠ some Error.NilDereference := by
  unfold moveRecordToTable GetMembershipRequest
  cases hu : lib.ParseUUID id with
  | none => simp
  | some u =>
    dsimp only
    cases hget : s.conn.Get (sp ++ u) ⟨st, str "pb_data"⟩ ConsistencyLevel.ONE with
    | error e => simp
    | ok r =>
      have hget1 : s.Get (sp ++ u) ⟨st, str "pb_data"⟩ = .ok r := hget
      obtain ⟨c0, hc0, -, hcol⟩ := Store.mem_of_Get_ok hget1
      have hn0 : c0.column.Name = str "pb_data" := by
        rw [hcol]
        exact Store.Get_name hget1
      obtain ⟨hts, m, md, hum, hmd⟩ := h c0 hc0 hn0
      rw [hcol] at hts hum
      cases htime : r.Timestamp with
      | none => exact absurd htime hts
      | some timestamp =>
        simp only [htime, hum, hmd]
        split
        · simp
        · cases lib.Marshal _ with
          | none => simp
          | some value => simp [Store.conn]

/-! ## Facts about the keys of the entries -/

theorem sliceFrom_eq {b s : Bytes} {n : Nat} (h : sliceFrom b n = some s) : s = b.drop n := by
  unfold sliceFrom at h
  split at h
  · exact (Option.some.inj h).symm
  · cases h

theorem memberColumn_email {acc acc1 : Member} {c : Column} (hne : c.Name ≠ str "email")
    (h : memberColumn acc c = some acc1) : acc1.Email = acc.Email := by
  unfold memberColumn at h
  by_cases n0 : c.Name = str "name"
  · rw [if_pos n0] at h
    simp only [Option.some.injEq] at h
    subst h
    rfl
  rw [if_neg n0] at h
  by_cases n1 : c.Name = str "street"
  · rw [if_pos n1] at h
    simp only [Option.some.injEq] at h
    subst h
    rfl
  rw [if_neg n1] at h
  by_cases n2 : c.Name = str "city"
  · rw [if_pos n2] at h
    simp only [Option.some.injEq] at h
    subst h
    rfl
  rw [if_neg n2] at h
  by_cases n3 : c.Name = str "country"
  · rw [if_pos n3] at h
    simp only [Option.some.injEq] at h
    subst h
    rfl
  rw [if_neg n3] at h
  by_cases n4 : c.Name = str "email"
  · exact absurd n4 hne
  rw [if_neg n4] at h
  by_cases n5 : c.Name = str "phone"
  · rw [if_pos n5] at h
    simp only [Option.some.injEq] at h
    subst h
    rfl
  rw [if_neg n5] at h
  by_cases n6 : c.Name = str "username"
  · rw [if_pos n6] at h
    simp only [Option.some.injEq] at h
    subst h
    rfl
  rw [if_neg n6] at h
  by_cases n7 : c.Name = str "fee"
  · rw [if_pos n7] at h
    obtain ⟨v, -, rfl⟩ := Option.map_eq_some'.mp h
    rfl
  rw [if_neg n7] at h
  by_cases n8 : c.Name = str "fee_yearly"
  · rw [if_pos n8] at h
    obtain ⟨v, -, rfl⟩ := Option.map_eq_some'.mp h
    rfl
  rw [if_neg n8] at h
  by_cases n9 : c.Name = str "has_key"
  · rw [if_pos n9] at h
    obtain ⟨v, -, rfl⟩ := Option.map_eq_some'.mp h
    rfl
  rw [if_neg n9] at h
  by_cases n10 : c.Name = str "payments_caught_up_to"
  · rw [if_pos n10] at h
    obtain ⟨v, -, rfl⟩ := Option.map_eq_some'.mp h
    rfl
  rw [if_neg n10] at h
  simp only [Option.some.injEq] at h
  subst h
  rfl

theorem requestColumn_key {acc acc1 : MemberWithKey} {c : Column}
    (h : requestColumn acc c = some acc1) : acc1.Key = acc.Key := by
  unfold requestColumn at h
  by_cases n0 : c.Name = str "name"
  · rw [if_pos n0] at h
    simp only [Option.some.injEq] at h
    subst h
    rfl
  rw [if_neg n0] at h
  by_cases n1 : c.Name = str "street"
  · rw [if_pos n1] at h
    simp only [Option.some.injEq] at h
    subst h
    rfl
  rw [if_neg n1] at h
  by_cases n2 : c.Name = str "city"
  · rw [if_pos n2] at h
    simp only [Option.some.injEq] at h
    subst h
    rfl
  rw [if_neg n2] at h
  by_cases n3 : c.Name = str "fee"
  · rw [if_pos n3] at h
    obtain ⟨v, -, rfl⟩ := Option.map_eq_some'.mp h
    rfl
  rw [if_neg n3] at h
  by_cases n4 : c.Name = str "fee_yearly"
  · rw [if_pos n4] at h
    obtain ⟨v, -, rfl⟩ := Option.map_eq_some'.mp h
    rfl
  rw [if_neg n4] at h
  simp only [Option.some.injEq] at h
  subst h
  rfl

/-- What every step of a column loop keeps, the loop keeps. -/
theorem forColumns_keeps {α β : Type} (body : α → Column → Option α) (f : α → β)
    (cols : List Column)
    (h : ∀ c ∈ cols, ∀ acc acc1, body acc c = some acc1 → f acc1 = f acc)
    (acc m : α) (hm : forColumns body acc cols = some m) : f m = f acc := by
  induction cols generalizing acc with
  | nil =>
    simp only [forColumns, Option.some.injEq] at hm
    rw [hm]
  | cons c rest ih =>
    unfold forColumns at hm
    cases hb : body acc c with
    | none => simp [hb] at hm
    | some acc1 =>
      simp only [hb] at hm
      rw [ih (fun c1 hc1 => h c1 (List.mem_cons_of_mem _ hc1)) acc1 hm]
      exact h c (List.mem_cons_self _ _) acc acc1 hb

theorem memberRow_key {ks : KeySlice} {m : Member} (h : memberRow ks = .ok (some m))
    (hne : ∀ c ∈ ks.Columns, c.Name ≠ str "email") :
    m.Email = some (ks.Key.drop memberPrefix.length) := by
  unfold memberRow at h
  split at h
  · cases h
  · cases hs : sliceFrom ks.Key memberPrefix.length with
    | none => simp [hs] at h
    | some email =>
      simp only [hs] at h
      cases hf : forColumns memberColumn { Email := some email } ks.Columns with
      | none => simp [hf] at h
      | some m1 =>
        simp only [hf, Except.ok.injEq, Option.some.injEq] at h
        subst h
        rw [forColumns_keeps memberColumn (fun x => x.Email) ks.Columns
          (fun c hc acc acc1 hb => memberColumn_email (hne c hc) hb) _ _ hf]
        rw [sliceFrom_eq hs]

theorem requestRow_key {lib : Lib} {ks : KeySlice} {m : MemberWithKey}
    (h : requestRow lib ks = .ok (some m)) :
    m.Key = lib.UUIDString (lib.UUIDFromBytes (ks.Key.drop applicationPrefix.length)) := by
  unfold requestRow at h
  cases hs : sliceFrom ks.Key applicationPrefix.length with
  | none => simp [hs] at h
  | some suffix =>
    simp only [hs] at h
    split at h
    · cases h
    · cases hf : forColumns requestColumn
          { Key := lib.UUIDString (lib.UUIDFromBytes suffix) } ks.Columns with
      | none => simp [hf] at h
      | some m1 =>
        simp only [hf, Except.ok.injEq, Option.some.injEq] at h
        subst h
        rw [forColumns_keeps requestColumn (fun x => x.Key) ks.Columns
          (fun c _ acc acc1 hb => requestColumn_key hb) _ _ hf]
        rw [sliceFrom_eq hs]

theorem foldl_queuedColumn_key (lib : Lib) (uuid : Bytes) (cols : List Column)
    (acc : Option MemberWithKey) (hacc : ∀ a, acc = some a → a.Key = lib.UUIDString uuid)
    (m : MemberWithKey) (h : cols.foldl (queuedColumn lib uuid) acc = some m) :
    m.Key = lib.UUIDString uuid := by
  induction cols generalizing acc with
  | nil => exact hacc m h
  | cons c rest ih =>
    simp only [List.foldl_cons] at h
    refine ih (queuedColumn lib uuid acc c) ?_ h
    intro a ha
    unfold queuedColumn at ha
    split at ha
    · simp only [Option.some.injEq] at ha
      subst ha
      rfl
    · exact hacc a ha

theorem queuedRow_key {lib : Lib} {keyPrefix : Bytes} {ks : KeySlice} {m : MemberWithKey}
    (h : queuedRow lib keyPrefix ks = .ok (some m)) :
    m.Key = lib.UUIDString (lib.UUIDFromBytes (ks.Key.drop keyPrefix.length)) := by
  unfold queuedRow at h
  cases hs : sliceFrom ks.Key keyPrefix.length with
  | none => simp [hs] at h
  | some suffix =>
    simp only [hs] at h
    split at h
    · cases h
    · simp only [Except.ok.injEq] at h
      rw [← sliceFrom_eq hs]
      exact foldl_queuedColumn_key lib (lib.UUIDFromBytes suffix) ks.Columns none
        (fun a ha => by cases ha) m h

/-- The entry the row loop makes of a row carries the key of the row
(`EnumerateMembers`: when the row has no `email` column). -/
theorem Enumeration.row_key (e : Enumeration) (lib : Lib) (ks : KeySlice) (m : e.Entry)
    (h : e.row lib ks = .ok (some m))
    (hne : e = Enumeration.members → ∀ c ∈ ks.Columns, c.Name ≠ str "email") :
    e.entryKey m = some (e.rowKey lib ks) := by
  cases e with
  | members => exact memberRow_key h (hne rfl)
  | requests criterion => exact congrArg some (requestRow_key h)
  | queued => exact congrArg some (queuedRow_key h)
  | dequeued => exact congrArg some (queuedRow_key h)
  | trashed => exact congrArg some (queuedRow_key h)

theorem scanFrom_of_cursor {α : Type} (conn : Conn) (lib : Lib)
    (body : KeySlice → Except Error (Option α)) (cf keyPrefix keyEnd : Bytes)
    (names : List Bytes) (prev : Bytes) (num : Int) (cursor : Bytes)
    (h : (if prev.length > 0 then lib.ParseUUID prev else some []) = some cursor) :
    scanFrom conn lib body cf keyPrefix keyEnd names prev num =
      scanRows conn body { ColumnFamily := cf } { ColumnNames := names }
        { StartKey := keyPrefix ++ cursor, EndKey := keyEnd, Count := num } := by
  have hs : cursorStart lib keyPrefix prev = some (keyPrefix ++ cursor) := by
    unfold cursorStart
    split at h
    · rename_i hp
      simp [hp, h]
    · rename_i hp
      simp only [Option.some.injEq] at h
      subst h
      simp [hp]
  unfold scanFrom
  simp only [hs]

/-- With a cursor that parses, the enumeration is the scan of its stage from
the cursor followed by its row loop. -/
theorem Enumeration.run_scan (e : Enumeration) (conn : Conn) (lib : Lib) (prev : Bytes)
    (num : Int) (cursor : Bytes) (h : e.cursor lib prev = some cursor) :
    e.run conn lib prev num =
      scanRows conn (e.row lib) { ColumnFamily := e.family } { ColumnNames := e.columnNames }
        { StartKey := e.stage.keyPrefix ++ cursor, EndKey := e.stage.keyEnd, Count := num } := by
  cases e with
  | members =>
    simp only [Enumeration.cursor, Option.some.injEq] at h
    subst h
    exact EnumerateMembers_eq conn prev num
  | requests criterion =>
    exact (EnumerateMembershipRequests_eq conn lib criterion prev num).trans
      (scanFrom_of_cursor conn lib _ _ _ _ _ prev num cursor h)
  | queued =>
    exact (enumerateQueuedMembersIn_eq conn lib _ _ _ prev num).trans
      (scanFrom_of_cursor conn lib _ _ _ _ _ prev num cursor h)
  | dequeued =>
    exact (enumerateQueuedMembersIn_eq conn lib _ _ _ prev num).trans
      (scanFrom_of_cursor conn lib _ _ _ _ _ prev num cursor h)
  | trashed =>
    exact (EnumerateTrashedMembers_eq conn lib prev num).trans
      (scanFrom_of_cursor conn lib _ _ _ _ _ prev num cursor h)

/-- The row loop of an enumeration on a row of its stage, with columns of the
names asked for that are wide enough to decode: nothing for a row with zero
columns, an entry for any other row. -/
theorem Enumeration.row_split (e : Enumeration) (lib : Lib) (ks : KeySlice)
    (hlen : e.stage.keyPrefix.length ≤ ks.Key.length)
    (hcols : ∀ c ∈ ks.Columns, c.Name ∈ e.columnNames) (hwf : ks.Decodable) :
    (ks.Columns = [] → e.row lib ks = .ok none) ∧
    (ks.Columns ≠ [] → ∃ m, e.row lib ks = .ok (some m)) := by
  cases e with
  | members => exact memberRow_ok ks hlen hwf
  | requests criterion => exact requestRow_ok lib ks hlen hwf
  | queued =>
    exact queuedRow_ok lib queuePrefix ks hlen
      (fun c hc => by simpa [Enumeration.columnNames] using hcols c hc)
  | dequeued =>
    exact queuedRow_ok lib dequeuePrefix ks hlen
      (fun c hc => by simpa [Enumeration.columnNames] using hcols c hc)
  | trashed =>
    exact queuedRow_ok lib archivePrefix ks hlen
      (fun c hc => by simpa [Enumeration.columnNames] using hcols c hc)

/-! ## The claims -/

/-- C1: every successful `MoveApplicantToNewMember`, `MoveApplicantToTrash` or
`MoveQueuedRecordToTrash` on an id that parses to the UUID `u` issues, after
its read, exactly one `AtomicBatchMutate`, at QUORUM; the mutation map has
exactly the two partition keys destination prefix + `u` and source prefix +
`u`; the first holds, under the destination family, one insertion of column
`pb_data`, the second, under the source family, one deletion naming
`allColumns`.  Applied to a last-timestamp-wins store that answered the read
and holds no source column written later than the `pb_data` column read, the
batch leaves the record absent from the source stage and present in the
destination stage. -/
theorem move_is_one_atomic_batch (t : Transition) (conn : Conn) (lib : Lib) (now : Time)
    (id initiator u : Bytes)
    (hu : lib.ParseUUID id = some u)
    (hok : (t.run conn lib now id initiator).err = none) :
    ∃ (r : Column) (timestamp : Int) (value : Bytes),
      conn.Get (t.srcPrefix ++ u) ⟨t.srcTable, str "pb_data"⟩ ConsistencyLevel.ONE = .ok r ∧
      r.Timestamp = some timestamp ∧
      (t.run conn lib now id initiator).calls =
        [Call.Get (t.srcPrefix ++ u) ⟨t.srcTable, str "pb_data"⟩ ConsistencyLevel.ONE,
         Call.AtomicBatchMutate
           [(t.dstPrefix ++ u, [(t.dstTable,
              [⟨some ⟨str "pb_data", value, some now.UnixNano,
                  if t.ttl > 0 then some t.ttl else none⟩, none⟩])]),
            (t.srcPrefix ++ u, [(t.srcTable,
              [⟨none, some ⟨some timestamp, some allColumns⟩⟩])])]
           ConsistencyLevel.QUORUM] ∧
      ∀ s : Store, conn = s.conn →
        (∀ c ∈ s, c.key = t.srcPrefix ++ u → c.family = t.srcTable → c.ts ≤ timestamp) →
        (s.applyCalls (t.run conn lib now id initiator).calls).Get (t.srcPrefix ++ u)
            ⟨t.srcTable, str "pb_data"⟩ = .error StoreError.NotFound ∧
        ∃ c, (s.applyCalls (t.run conn lib now id initiator).calls).Get (t.dstPrefix ++ u)
            ⟨t.dstTable, str "pb_data"⟩ = .ok c := by
  rw [Transition.run_eq] at hok ⊢
  obtain ⟨r, timestamp, member, md, value, hget, hts, -, -, -, -, hcalls⟩ :=
    moveRecordToTable_ok hu (t.keys_ne u) hok
  rw [newCassandraMutationBytes_eq] at hcalls
  refine ⟨r, timestamp, value, hget, hts, hcalls, ?_⟩
  intro s _ hlate
  rw [hcalls, Store.applyCalls_move]
  exact Store.move_effect s _ _ _ _ _ timestamp (t.keys_ne u) rfl hlate

theorem move_is_one_atomic_batch_witness :
    refLib.ParseUUID sampleId = some sampleUUID ∧
    (Transition.ApplicantToNewMember.run sampleStore.conn refLib time3 sampleId
      (str "admin1")).err = none ∧
    (sampleStore.applyCalls (Transition.ApplicantToNewMember.run sampleStore.conn refLib time3
      sampleId (str "admin1")).calls).Get (applicationPrefix ++ sampleUUID)
        ⟨str "application", str "pb_data"⟩ = .error StoreError.NotFound ∧
    ∃ c, (sampleStore.applyCalls (Transition.ApplicantToNewMember.run sampleStore.conn refLib
      time3 sampleId (str "admin1")).calls).Get (queuePrefix ++ sampleUUID)
        ⟨str "membership_queue", str "pb_data"⟩ = .ok c := by
  have hu : refLib.ParseUUID sampleId = some sampleUUID := by decide
  have hok : (Transition.ApplicantToNewMember.run sampleStore.conn refLib time3 sampleId
      (str "admin1")).err = none := by decide
  obtain ⟨r, timestamp, value, hget, hts, -, hstore⟩ :=
    move_is_one_atomic_batch Transition.ApplicantToNewMember sampleStore.conn refLib time3
      sampleId (str "admin1") sampleUUID hu hok
  have hr : sampleStore.conn.Get (Transition.ApplicantToNewMember.srcPrefix ++ sampleUUID)
      ⟨Transition.ApplicantToNewMember.srcTable, str "pb_data"⟩ ConsistencyLevel.ONE
      = .ok ⟨str "pb_data", sampleBlob, some 2000000000, none⟩ := by rfl
  rw [hr] at hget
  cases hget
  cases hts
  refine ⟨hu, hok, hstore sampleStore rfl ?_⟩
  intro c hc _ _
  simp only [sampleStore, List.mem_cons, List.mem_singleton, List.not_mem_nil, or_false] at hc
  rcases hc with rfl | rfl <;> decide

/-- C2 (as stated, refuted): `MoveMemberToTrash` for the member `ada` succeeds,
and its one insertion goes to the partition key `dequeuePrefix` + the UUID
generated at that time, which is not `dequeuePrefix` + `ada`; nothing is
readable afterwards under `dequeuePrefix` + `ada`. -/
theorem trash_key_is_not_member_id :
    (MoveMemberToTrash memberStore.conn refLib time3 (str "ada") (str "admin1")
      (str "left")).err = none ∧
    (insertions (MoveMemberToTrash memberStore.conn refLib time3 (str "ada") (str "admin1")
      (str "left")).calls).map (fun x => x.1) = [dequeuePrefix ++ uuid3] ∧
    dequeuePrefix ++ uuid3 ≠ dequeuePrefix ++ str "ada" ∧
    (memberStore.applyCalls (MoveMemberToTrash memberStore.conn refLib time3 (str "ada")
      (str "admin1") (str "left")).calls).Get (dequeuePrefix ++ str "ada")
        ⟨str "membership_dequeue", str "pb_data"⟩ = .error StoreError.NotFound := by
  refine ⟨by decide, by decide, by decide, by rfl⟩

/-- C2 (amended): a successful transition made by `moveRecordToTable` reads and
deletes the record under source prefix + `u` and writes it under destination
prefix + `u`, the same key suffix `u` (the UUID the id parses to); a successful
`MoveMemberToTrash` reads and deletes under `memberPrefix` + id and writes the
dequeued record under `dequeuePrefix` + the UUID it generated. -/
theorem move_key_suffix (m : Move) (conn : Conn) (lib : Lib) (now : Time)
    (id initiator : Bytes)
    (hok : (m.run conn lib now id initiator).err = none) :
    ∃ srcKey dstKey r col del,
      conn.Get srcKey ⟨m.srcTable, str "pb_data"⟩ m.readLevel = .ok r ∧
      insertions (m.run conn lib now id initiator).calls = [(dstKey, m.dstTable, col)] ∧
      deletions (m.run conn lib now id initiator).calls = [(srcKey, m.srcTable, del)] ∧
      (∀ t, m = Move.table t → ∃ u, lib.ParseUUID id = some u ∧ srcKey = t.srcPrefix ++ u
          ∧ dstKey = t.dstPrefix ++ u) ∧
      (∀ reason, m = Move.memberToTrash reason → ∃ uuid, lib.GenTimeUUID now = some uuid
          ∧ srcKey = memberPrefix ++ id ∧ dstKey = dequeuePrefix ++ uuid) := by
  obtain ⟨srcKey, dstKey, r, member, md, value, hget, -, -, -, hk1, hk2, -, -, hins, hdel⟩ :=
    Move.run_ok hok
  refine ⟨srcKey, dstKey, r, _, _, hget, hins, hdel, ?_, hk2⟩
  intro t ht
  obtain ⟨u, hu, h1, h2, -⟩ := hk1 t ht
  exact ⟨u, hu, h1, h2⟩

theorem move_key_suffix_witness :
    ((Move.memberToTrash (str "left")).run memberStore.conn refLib time3 (str "ada")
      (str "admin1")).err = none ∧
    ∃ srcKey dstKey r col del,
      memberStore.conn.Get srcKey ⟨str "members", str "pb_data"⟩ ConsistencyLevel.QUORUM
        = .ok r ∧
      insertions ((Move.memberToTrash (str "left")).run memberStore.conn refLib time3
        (str "ada") (str "admin1")).calls = [(dstKey, str "membership_dequeue", col)] ∧
      deletions ((Move.memberToTrash (str "left")).run memberStore.conn refLib time3
        (str "ada") (str "admin1")).calls = [(srcKey, str "members", del)] ∧
      ∃ uuid, refLib.GenTimeUUID time3 = some uuid
          ∧ srcKey = memberPrefix ++ str "ada" ∧ dstKey = dequeuePrefix ++ uuid := by
  have hok : ((Move.memberToTrash (str "left")).run memberStore.conn refLib time3 (str "ada")
      (str "admin1")).err = none := by decide
  obtain ⟨srcKey, dstKey, r, col, del, h1, h2, h3, -, h5⟩ :=
    move_key_suffix (Move.memberToTrash (str "left")) memberStore.conn refLib time3
      (str "ada") (str "admin1") hok
  exact ⟨hok, srcKey, dstKey, r, col, del, h1, h2, h3, h5 _ rfl⟩

/-- C3: for a record whose decoded `AgreementPdf` is empty,
`MoveApplicantToNewMember` returns the error "No membership agreement scan has
been uploaded" and issues no mutation, so that every store is unchanged; the
check is not applied when the destination is the archive:
`MoveApplicantToTrash` and `MoveQueuedRecordToTrash` succeed on such a record
(one that has metadata and can be encoded, the store accepting the batch). -/
theorem empty_agreement_blocks_only_the_queue (t : Transition) (conn : Conn) (lib : Lib)
    (now : Time) (id initiator u : Bytes) (r : Column) (timestamp : Int)
    (member : MembershipAgreement)
    (hu : lib.ParseUUID id = some u)
    (hget : conn.Get (t.srcPrefix ++ u) ⟨t.srcTable, str "pb_data"⟩ ConsistencyLevel.ONE
      = .ok r)
    (hts : r.Timestamp = some timestamp)
    (hum : lib.Unmarshal r.Value = (member, none))
    (hpdf : member.AgreementPdf = []) :
    (t = Transition.ApplicantToNewMember →
      (MoveApplicantToNewMember conn lib now id initiator).err = some Error.NoAgreement ∧
      mutationMaps (MoveApplicantToNewMember conn lib now id initiator).calls = [] ∧
      ∀ s : Store, s.applyCalls (MoveApplicantToNewMember conn lib now id initiator).calls = s) ∧
    (t ≠ Transition.ApplicantToNewMember →
      ∀ md value, member.Metadata = some md →
        lib.Marshal { member with Metadata := some { md with
          ApproverUid := some initiator,
          ApprovalTimestamp := some (uint64 now.Unix) } } = some value →
        (∀ mmap, conn.AtomicBatchMutate mmap ConsistencyLevel.QUORUM = none) →
        (t.run conn lib now id initiator).err = none) := by
  constructor
  · intro ht
    subst ht
    simp only [Transition.srcPrefix, Transition.srcTable] at hget
    simp [MoveApplicantToNewMember, moveRecordToTable, GetMembershipRequest, hu, hget, hts, hum,
      hpdf, mutationMaps, Store.applyCalls, Store.applyCall]
  · intro ht md value hmd hmar hbatch
    cases t with
    | ApplicantToNewMember => exact absurd rfl ht
    | ApplicantToTrash =>
      simp only [Transition.srcPrefix, Transition.srcTable] at hget
      simp [Transition.run, MoveApplicantToTrash, moveRecordToTable, GetMembershipRequest, hu,
        hget, hts, hum, hmd, hmar, hbatch, archive_ne_queue]
    | QueuedRecordToTrash =>
      simp only [Transition.srcPrefix, Transition.srcTable] at hget
      simp [Transition.run, MoveQueuedRecordToTrash, moveRecordToTable, GetMembershipRequest, hu,
        hget, hts, hum, hmd, hmar, hbatch, archive_ne_queue]

theorem empty_agreement_blocks_only_the_queue_witness :
    (MoveApplicantToNewMember sampleStoreNoPdf.conn refLib time3 sampleId (str "admin1")).err
      = some Error.NoAgreement ∧
    (Transition.ApplicantToTrash.run sampleStoreNoPdf.conn refLib time3 sampleId
      (str "admin1")).err = none :=
  ⟨((empty_agreement_blocks_only_the_queue Transition.ApplicantToNewMember
      sampleStoreNoPdf.conn refLib time3 sampleId (str "admin1") sampleUUID
      ⟨str "pb_data", sampleBlobNoPdf, some 1000000000, none⟩ 1000000000 sampleRecordNoPdf
      (by decide) (by rfl) rfl (by decide) rfl).1 rfl).1,
   (empty_agreement_blocks_only_the_queue Transition.ApplicantToTrash
      sampleStoreNoPdf.conn refLib time3 sampleId (str "admin1") sampleUUID
      ⟨str "pb_data", sampleBlobNoPdf, some 1000000000, none⟩ 1000000000 sampleRecordNoPdf
      (by decide) (by rfl) rfl (by decide) rfl).2 (by decide) { RequestTimestamp := some 1 }
      (encodeFields (approved sampleRecordNoPdf { RequestTimestamp := some 1 } (str "admin1")
        time3).toFields) rfl rfl (fun _ => rfl)⟩

/-- C4: in every successful transition the blob written at the destination
decodes (the codec inverting its encoding) to the record decoded from the
column read at the source, changed only in the metadata of the transition:
`moveRecordToTable` sets `ApproverUid` to the initiator and
`ApprovalTimestamp` to the current time in seconds, `MoveMemberToTrash` sets
`GoodbyeInitiator`, `GoodbyeTimestamp` (the current time in seconds) and
`GoodbyeReason`; member data, agreement and all other metadata are those of
the source record. -/
theorem move_changes_only_its_metadata (m : Move) (conn : Conn) (lib : Lib) (now : Time)
    (id initiator : Bytes)
    (hrt : lib.RoundTrip)
    (hok : (m.run conn lib now id initiator).err = none) :
    ∃ srcKey dstKey r member md col,
      conn.Get srcKey ⟨m.srcTable, str "pb_data"⟩ m.readLevel = .ok r ∧
      lib.Unmarshal r.Value = (member, none) ∧
      member.Metadata = some md ∧
      insertions (m.run conn lib now id initiator).calls = [(dstKey, m.dstTable, col)] ∧
      (∀ t, m = Move.table t →
        lib.Unmarshal col.Value =
          ({ member with Metadata := some { md with
              ApproverUid := some initiator,
              ApprovalTimestamp := some (uint64 now.Unix) } }, none)) ∧
      (∀ reason, m = Move.memberToTrash reason →
        lib.Unmarshal col.Value =
          ({ member with Metadata := some { md with
              GoodbyeInitiator := some initiator,
              GoodbyeTimestamp := some (uint64 now.Unix),
              GoodbyeReason := some reason } }, none)) := by
  obtain ⟨srcKey, dstKey, r, member, md, value, hget, hum, hmd, hmar, -, -, -, -, hins, -⟩ :=
    Move.run_ok hok
  refine ⟨srcKey, dstKey, r, member, md, _, hget, hum, hmd, hins, ?_, ?_⟩
  · intro t ht
    subst ht
    exact hrt _ _ hmar
  · intro reason hr
    subst hr
    exact hrt _ _ hmar

theorem move_changes_only_its_metadata_witness :
    refLib.RoundTrip ∧
    ∃ srcKey dstKey r member md col,
      sampleStore.conn.Get srcKey ⟨str "application", str "pb_data"⟩ ConsistencyLevel.ONE
        = .ok r ∧
      refLib.Unmarshal r.Value = (member, none) ∧
      member.Metadata = some md ∧
      insertions ((Move.table Transition.ApplicantToNewMember).run sampleStore.conn refLib
        time3 sampleId (str "admin1")).calls = [(dstKey, str "membership_queue", col)] ∧
      refLib.Unmarshal col.Value =
        ({ member with Metadata := some { md with
            ApproverUid := some (str "admin1"),
            ApprovalTimestamp := some 3 } }, none) := by
  obtain ⟨srcKey, dstKey, r, member, md, col, h1, h2, h3, h4, h5, -⟩ :=
    move_changes_only_its_metadata (Move.table Transition.ApplicantToNewMember)
      sampleStore.conn refLib time3 sampleId (str "admin1") refLib_exact.roundTrip (by decide)
  exact ⟨refLib_exact.roundTrip, srcKey, dstKey, r, member, md, col, h1, h2, h3, h4, h5 _ rfl⟩

/-- C5: starting from the empty store, `StoreMembershipRequest` (returning
the key `k`, the hexadecimal form of the generated UUID), then
`StoreMembershipAgreement` of `k` with non-empty data, then
`MoveApplicantToNewMember` of `k` succeed one after the other; after the
second step the application read back has the agreement attached (the
precondition of the move holds); after the third,
`GetMembershipRequest(k, "membership_queue", queuePrefix)` returns a record
whose `Metadata.ApproverUid` is the initiator and
`GetMembershipRequest(k, "application", applicationPrefix)` finds nothing.
The codec is exact, the request has member data and metadata, the key parses
back to the UUID, and the clock has advanced between the first two steps. -/
theorem create_attach_approve (lib : Lib) (now1 now2 now3 : Time) (req : FormInputData)
    (md : Member) (meta0 : MembershipMetadata) (uuid data initiator : Bytes)
    (hx : lib.Exact)
    (hmd : req.MemberData = some md) (hmeta : req.Metadata = some meta0)
    (hgen : lib.GenTimeUUID now1 = some uuid)
    (hparse : lib.ParseUUID (hexEncodeToString uuid) = some uuid)
    (hdata : data ≠ [])
    (hclock : now1.UnixNano < now2.UnixNano) :
    ∃ (k : Bytes) (s1 s2 s3 : Store),
      (StoreMembershipRequest (Store.conn []) lib now1 req).err = none ∧
      (StoreMembershipRequest (Store.conn []) lib now1 req).value = k ∧
      k = hexEncodeToString uuid ∧
      s1 = Store.applyCalls [] (StoreMembershipRequest (Store.conn []) lib now1 req).calls ∧
      (StoreMembershipAgreement s1.conn lib now2 k data).err = none ∧
      s2 = s1.applyCalls (StoreMembershipAgreement s1.conn lib now2 k data).calls ∧
      (∃ m ts, (GetMembershipRequest s2.conn lib k (str "application") applicationPrefix).err
          = none ∧
        (GetMembershipRequest s2.conn lib k (str "application") applicationPrefix).value
          = (some m, ts) ∧ m.AgreementPdf = data) ∧
      (MoveApplicantToNewMember s2.conn lib now3 k initiator).err = none ∧
      s3 = s2.applyCalls (MoveApplicantToNewMember s2.conn lib now3 k initiator).calls ∧
      (∃ m ts mq, (GetMembershipRequest s3.conn lib k (str "membership_queue") queuePrefix).err
          = none ∧
        (GetMembershipRequest s3.conn lib k (str "membership_queue") queuePrefix).value
          = (some m, ts) ∧ m.Metadata = some mq ∧ mq.ApproverUid = some initiator) ∧
      (GetMembershipRequest s3.conn lib k (str "application") applicationPrefix).err
        = some (Error.Store StoreError.NotFound) := by
  -- the first step
  obtain ⟨b1, hb1, hu1⟩ := hx ⟨some md, some (if meta0.RequestTimestamp = none then
    { meta0 with RequestTimestamp := some (uint64 now1.Unix) } else meta0), []⟩
  obtain ⟨cols, hcols, h1⟩ := StoreMembershipRequest_ok (Store.conn []) hgen hmd hmeta hb1
    (fun _ => rfl)
  obtain ⟨s0, hs0⟩ : ∃ s0 : Store, s0 = cols.foldl (fun (s1 : Store) mu =>
      s1.applyMutation (applicationPrefix ++ uuid) (str "application") mu) ([] : Store) :=
    ⟨_, rfl⟩
  have hW0 : s0.Within (applicationPrefix ++ uuid) (str "application") now1.UnixNano := by
    rw [hs0]
    exact Store.Within.applyInserts cols hcols [] (fun c hc => absurd hc (List.not_mem_nil c))
  obtain ⟨s1, hs1⟩ : ∃ s1 : Store, s1 = s0.insert (applicationPrefix ++ uuid)
      (str "application") ⟨str "pb_data", b1, some now1.UnixNano, none⟩ := ⟨_, rfl⟩
  have hc1 : s1 = Store.applyCalls [] (StoreMembershipRequest (Store.conn []) lib now1 req).calls := by
    rw [h1, hs1, hs0]
    simp [Store.applyCalls, Store.applyCall, Store.applyMap, Store.applyPartition,
      Store.applyFamily, List.foldl_append, Store.applyMutation, newCassandraMutationBytes_eq]
  have hW1 : s1.Within (applicationPrefix ++ uuid) (str "application") now1.UnixNano := by
    rw [hs1]
    exact hW0.insert ⟨str "pb_data", b1, some now1.UnixNano, none⟩ (le_refl _)
  have hG1 : s1.Get (applicationPrefix ++ uuid) ⟨str "application", str "pb_data"⟩
      = .ok ⟨str "pb_data", b1, some now1.UnixNano, none⟩ := by
    rw [hs1]
    exact Store.Get_insert_self _ (applicationPrefix ++ uuid) (str "application")
      ⟨str "pb_data", b1, some now1.UnixNano, none⟩ (fun c hc _ => (hW0 c hc).2.2)
  -- the second step
  obtain ⟨b2, hb2, hu2⟩ := hx ⟨some md, some (if meta0.RequestTimestamp = none then
    { meta0 with RequestTimestamp := some (uint64 now1.Unix) } else meta0), data⟩
  have h2 := StoreMembershipAgreement_run now2 hparse hG1 rfl hu1 hb2
  obtain ⟨s2, hs2⟩ : ∃ s2 : Store, s2 = (s1.insert (applicationPrefix ++ uuid)
      (str "application") ⟨str "pb_data", b2, some now2.UnixNano, none⟩).insert
      (applicationPrefix ++ uuid) (str "application")
      ⟨str "application_pdf", data, some now2.UnixNano, none⟩ := ⟨_, rfl⟩
  have hc2 : s2 = s1.applyCalls (StoreMembershipAgreement s1.conn lib now2
      (hexEncodeToString uuid) data).calls := by
    rw [h2, hs2]
    rfl
  have hW2 : s2.Within (applicationPrefix ++ uuid) (str "application") now2.UnixNano := by
    rw [hs2]
    exact ((hW1.mono (le_of_lt hclock)).insert
      ⟨str "pb_data", b2, some now2.UnixNano, none⟩ (le_refl _)).insert
      ⟨str "application_pdf", data, some now2.UnixNano, none⟩ (le_refl _)
  have hG2 : s2.Get (applicationPrefix ++ uuid) ⟨str "application", str "pb_data"⟩
      = .ok ⟨str "pb_data", b2, some now2.UnixNano, none⟩ := by
    rw [hs2]
    exact (Store.Get_insert_other _ (applicationPrefix ++ uuid) (str "application")
      ⟨str "application_pdf", data, some now2.UnixNano, none⟩ (applicationPrefix ++ uuid)
      ⟨str "application", str "pb_data"⟩ (fun h => pdf_ne_pb h.2.2)).trans
      (Store.Get_insert_self s1 (applicationPrefix ++ uuid) (str "application")
        ⟨str "pb_data", b2, some now2.UnixNano, none⟩
        (fun c hc _ => le_of_lt (lt_of_le_of_lt (hW1 c hc).2.2 hclock)))
  -- the third step
  have hpre := GetMembershipRequest_run hparse hG2 rfl hu2
  have hlen : ¬ (str "membership_queue" = str "membership_queue"
      ∧ (MembershipAgreement.mk (some md) (some (if meta0.RequestTimestamp = none then
        { meta0 with RequestTimestamp := some (uint64 now1.Unix) } else meta0))
        data).AgreementPdf.length = 0) := by
    simp [hdata]
  have hne : queuePrefix ++ uuid ≠ applicationPrefix ++ uuid :=
    Transition.ApplicantToNewMember.keys_ne uuid
  obtain ⟨b3, hb3, hu3⟩ := hx (approved ⟨some md, some (if meta0.RequestTimestamp = none then
    { meta0 with RequestTimestamp := some (uint64 now1.Unix) } else meta0), data⟩
    (if meta0.RequestTimestamp = none then
      { meta0 with RequestTimestamp := some (uint64 now1.Unix) } else meta0) initiator now3)
  have h3 : MoveApplicantToNewMember s2.conn lib now3 (hexEncodeToString uuid) initiator = _ :=
    moveRecordToTable_run now3 initiator 0
      hparse hne hG2 rfl hu2 hlen rfl hb3
  obtain ⟨s3, hs3⟩ : ∃ s3 : Store, s3 = (s2.insert (queuePrefix ++ uuid)
      (str "membership_queue")
      ⟨str "pb_data", b3, some now3.UnixNano, if (0 : Int) > 0 then some 0 else none⟩).delete
      (applicationPrefix ++ uuid) (str "application") ⟨some now2.UnixNano, some allColumns⟩ :=
    ⟨_, rfl⟩
  have hc3 : s3 = s2.applyCalls (MoveApplicantToNewMember s2.conn lib now3
      (hexEncodeToString uuid) initiator).calls := by
    rw [h3, hs3]
    rfl
  have heff := Store.move_effect s2 (queuePrefix ++ uuid) (str "membership_queue")
    (applicationPrefix ++ uuid) (str "application")
    ⟨str "pb_data", b3, some now3.UnixNano, if (0 : Int) > 0 then some 0 else none⟩
    now2.UnixNano hne rfl (fun c hc _ _ => (hW2 c hc).2.2)
  have hG3 : s3.Get (queuePrefix ++ uuid) ⟨str "membership_queue", str "pb_data"⟩
      = .ok ⟨str "pb_data", b3, some now3.UnixNano, if (0 : Int) > 0 then some 0 else none⟩ := by
    rw [hs3]
    exact (Store.Get_delete_other _ (applicationPrefix ++ uuid) (str "application")
      ⟨some now2.UnixNano, some allColumns⟩ (queuePrefix ++ uuid)
      ⟨str "membership_queue", str "pb_data"⟩ (Ne.symm hne)).trans
      (Store.Get_insert_self s2 (queuePrefix ++ uuid) (str "membership_queue")
        ⟨str "pb_data", b3, some now3.UnixNano, if (0 : Int) > 0 then some 0 else none⟩
        (fun c hc hat => by
          simp only [Cell.isAt, Bool.and_eq_true, decide_eq_true_eq] at hat
          exact absurd ((hat.1.1.symm.trans (hW2 c hc).1)) hne))
  rw [← hs3] at heff
  have hq := GetMembershipRequest_run hparse hG3 rfl hu3
  refine ⟨hexEncodeToString uuid, s1, s2, s3, ?_, ?_, rfl, hc1, ?_, hc2, ?_, ?_, hc3, ?_, ?_⟩
  · rw [h1]
  · rw [h1]
  · rw [h2]
  · exact ⟨_, _, by rw [hpre], by rw [hpre], rfl⟩
  · rw [h3]
  · exact ⟨_, _, _, by rw [hq], by rw [hq], rfl, rfl⟩
  · simp [GetMembershipRequest, hparse, Store.conn, heff.1]

theorem create_attach_approve_witness :
    refLib.Exact ∧ refLib.GenTimeUUID time1 = some uuid1 ∧
    refLib.ParseUUID (hexEncodeToString uuid1) = some uuid1 ∧
    time1.UnixNano < time2.UnixNano ∧
    ∃ (k : Bytes) (s1 s2 s3 : Store),
      (StoreMembershipRequest (Store.conn []) refLib time1 adaRequest).err = none ∧
      (StoreMembershipRequest (Store.conn []) refLib time1 adaRequest).value = k ∧
      k = hexEncodeToString uuid1 ∧
      s1 = Store.applyCalls []
        (StoreMembershipRequest (Store.conn []) refLib time1 adaRequest).calls ∧
      (StoreMembershipAgreement s1.conn refLib time2 k [37, 80, 68, 70]).err = none ∧
      s2 = s1.applyCalls (StoreMembershipAgreement s1.conn refLib time2 k [37, 80, 68, 70]).calls ∧
      (∃ m ts,
        (GetMembershipRequest s2.conn refLib k (str "application") applicationPrefix).err
          = none ∧
        (GetMembershipRequest s2.conn refLib k (str "application") applicationPrefix).value
          = (some m, ts) ∧ m.AgreementPdf = [37, 80, 68, 70]) ∧
      (MoveApplicantToNewMember s2.conn refLib time3 k (str "admin1")).err = none ∧
      s3 = s2.applyCalls (MoveApplicantToNewMember s2.conn refLib time3 k (str "admin1")).calls ∧
      (∃ m ts mq,
        (GetMembershipRequest s3.conn refLib k (str "membership_queue") queuePrefix).err
          = none ∧
        (GetMembershipRequest s3.conn refLib k (str "membership_queue") queuePrefix).value
          = (some m, ts) ∧ m.Metadata = some mq ∧ mq.ApproverUid = some (str "admin1")) ∧
      (GetMembershipRequest s3.conn refLib k (str "application") applicationPrefix).err
        = some (Error.Store StoreError.NotFound) :=
  ⟨refLib_exact, by decide, by decide, by decide,
   create_attach_approve refLib time1 time2 time3 adaRequest
    { Name := some (str "Ada"), Fee := some 20, FeeYearly := some false } {} uuid1
    [37, 80, 68, 70] (str "admin1") refLib_exact rfl rfl (by decide) (by decide) (by decide)
    (by decide)⟩

/-- C6: the canonical blob written by a successful transition carries a
time-to-live exactly when the destination is the archive: the one insertion
is the column `pb_data`, with TTL 15552000 seconds (6*30*24*60*60) for
`MoveApplicantToTrash` and `MoveQueuedRecordToTrash`, and with no TTL for
`MoveApplicantToNewMember` and `MoveMemberToTrash`. -/
theorem ttl_exactly_for_the_archive (m : Move) (conn : Conn) (lib : Lib) (now : Time)
    (id initiator : Bytes)
    (hok : (m.run conn lib now id initiator).err = none) :
    ∃ dstKey col,
      insertions (m.run conn lib now id initiator).calls = [(dstKey, m.dstTable, col)] ∧
      col.Name = str "pb_data" ∧
      col.TTL = (if m.dstTable = str "membership_archive" then some 15552000 else none) ∧
      (6 * 30 * 24 * 60 * 60 : Int) = 15552000 ∧
      (m.dstTable = str "membership_archive" ↔
        (m = Move.table Transition.ApplicantToTrash
          ∨ m = Move.table Transition.QueuedRecordToTrash)) := by
  obtain ⟨srcKey, dstKey, r, member, md, value, -, -, -, -, -, -, -, -, hins, -⟩ :=
    Move.run_ok hok
  exact ⟨dstKey, _, hins, rfl, m.columnTTL_eq, by norm_num, m.dstTable_archive_iff⟩

theorem ttl_exactly_for_the_archive_witness :
    ((Move.table Transition.ApplicantToTrash).run sampleStore.conn refLib time3 sampleId
      (str "admin1")).err = none ∧
    ∃ dstKey col,
      insertions ((Move.table Transition.ApplicantToTrash).run sampleStore.conn refLib time3
        sampleId (str "admin1")).calls = [(dstKey, str "membership_archive", col)] ∧
      col.Name = str "pb_data" ∧
      col.TTL = some 15552000 := by
  have hok : ((Move.table Transition.ApplicantToTrash).run sampleStore.conn refLib time3
      sampleId (str "admin1")).err = none := by decide
  obtain ⟨dstKey, col, h1, h2, h3, -, -⟩ :=
    ttl_exactly_for_the_archive (Move.table Transition.ApplicantToTrash) sampleStore.conn
      refLib time3 sampleId (str "admin1") hok
  exact ⟨hok, dstKey, col, h1, h2, h3⟩

/-- C7 (the code at the failing input): `MoveMemberToTrash` for the member
`ada` succeeds and the column it writes into the dequeue stage carries no TTL
at all, neither the two years (63072000 seconds) of its comment nor any
other. -/
theorem member_trash_sets_no_retention :
    (MoveMemberToTrash memberStore.conn refLib time3 (str "ada") (str "admin1")
      (str "left")).err = none ∧
    (insertions (MoveMemberToTrash memberStore.conn refLib time3 (str "ada") (str "admin1")
      (str "left")).calls).map (fun x => (x.2.1, x.2.2.Name, x.2.2.TTL))
      = [(str "membership_dequeue", str "pb_data", none)] ∧
    (none : Option Int) ≠ some (2 * 365 * 24 * 60 * 60) := by
  refine ⟨by decide, by decide, by decide⟩

/-- C8: in every successful transition the one deletion is issued at the
source partition, names `allColumns` and carries as its time stamp the write
time stamp of the `pb_data` column read in the first step; the one insertion
at the destination carries the current time in nanoseconds. -/
theorem deletion_carries_the_read_timestamp (m : Move) (conn : Conn) (lib : Lib) (now : Time)
    (id initiator : Bytes)
    (hok : (m.run conn lib now id initiator).err = none) :
    ∃ srcKey dstKey r col,
      conn.Get srcKey ⟨m.srcTable, str "pb_data"⟩ m.readLevel = .ok r ∧
      deletions (m.run conn lib now id initiator).calls =
        [(srcKey, m.srcTable, ⟨r.Timestamp, some allColumns⟩)] ∧
      insertions (m.run conn lib now id initiator).calls = [(dstKey, m.dstTable, col)] ∧
      col.Timestamp = some now.UnixNano := by
  obtain ⟨srcKey, dstKey, r, member, md, value, hget, -, -, -, -, -, -, -, hins, hdel⟩ :=
    Move.run_ok hok
  exact ⟨srcKey, dstKey, r, _, hget, hdel, hins, rfl⟩

theorem deletion_carries_the_read_timestamp_witness :
    ((Move.table Transition.ApplicantToNewMember).run sampleStore.conn refLib time3 sampleId
      (str "admin1")).err = none ∧
    (deletions ((Move.table Transition.ApplicantToNewMember).run sampleStore.conn refLib time3
      sampleId (str "admin1")).calls).map (fun x => x.2.2.Timestamp) = [some 2000000000] ∧
    ∃ srcKey dstKey r col,
      sampleStore.conn.Get srcKey ⟨str "application", str "pb_data"⟩ ConsistencyLevel.ONE
        = .ok r ∧
      deletions ((Move.table Transition.ApplicantToNewMember).run sampleStore.conn refLib time3
        sampleId (str "admin1")).calls =
        [(srcKey, str "application", ⟨r.Timestamp, some allColumns⟩)] ∧
      insertions ((Move.table Transition.ApplicantToNewMember).run sampleStore.conn refLib time3
        sampleId (str "admin1")).calls = [(dstKey, str "membership_queue", col)] ∧
      col.Timestamp = some 3000000000 :=
  ⟨by decide, by decide,
   deletion_carries_the_read_timestamp (Move.table Transition.ApplicantToNewMember)
    sampleStore.conn refLib time3 sampleId (str "admin1") (by decide)⟩

/-- C9: every successful update (`SetMemberFee`, `SetLongValue`,
`SetBoolValue`, `SetTextValue`) issues one `AtomicBatchMutate`, at QUORUM,
that writes under `memberPrefix` + id the rewritten blob to `members` and
`member_agreements` and, in the same call, to `members` a projected column
for every changed field; the value decoded from that column is the value of
the field in the record the rewritten blob decodes to. -/
theorem update_writes_projected_columns (u : Update) (conn : Conn) (lib : Lib) (now : Time)
    (id : Bytes)
    (hrt : lib.RoundTrip)
    (hrange : u.InRange)
    (hok : (u.run conn lib now id).err = none) :
    ∃ (pb : Column) (data : List Mutation) (changed : MembershipAgreement) (md : Member),
      (u.run conn lib now id).calls =
        [Call.Get (memberPrefix ++ id) ⟨str "members", str "pb_data"⟩ ConsistencyLevel.ONE,
         Call.AtomicBatchMutate
           [(memberPrefix ++ id,
              [(str "members", ⟨some pb, none⟩ :: data),
               (str "member_agreements", [⟨some pb, none⟩])])]
           ConsistencyLevel.QUORUM] ∧
      lib.Unmarshal pb.Value = (changed, none) ∧
      changed.MemberData = some md ∧
      ∀ name ∈ u.changed, ∃ col : Column,
        (⟨some col, none⟩ : Mutation) ∈ data ∧ col.Name = name ∧
        (md.field name).isSome ∧
        decodeColumn name col.Value = md.field name := by
  cases u with
  | fee amount yearly =>
    simp only [Update.run, SetMemberFee_eq] at hok ⊢
    obtain ⟨r, member, changed, pb, -, -, hch, hmar, hcalls⟩ := updateWith_ok hok
    obtain ⟨md, hmd, hfee, hyearly⟩ := setFee_ok hch
    refine ⟨_, _, changed, md, hcalls, hrt _ _ hmar, hmd, ?_⟩
    intro name hname
    simp only [Update.changed, List.mem_cons, List.mem_singleton, List.not_mem_nil,
      or_false] at hname
    rcases hname with rfl | rfl
    · refine ⟨⟨str "fee", PutUint64 amount, some now.UnixNano, none⟩, ?_, rfl, ?_, ?_⟩
      · simp [newCassandraMutationBytes_eq]
      · simp [hfee]
      · rw [hfee]
        simp +decide [decodeColumn, Uint64_PutUint64 amount hrange]
    · refine ⟨⟨str "fee_yearly", if yearly then [1] else [0], some now.UnixNano, none⟩,
        ?_, rfl, ?_, ?_⟩
      · simp [newCassandraMutationBytes_eq]
      · simp [hyearly]
      · rw [hyearly]
        simp +decide [decodeColumn, byteBool_ite]
  | setter k name =>
    cases k with
    | text value =>
      simp only [Update.run, Setter.run, SetTextValue_eq] at hok ⊢
      obtain ⟨r, member, changed, pb, -, -, hch, hmar, hcalls⟩ := updateWith_ok hok
      obtain ⟨hdec, md, hmd, hfield⟩ := setTextField_ok hch
      refine ⟨_, _, changed, md, hcalls, hrt _ _ hmar, hmd, ?_⟩
      intro name1 hname
      simp only [Update.changed, List.mem_singleton] at hname
      subst hname
      refine ⟨⟨name1, value, some now.UnixNano, none⟩, ?_, rfl, ?_, ?_⟩
      · simp [newCassandraMutationString, newCassandraMutationBytes_eq]
      · simp [hfield]
      · rw [hfield]
        exact hdec
    | long value =>
      simp only [Update.run, Setter.run, SetLongValue_eq] at hok ⊢
      obtain ⟨r, member, changed, pb, -, -, hch, hmar, hcalls⟩ := updateWith_ok hok
      obtain ⟨hname0, md, hmd, hfield⟩ := setLongField_ok hch
      refine ⟨_, _, changed, md, hcalls, hrt _ _ hmar, hmd, ?_⟩
      intro name1 hname
      simp only [Update.changed, List.mem_singleton] at hname
      subst hname
      refine ⟨⟨name1, PutUint64 value, some now.UnixNano, none⟩, ?_, rfl, ?_, ?_⟩
      · simp [newCassandraMutationBytes_eq]
      · simp [hfield]
      · rw [hfield, hname0]
        simp +decide [decodeColumn, Uint64_PutUint64 value hrange]
    | bool value =>
      simp only [Update.run, Setter.run, SetBoolValue_eq] at hok ⊢
      obtain ⟨r, member, changed, pb, -, -, hch, hmar, hcalls⟩ := updateWith_ok hok
      obtain ⟨hname0, md, hmd, hfield⟩ := setBoolField_ok hch
      refine ⟨_, _, changed, md, hcalls, hrt _ _ hmar, hmd, ?_⟩
      intro name1 hname
      simp only [Update.changed, List.mem_singleton] at hname
      subst hname
      refine ⟨⟨name1, if value then [1] else [0], some now.UnixNano, none⟩, ?_, rfl, ?_, ?_⟩
      · simp [newCassandraMutationBytes_eq]
      · simp [hfield]
      · rw [hfield, hname0]
        simp +decide [decodeColumn, byteBool_ite]

theorem update_writes_projected_columns_witness :
    refLib.RoundTrip ∧ (Update.fee 30 true).InRange ∧
    ((Update.fee 30 true).run memberStore.conn refLib time3 (str "ada")).err = none ∧
    ∃ (pb : Column) (data : List Mutation) (changed : MembershipAgreement) (md : Member),
      ((Update.fee 30 true).run memberStore.conn refLib time3 (str "ada")).calls =
        [Call.Get (memberPrefix ++ str "ada") ⟨str "members", str "pb_data"⟩
           ConsistencyLevel.ONE,
         Call.AtomicBatchMutate
           [(memberPrefix ++ str "ada",
              [(str "members", ⟨some pb, none⟩ :: data),
               (str "member_agreements", [⟨some pb, none⟩])])]
           ConsistencyLevel.QUORUM] ∧
      refLib.Unmarshal pb.Value = (changed, none) ∧
      changed.MemberData = some md ∧
      ∀ name ∈ [str "fee", str "fee_yearly"], ∃ col : Column,
        (⟨some col, none⟩ : Mutation) ∈ data ∧ col.Name = name ∧
        (md.field name).isSome ∧
        decodeColumn name col.Value = md.field name :=
  ⟨refLib_exact.roundTrip, by simp [Update.InRange], by decide,
   update_writes_projected_columns (Update.fee 30 true) memberStore.conn refLib time3 (str "ada")
    refLib_exact.roundTrip (by simp [Update.InRange]) (by decide)⟩

/-- C10: for every field name outside the allow-list of the setter
(`SetTextValue`: name, street, city, zipcode, country, phone, username;
`SetLongValue`: payments_caught_up_to; `SetBoolValue`: has_key) the setter
returns an error and issues no mutation; the error is the unknown-field error
once the record was read and decoded; and exactly these names are refused: on
a record read and decoded, a name of the allow-list never gives the
unknown-field error. -/
theorem unknown_field_is_refused (k : Setter) (conn : Conn) (lib : Lib) (now : Time)
    (id field : Bytes)
    (h : field ∉ k.allowList) :
    (k.run conn lib now id field).err ≠ none ∧
    mutationMaps (k.run conn lib now id field).calls = [] ∧
    (∀ r member,
      conn.Get (memberPrefix ++ id) ⟨str "members", str "pb_data"⟩ ConsistencyLevel.ONE
        = .ok r →
      lib.Unmarshal r.Value = (member, none) →
      (k.run conn lib now id field).err = some (Error.UnknownField field) ∧
      ∀ f ∈ k.allowList, (k.run conn lib now id f).err ≠ some (Error.UnknownField f)) := by
  obtain ⟨change, data, heq, hout, -⟩ := k.run_eq_updateWith conn lib now id field
  have href := updateWith_refused conn lib now id change data
    (fun member => ⟨_, hout h member⟩)
  rw [heq]
  refine ⟨href.1, href.2, ?_⟩
  intro r member hget hum
  constructor
  · cases herr : (updateWith conn lib now id change data).err with
    | none => exact absurd herr href.1
    | some e =>
      unfold updateWith at herr
      simp only [hget, hum, hout h member, Option.some.injEq] at herr
      rw [herr]
  · intro f hf herr
    obtain ⟨change1, data1, heq1, -, hin⟩ := k.run_eq_updateWith conn lib now id f
    rw [heq1] at herr
    rcases updateWith_err hget hum herr with h1 | h1 | ⟨se, h1⟩
    · exact hin hf member h1
    · cases h1
    · cases h1

theorem unknown_field_is_refused_witness :
    str "email" ∉ (Setter.text (str "x")).allowList ∧
    ((Setter.text (str "x")).run memberStore.conn refLib time3 (str "ada") (str "email")).err
      = some (Error.UnknownField (str "email")) ∧
    mutationMaps ((Setter.text (str "x")).run memberStore.conn refLib time3 (str "ada")
      (str "email")).calls = [] ∧
    ((Setter.text (str "x")).run memberStore.conn refLib time3 (str "ada") (str "city")).err
      ≠ some (Error.UnknownField (str "city")) := by
  have hf : str "email" ∉ (Setter.text (str "x")).allowList := by decide
  obtain ⟨-, h2, h3⟩ := unknown_field_is_refused (Setter.text (str "x")) memberStore.conn refLib
    time3 (str "ada") (str "email") hf
  have h4 := h3 ⟨str "pb_data", sampleBlob, some 1000000000, none⟩ sampleRecord (by rfl)
    (by decide)
  exact ⟨hf, h4.1, h2, h4.2 (str "city") (by decide)⟩

/-- C11 (as stated, refuted): the member `ada` has its username set, to the
empty string; `SetTextValue` of `username` with the different value `bob`
succeeds and writes the `username` column and the rewritten blob. -/
theorem set_username_over_empty_succeeds :
    refLib.Unmarshal (encodeFields unnamedRecord.toFields) = (unnamedRecord, none) ∧
    unnamedRecord.MemberData.bind (fun md => md.Username) = some [] ∧
    str "bob" ≠ [] ∧
    (SetTextValue unnamedStore.conn refLib time3 (str "ada") (str "username") (str "bob")).err
      = none ∧
    (insertions (SetTextValue unnamedStore.conn refLib time3 (str "ada") (str "username")
      (str "bob")).calls).map (fun x => (x.2.1, x.2.2.Name))
      = [(str "members", str "pb_data"), (str "members", str "username"),
         (str "member_agreements", str "pb_data")] := by
  refine ⟨by decide, by decide, by decide, by decide, by decide⟩

/-- C11 (amended): for every member record whose username is set and not
empty, and every supplied value different from it, `SetTextValue` of
`username` fails with "Cannot modify user name" and issues no mutation, so
that every store, and the stored username with it, is unchanged. -/
theorem set_username_is_refused_when_nonempty (conn : Conn) (lib : Lib) (now : Time)
    (id value name : Bytes) (r : Column) (member : MembershipAgreement) (md : Member)
    (hget : conn.Get (memberPrefix ++ id) ⟨str "members", str "pb_data"⟩ ConsistencyLevel.ONE
      = .ok r)
    (hum : lib.Unmarshal r.Value = (member, none))
    (hmd : member.MemberData = some md)
    (hname : md.Username = some name)
    (hne : name ≠ [])
    (_hdiff : value ≠ name) :
    (SetTextValue conn lib now id (str "username") value).err
      = some Error.CannotModifyUserName ∧
    mutationMaps (SetTextValue conn lib now id (str "username") value).calls = [] ∧
    ∀ s : Store, s.applyCalls (SetTextValue conn lib now id (str "username") value).calls = s := by
  have hch : setTextField member (str "username") value = .error Error.CannotModifyUserName := by
    simp +decide [setTextField, hmd, hname, hne]
  rw [SetTextValue_eq]
  unfold updateWith
  simp [hget, hum, hch, mutationMaps, Store.applyCalls, Store.applyCall]

theorem set_username_is_refused_when_nonempty_witness :
    str "ada" ≠ [] ∧ str "bob" ≠ str "ada" ∧
    (SetTextValue namedStore.conn refLib time3 (str "ada") (str "username") (str "bob")).err
      = some Error.CannotModifyUserName ∧
    mutationMaps (SetTextValue namedStore.conn refLib time3 (str "ada") (str "username")
      (str "bob")).calls = [] := by
  have h := set_username_is_refused_when_nonempty namedStore.conn refLib time3 (str "ada")
    (str "bob") (str "ada") ⟨str "pb_data", encodeFields namedRecord.toFields,
      some 1000000000, none⟩ namedRecord
    { Name := some (str "Ada"), Username := some (str "ada") }
    (by rfl) (by decide) rfl rfl (by decide) (by decide)
  exact ⟨by decide, by decide, h.1, h.2.1⟩

/-- C12: for every successful update, the record decoded from the rewritten
`pb_data` (the codec inverting its encoding) is the record decoded from the
`pb_data` that was read with exactly the named field of the member data set
to the new value (for `SetMemberFee`: exactly `Fee` and `FeeYearly`);
`Metadata` and `AgreementPdf` are the ones read. -/
theorem update_changes_only_the_named_field (u : Update) (conn : Conn) (lib : Lib)
    (now : Time) (id : Bytes)
    (hrt : lib.RoundTrip)
    (hok : (u.run conn lib now id).err = none) :
    ∃ (r pb : Column) (data : List Mutation) (member changed : MembershipAgreement)
      (md : Member),
      conn.Get (memberPrefix ++ id) ⟨str "members", str "pb_data"⟩ ConsistencyLevel.ONE
        = .ok r ∧
      lib.Unmarshal r.Value = (member, none) ∧
      member.MemberData = some md ∧
      (u.run conn lib now id).calls =
        [Call.Get (memberPrefix ++ id) ⟨str "members", str "pb_data"⟩ ConsistencyLevel.ONE,
         Call.AtomicBatchMutate
           [(memberPrefix ++ id,
              [(str "members", ⟨some pb, none⟩ :: data),
               (str "member_agreements", [⟨some pb, none⟩])])]
           ConsistencyLevel.QUORUM] ∧
      pb.Name = r.Name ∧
      lib.Unmarshal pb.Value = (changed, none) ∧
      changed.Metadata = member.Metadata ∧
      changed.AgreementPdf = member.AgreementPdf ∧
      (∀ amount yearly, u = Update.fee amount yearly →
        changed.MemberData = some { md with Fee := some amount, FeeYearly := some yearly }) ∧
      (∀ value name, u = Update.setter (Setter.long value) name →
        name = str "payments_caught_up_to" ∧
        changed.MemberData = some { md with PaymentsCaughtUpTo := some value }) ∧
      (∀ value name, u = Update.setter (Setter.bool value) name →
        name = str "has_key" ∧
        changed.MemberData = some { md with HasKey := some value }) ∧
      (∀ value name, u = Update.setter (Setter.text value) name →
        (name = str "name" ∧ changed.MemberData = some { md with Name := some value }) ∨
        (name = str "street" ∧ changed.MemberData = some { md with Street := some value }) ∨
        (name = str "city" ∧ changed.MemberData = some { md with City := some value }) ∨
        (name = str "zipcode" ∧ changed.MemberData = some { md with Zipcode := some value }) ∨
        (name = str "country" ∧ changed.MemberData = some { md with Country := some value }) ∨
        (name = str "phone" ∧ changed.MemberData = some { md with Phone := some value }) ∨
        (name = str "username" ∧
          changed.MemberData = some { md with Username := some value })) := by
  cases u with
  | fee amount yearly =>
    simp only [Update.run, SetMemberFee_eq] at hok ⊢
    obtain ⟨r, member, changed, pb, hget, hum, hch, hmar, hcalls⟩ := updateWith_ok hok
    obtain ⟨md, hmd, hc⟩ := assignMemberData_ok hch
    subst hc
    refine ⟨r, _, _, member, _, md, hget, hum, hmd, hcalls, rfl, hrt _ _ hmar, rfl, rfl,
      ?_, ?_, ?_, ?_⟩
    · intro a y h
      cases h
      rfl
    · intro v n h
      cases h
    · intro v n h
      cases h
    · intro v n h
      cases h
  | setter k name =>
    cases k with
    | text value =>
      simp only [Update.run, Setter.run, SetTextValue_eq] at hok ⊢
      obtain ⟨r, member, changed, pb, hget, hum, hch, hmar, hcalls⟩ := updateWith_ok hok
      obtain ⟨md, hmd, hc⟩ := setTextField_eq hch
      refine ⟨r, _, _, member, changed, md, hget, hum, hmd, hcalls, rfl, hrt _ _ hmar, ?_, ?_,
        ?_, ?_, ?_, ?_⟩
      · rcases hc with ⟨-, h⟩ | ⟨-, h⟩ | ⟨-, h⟩ | ⟨-, h⟩ | ⟨-, h⟩ | ⟨-, h⟩ | ⟨-, h⟩ <;> rw [h]
      · rcases hc with ⟨-, h⟩ | ⟨-, h⟩ | ⟨-, h⟩ | ⟨-, h⟩ | ⟨-, h⟩ | ⟨-, h⟩ | ⟨-, h⟩ <;> rw [h]
      · intro a y h
        cases h
      · intro v n h
        cases h
      · intro v n h
        cases h
      · intro v n h
        cases h
        rcases hc with ⟨hn, h⟩ | ⟨hn, h⟩ | ⟨hn, h⟩ | ⟨hn, h⟩ | ⟨hn, h⟩ | ⟨hn, h⟩ | ⟨hn, h⟩ <;>
          subst h <;> simp [hn]
    | long value =>
      simp only [Update.run, Setter.run, SetLongValue_eq] at hok ⊢
      obtain ⟨r, member, changed, pb, hget, hum, hch, hmar, hcalls⟩ := updateWith_ok hok
      unfold setLongField at hch
      split_ifs at hch with hn
      obtain ⟨md, hmd, hc⟩ := assignMemberData_ok hch
      subst hc
      refine ⟨r, _, _, member, _, md, hget, hum, hmd, hcalls, rfl, hrt _ _ hmar, rfl, rfl,
        ?_, ?_, ?_, ?_⟩
      · intro a y h
        cases h
      · intro v n h
        cases h
        exact ⟨hn, rfl⟩
      · intro v n h
        cases h
      · intro v n h
        cases h
    | bool value =>
      simp only [Update.run, Setter.run, SetBoolValue_eq] at hok ⊢
      obtain ⟨r, member, changed, pb, hget, hum, hch, hmar, hcalls⟩ := updateWith_ok hok
      unfold setBoolField at hch
      split_ifs at hch with hn
      obtain ⟨md, hmd, hc⟩ := assignMemberData_ok hch
      subst hc
      refine ⟨r, _, _, member, _, md, hget, hum, hmd, hcalls, rfl, hrt _ _ hmar, rfl, rfl,
        ?_, ?_, ?_, ?_⟩
      · intro a y h
        cases h
      · intro v n h
        cases h
      · intro v n h
        cases h
        exact ⟨hn, rfl⟩
      · intro v n h
        cases h

theorem update_changes_only_the_named_field_witness :
    refLib.RoundTrip ∧
    ((Update.setter (Setter.text (str "Bern")) (str "city")).run memberStore.conn refLib time3
      (str "ada")).err = none ∧
    ∃ (r pb : Column) (member changed : MembershipAgreement) (md : Member),
      memberStore.conn.Get (memberPrefix ++ str "ada") ⟨str "members", str "pb_data"⟩
        ConsistencyLevel.ONE = .ok r ∧
      refLib.Unmarshal r.Value = (member, none) ∧
      member.MemberData = some md ∧
      refLib.Unmarshal pb.Value = (changed, none) ∧
      changed.Metadata = member.Metadata ∧
      changed.AgreementPdf = member.AgreementPdf ∧
      changed.MemberData = some { md with City := some (str "Bern") } := by
  have hok : ((Update.setter (Setter.text (str "Bern")) (str "city")).run memberStore.conn
      refLib time3 (str "ada")).err = none := by decide
  obtain ⟨r, pb, data, member, changed, md, hget, hum, hmd, -, -, hpb, hmeta, hpdf, -, -, -,
    htext⟩ := update_changes_only_the_named_field
      (Update.setter (Setter.text (str "Bern")) (str "city")) memberStore.conn refLib time3
      (str "ada") refLib_exact.roundTrip hok
  have h := htext (str "Bern") (str "city") rfl
  simp +decide only [false_and, false_or, true_and, or_false] at h
  exact ⟨refLib_exact.roundTrip, hok, r, pb, member, changed, md, hget, hum, hmd, hpb, hmeta,
    hpdf, h⟩

/-- C13: for every unsigned 64-bit `v` and every boolean `b`: the integer
encoding `PutUint64 v` is 8 bytes, most significant first; the boolean
encoding is the one byte 1 or 0; `StoreMembershipRequest`, `SetMemberFee`,
`SetLongValue` and `SetBoolValue`, when they succeed, write the columns `fee`,
`payments_caught_up_to`, `fee_yearly` and `has_key` with these encodings; and
the column decoding of `EnumerateMembers` and `EnumerateMembershipRequests`
gives back `v` and `b` from them. -/
theorem numeric_columns_round_trip (v : Nat) (b : Bool) (hv : v < 2 ^ 64) :
    ((PutUint64 v).length = 8 ∧ (∀ x ∈ PutUint64 v, x < 256) ∧
      (PutUint64 v).foldl (fun acc x => 256 * acc + x) 0 = v) ∧
    (boolByte b = [if b then 1 else 0]) ∧
    (∀ conn lib now req md,
      req.MemberData = some md → md.Fee.getD 0 = v → md.FeeYearly.getD false = b →
      (StoreMembershipRequest conn lib now req).err = none →
      ∃ key cols, (StoreMembershipRequest conn lib now req).calls
          = [Call.BatchMutate [(key, [(str "application", cols)])] ConsistencyLevel.QUORUM] ∧
        (⟨some ⟨str "fee", PutUint64 v, some now.UnixNano, none⟩, none⟩ : Mutation) ∈ cols ∧
        (⟨some ⟨str "fee_yearly", boolByte b, some now.UnixNano, none⟩, none⟩ : Mutation) ∈ cols ∧
        ∀ c, (⟨some c, none⟩ : Mutation) ∈ cols →
          (c.Name = str "fee" → c.Value = PutUint64 v) ∧
          (c.Name = str "fee_yearly" → c.Value = boolByte b)) ∧
    (∀ conn lib now id, (SetMemberFee conn lib now id v b).err = none →
      ∃ pb : Column, (SetMemberFee conn lib now id v b).calls =
        [Call.Get (memberPrefix ++ id) ⟨str "members", str "pb_data"⟩ ConsistencyLevel.ONE,
         Call.AtomicBatchMutate
           [(memberPrefix ++ id,
              [(str "members",
                  [⟨some pb, none⟩,
                   ⟨some ⟨str "fee", PutUint64 v, some now.UnixNano, none⟩, none⟩,
                   ⟨some ⟨str "fee_yearly", boolByte b, some now.UnixNano, none⟩, none⟩]),
               (str "member_agreements", [⟨some pb, none⟩])])]
           ConsistencyLevel.QUORUM]) ∧
    (∀ conn lib now id field, (SetLongValue conn lib now id field v).err = none →
      field = str "payments_caught_up_to" ∧
      ∃ pb : Column, (SetLongValue conn lib now id field v).calls =
        [Call.Get (memberPrefix ++ id) ⟨str "members", str "pb_data"⟩ ConsistencyLevel.ONE,
         Call.AtomicBatchMutate
           [(memberPrefix ++ id,
              [(str "members",
                  [⟨some pb, none⟩,
                   ⟨some ⟨field, PutUint64 v, some now.UnixNano, none⟩, none⟩]),
               (str "member_agreements", [⟨some pb, none⟩])])]
           ConsistencyLevel.QUORUM]) ∧
    (∀ conn lib now id field, (SetBoolValue conn lib now id field b).err = none →
      field = str "has_key" ∧
      ∃ pb : Column, (SetBoolValue conn lib now id field b).calls =
        [Call.Get (memberPrefix ++ id) ⟨str "members", str "pb_data"⟩ ConsistencyLevel.ONE,
         Call.AtomicBatchMutate
           [(memberPrefix ++ id,
              [(str "members",
                  [⟨some pb, none⟩,
                   ⟨some ⟨field, boolByte b, some now.UnixNano, none⟩, none⟩]),
               (str "member_agreements", [⟨some pb, none⟩])])]
           ConsistencyLevel.QUORUM]) ∧
    (∀ (m : Member) (ts ttl : Option Int),
      memberColumn m ⟨str "fee", PutUint64 v, ts, ttl⟩ = some { m with Fee := some v } ∧
      memberColumn m ⟨str "payments_caught_up_to", PutUint64 v, ts, ttl⟩
        = some { m with PaymentsCaughtUpTo := some v } ∧
      memberColumn m ⟨str "fee_yearly", boolByte b, ts, ttl⟩
        = some { m with FeeYearly := some b } ∧
      memberColumn m ⟨str "has_key", boolByte b, ts, ttl⟩ = some { m with HasKey := some b }) ∧
    (∀ (m : MemberWithKey) (ts ttl : Option Int),
      requestColumn m ⟨str "fee", PutUint64 v, ts, ttl⟩
        = some { m with Member := { m.Member with Fee := some v } } ∧
      requestColumn m ⟨str "fee_yearly", boolByte b, ts, ttl⟩
        = some { m with Member := { m.Member with FeeYearly := some b } }) := by
  have hu := Uint64_PutUint64 v hv
  have hb : byteBool (boolByte b) = some b := byteBool_ite b
  refine ⟨⟨rfl, PutUint64_lt v, PutUint64_bigEndian v hv⟩, by cases b <;> rfl, ?_, ?_, ?_, ?_, ?_, ?_⟩
  · intro conn lib now req md hmd hfee hyearly hok
    obtain ⟨uuid, md1, meta0, bdata, hg, hmd1, hmeta, hmar⟩ := StoreMembershipRequest_accepted hok
    rw [hmd] at hmd1
    cases hmd1
    refine ⟨_, _, congrArg Outcome.calls (StoreMembershipRequest_eq conn hg hmd hmeta hmar),
      ?_, ?_, ?_⟩
    · simp [requestDataColumns, newCassandraMutationBytes_eq, hfee]
    · simp [requestDataColumns, newCassandraMutationBytes_eq, hyearly, boolByte]
    · intro c hc
      rw [List.mem_append] at hc
      rcases hc with hc | hc
      · have := requestDataColumns_fee hc
        rw [hfee, hyearly] at this
        exact this
      · rw [newCassandraMutationBytes_eq] at hc
        simp only [List.mem_singleton, Mutation.mk.injEq, Option.some.injEq, and_true] at hc
        subst hc
        dsimp only
        exact ⟨fun h => absurd h (by decide), fun h => absurd h (by decide)⟩
  · intro conn lib now id hok
    rw [SetMemberFee_eq] at hok ⊢
    obtain ⟨r, member, changed, pb, -, -, -, -, hcalls⟩ := updateWith_ok hok
    refine ⟨{ r with Value := pb, Timestamp := some now.UnixNano }, ?_⟩
    rw [hcalls]
    simp [newCassandraMutationBytes_eq, boolByte]
  · intro conn lib now id field hok
    rw [SetLongValue_eq] at hok ⊢
    obtain ⟨r, member, changed, pb, -, -, hch, -, hcalls⟩ := updateWith_ok hok
    refine ⟨(setLongField_ok hch).1, { r with Value := pb, Timestamp := some now.UnixNano }, ?_⟩
    rw [hcalls]
    simp [newCassandraMutationBytes_eq]
  · intro conn lib now id field hok
    rw [SetBoolValue_eq] at hok ⊢
    obtain ⟨r, member, changed, pb, -, -, hch, -, hcalls⟩ := updateWith_ok hok
    refine ⟨(setBoolField_ok hch).1, { r with Value := pb, Timestamp := some now.UnixNano }, ?_⟩
    rw [hcalls]
    simp [newCassandraMutationBytes_eq, boolByte]
  · intro m ts ttl
    refine ⟨?_, ?_, ?_, ?_⟩ <;> simp +decide [memberColumn, hu, hb]
  · intro m ts ttl
    refine ⟨?_, ?_⟩ <;> simp +decide [requestColumn, hu, hb]

theorem numeric_columns_round_trip_witness :
    (20 : Nat) < 2 ^ 64 ∧ PutUint64 20 = [0, 0, 0, 0, 0, 0, 0, 20] ∧ boolByte true = [1] ∧
    memberColumn {} ⟨str "fee", PutUint64 20, none, none⟩ = some { Fee := some 20 } ∧
    memberColumn {} ⟨str "has_key", boolByte true, none, none⟩ = some { HasKey := some true } :=
  have h := numeric_columns_round_trip 20 true (by norm_num)
  ⟨by norm_num, by decide, by decide, (h.2.2.2.2.2.2.1 {} none none).1,
    (h.2.2.2.2.2.2.1 {} none none).2.2.2⟩

/-- C14: for every generated UUID `u` of 16 bytes, every mutation
`StoreMembershipRequest` issues is under the partition key `applicant:`
followed by the bytes of `u`, in the column family `application`; a successful
call issued exactly one batch, of that single key and family, with at least
one mutation; and the returned key is the hexadecimal encoding of `u`: 32
lowercase hexadecimal characters that decode to `u`, the suffix of the
partition key written. -/
theorem request_key_is_hex_of_uuid (conn : Conn) (lib : Lib) (now : Time)
    (req : FormInputData) (u : Bytes)
    (hgen : lib.GenTimeUUID now = some u) (hlen : u.length = 16)
    (hbytes : ∀ x ∈ u, x < 256) :
    (∀ mmap ∈ mutationMaps (StoreMembershipRequest conn lib now req).calls,
      ∀ x ∈ mmap.mutations, x.1 = str "applicant:" ++ u ∧ x.2.1 = str "application") ∧
    ((StoreMembershipRequest conn lib now req).err = none →
      ∃ cols, cols ≠ [] ∧ (StoreMembershipRequest conn lib now req).calls =
        [Call.BatchMutate [(str "applicant:" ++ u, [(str "application", cols)])]
          ConsistencyLevel.QUORUM]) ∧
    (StoreMembershipRequest conn lib now req).value = hexEncodeToString u ∧
    (StoreMembershipRequest conn lib now req).value.length = 32 ∧
    (∀ c ∈ (StoreMembershipRequest conn lib now req).value, isLowerHex c) ∧
    hexDecode (StoreMembershipRequest conn lib now req).value = some u := by
  obtain ⟨hval, hcalls⟩ := StoreMembershipRequest_maps conn lib now req u hgen
  rw [hval]
  refine ⟨?_, ?_, rfl, ?_, hexEncodeToString_isLowerHex u, hexDecode_hexEncodeToString u hbytes⟩
  · rcases hcalls with h | ⟨cols, _, h⟩
    · simp [h, mutationMaps]
    · rw [h]
      intro mmap hm x hx
      simp only [mutationMaps, List.filterMap_cons, List.filterMap_nil,
        List.mem_singleton] at hm
      subst hm
      simp only [MutationMap.mutations, List.flatMap_cons, List.flatMap_nil, List.append_nil,
        List.mem_map] at hx
      obtain ⟨mu, _, rfl⟩ := hx
      exact ⟨rfl, rfl⟩
  · intro hok
    rcases hcalls with h | ⟨cols, hne, h⟩
    · obtain ⟨uuid, md, meta0, bdata, hg, hmd, hmeta, hmar⟩ :=
        StoreMembershipRequest_accepted hok
      rw [StoreMembershipRequest_eq conn hg hmd hmeta hmar] at h
      simp at h
    · exact ⟨cols, hne, h⟩
  · rw [hexEncodeToString_length, hlen]

theorem request_key_is_hex_of_uuid_witness :
    refLib.GenTimeUUID time1 = some uuid1 ∧ uuid1.length = 16 ∧ (∀ x ∈ uuid1, x < 256) ∧
    (StoreMembershipRequest (Store.conn []) refLib time1 adaRequest).err = none ∧
    (StoreMembershipRequest (Store.conn []) refLib time1 adaRequest).value
      = str "000000003b9aca000000000000000001" ∧
    hexDecode (StoreMembershipRequest (Store.conn []) refLib time1 adaRequest).value
      = some uuid1 :=
  have h := request_key_is_hex_of_uuid (Store.conn []) refLib time1 adaRequest uuid1
    (by decide) (by decide) (by decide)
  ⟨by decide, by decide, by decide, by decide, by decide, h.2.2.2.2.2⟩

/-- C15: for every input `StoreMembershipRequest` accepts, under an exact
codec round trip: the one batch ends with the `pb_data` column, no other
column of the batch has that name, and its value decodes to a record whose
MemberData is the input MemberData, whose Metadata is the input Metadata with
RequestTimestamp set to the current time in seconds when it was absent, and
is the input Metadata unchanged when RequestTimestamp was present. -/
theorem request_blob_keeps_the_input (conn : Conn) (lib : Lib) (now : Time)
    (req : FormInputData) (hrt : lib.RoundTrip)
    (hok : (StoreMembershipRequest conn lib now req).err = none) :
    ∃ (uuid : Bytes) (md : Member) (meta0 : MembershipMetadata) (cols : List Mutation)
      (pb : Column) (stored : MembershipAgreement),
      req.MemberData = some md ∧ req.Metadata = some meta0 ∧
      (StoreMembershipRequest conn lib now req).calls =
        [Call.BatchMutate [(applicationPrefix ++ uuid,
          [(str "application", cols ++ [⟨some pb, none⟩])])] ConsistencyLevel.QUORUM] ∧
      pb.Name = str "pb_data" ∧
      (∀ mu ∈ cols, ∀ c, mu.ColumnOrSupercolumn = some c → c.Name ≠ str "pb_data") ∧
      lib.Unmarshal pb.Value = (stored, none) ∧
      stored.MemberData = some md ∧
      (meta0.RequestTimestamp = none →
        stored.Metadata = some { meta0 with RequestTimestamp := some (uint64 now.Unix) }) ∧
      (meta0.RequestTimestamp ≠ none → stored.Metadata = some meta0) ∧
      stored.AgreementPdf = [] := by
  obtain ⟨uuid, md, meta0, bdata, hg, hmd, hmeta, hmar⟩ := StoreMembershipRequest_accepted hok
  refine ⟨uuid, md, meta0, requestDataColumns md meta0 now,
    ⟨str "pb_data", bdata, some now.UnixNano, none⟩,
    ⟨some md, some (stampedMetadata meta0 now), []⟩, hmd, hmeta, ?_, rfl, ?_,
    hrt _ _ hmar, rfl, ?_, ?_, rfl⟩
  · rw [StoreMembershipRequest_eq conn hg hmd hmeta hmar]
    simp [newCassandraMutationBytes_eq]
  · intro mu hmu c hc
    obtain ⟨name, v, hname, rfl⟩ := requestDataColumns_mem hmu
    rw [newCassandraMutationBytes_eq] at hc
    simp only [Option.some.injEq] at hc
    subst hc
    intro heq
    simp only at heq
    subst heq
    revert hname
    decide
  · intro h
    simp [stampedMetadata, h]
  · intro h
    simp [stampedMetadata, h]

theorem request_blob_keeps_the_input_witness :
    refLib.RoundTrip ∧
    (StoreMembershipRequest (Store.conn []) refLib time1 adaRequest).err = none ∧
    ∃ pb stored, pb ∈ (insertions
        (StoreMembershipRequest (Store.conn []) refLib time1 adaRequest).calls).map
          (fun x => x.2.2) ∧
      pb.Name = str "pb_data" ∧ refLib.Unmarshal pb.Value = (stored, none) ∧
      stored.MemberData = adaRequest.MemberData ∧
      stored.Metadata = some { RequestTimestamp := some 1 } := by
  obtain ⟨uuid, md, meta0, cols, pb, stored, hmd, hmeta, hcalls, hname, _, hum, hsm, hnone, _, _⟩ :=
    request_blob_keeps_the_input (Store.conn []) refLib time1 adaRequest
      refLib_exact.roundTrip (by decide)
  have hmeta0 : meta0 = {} := by
    have : adaRequest.Metadata = some {} := rfl
    rw [this] at hmeta
    exact (Option.some.inj hmeta).symm
  subst hmeta0
  refine ⟨refLib_exact.roundTrip, by decide, pb, stored, ?_, hname, hum, ?_, ?_⟩
  · rw [hcalls]
    simp [insertions, mutationMaps, MutationMap.insertions, MutationMap.mutations]
  · rw [hsm, hmd]
  · rw [hnone rfl]
    decide

/-- C16: each of the five enumerations, called with a cursor that parses
(`EnumerateMembers` takes any cursor, the others an empty one or a UUID),
issues exactly one call, the range scan of its column family for its column
names from its key prefix followed by the cursor to the end of its stage, with
`num` as the count, at ONE.  When the store answers that scan with rows `kss`,
at most `num` of them, in ascending key order, within the requested key range,
with columns of the requested names only and numeric and boolean columns wide
enough to decode: the enumeration succeeds, and its result has, in the order
of the rows, one entry for each row with at least one column and none for a
row with zero columns.  The entry is the one the row loop makes of that row,
and it carries the key of the row (for `EnumerateMembers`: when the row has no
`email` column, which would replace it).  Hence the result has at most `num`
entries, and the rows they come from are in ascending key order. -/
theorem enumeration_lists_rows_with_columns (e : Enumeration) (conn : Conn) (lib : Lib)
    (prev : Bytes) (num : Int) (cursor : Bytes) (kss : List KeySlice)
    (hcursor : e.cursor lib prev = some cursor)
    (hscan : conn.GetRangeSlices ⟨e.family⟩ ⟨e.columnNames⟩
      { StartKey := e.stage.keyPrefix ++ cursor, EndKey := e.stage.keyEnd, Count := num }
      ConsistencyLevel.ONE = .ok kss)
    (hnum : kss.length ≤ num.toNat)
    (hasc : kss.Pairwise (fun a b => keyLt a b = true))
    (hrange : ∀ ks ∈ kss, bytesLe (e.stage.keyPrefix ++ cursor) ks.Key = true ∧
      bytesLe ks.Key e.stage.keyEnd = true)
    (hcols : ∀ ks ∈ kss, ∀ c ∈ ks.Columns, c.Name ∈ e.columnNames)
    (hwf : ∀ ks ∈ kss, ks.Decodable) :
    (e.run conn lib prev num).calls =
      [Call.GetRangeSlices ⟨e.family⟩ ⟨e.columnNames⟩
        { StartKey := e.stage.keyPrefix ++ cursor, EndKey := e.stage.keyEnd, Count := num }
        ConsistencyLevel.ONE] ∧
    (e.run conn lib prev num).err = none ∧
    List.Forall₂ (fun ks m => e.row lib ks = .ok (some m) ∧
        ((e = Enumeration.members → ∀ c ∈ ks.Columns, c.Name ≠ str "email") →
          e.entryKey m = some (e.rowKey lib ks)))
      (kss.filter hasColumns) (e.run conn lib prev num).value ∧
    (∀ ks ∈ kss, ks.Columns = [] → e.row lib ks = .ok none) ∧
    (e.run conn lib prev num).value.length ≤ num.toNat ∧
    (kss.filter hasColumns).Pairwise (fun a b => keyLt a b = true) := by
  have hbody : ∀ ks ∈ kss, (ks.Columns = [] → e.row lib ks = .ok none) ∧
      (ks.Columns ≠ [] → ∃ m, e.row lib ks = .ok (some m)) := fun ks hks =>
    e.row_split lib ks
      (e.stage.key_length cursor ks.Key (hrange ks hks).1 (hrange ks hks).2)
      (hcols ks hks) (hwf ks hks)
  obtain ⟨herr, hall⟩ := scanRows_ok hscan hbody
  rw [e.run_scan conn lib prev num cursor hcursor]
  refine ⟨scanRows_calls _ _ _ _ _, herr, ?_, fun ks hks => (hbody ks hks).1, ?_,
    hasc.sublist (List.filter_sublist _)⟩
  · exact List.Forall₂.imp (fun ks m h => And.intro h (e.row_key lib ks m h)) hall
  · rw [← hall.length_eq]
    exact le_trans (List.length_filter_le _ _) hnum

theorem enumeration_lists_rows_with_columns_witness :
    (queueStore.GetRangeSlices ⟨str "membership_queue"⟩ ⟨[str "pb_data"]⟩
      { StartKey := queuePrefix, EndKey := queueEnd, Count := 10 }).map
        (fun ks => (ks.Key, ks.Columns.length))
      = [(queuePrefix ++ uuid1, 1), (queuePrefix ++ uuid3, 0), (queuePrefix ++ sampleUUID, 1)] ∧
    (EnumerateQueuedMembers queueStore.conn refLib [] 10).calls =
      [Call.GetRangeSlices ⟨str "membership_queue"⟩ ⟨[str "pb_data"]⟩
        { StartKey := queuePrefix, EndKey := queueEnd, Count := 10 } ConsistencyLevel.ONE] ∧
    (EnumerateQueuedMembers queueStore.conn refLib [] 10).err = none ∧
    (EnumerateQueuedMembers queueStore.conn refLib [] 10).value.map (fun m => m.Key)
      = [hexEncodeToString uuid1, hexEncodeToString sampleUUID] ∧
    (EnumerateQueuedMembers queueStore.conn refLib [] 10).value.length ≤ 10 :=
  have h := enumeration_lists_rows_with_columns Enumeration.queued queueStore.conn refLib [] 10
    [] (queueStore.GetRangeSlices ⟨str "membership_queue"⟩ ⟨[str "pb_data"]⟩
      { StartKey := queuePrefix, EndKey := queueEnd, Count := 10 })
    (by rfl) (by rfl) (by decide) (by decide) (by decide) (by decide)
    (by simp only [KeySlice.Decodable]; decide)
  ⟨by decide, h.1, h.2.1, by decide, h.2.2.2.2.1⟩

/-- C17 (the code at the failing input): on the store with the two
applications of `uuid1` and `uuid3`, the first page of size 1 of
`EnumerateMembershipRequests` is the record of `uuid1`; the call with that key
as cursor issues a scan whose start key is the cursor key itself, and its page
is the record of `uuid1` again; with the key of the final record as cursor the
page is not empty but holds the final record.  `EnumerateQueuedMembers` does
the same with the final key of the queue. -/
theorem cursor_record_is_listed_again :
    (EnumerateMembershipRequests twoRequests.conn refLib [] [] 1).value.map (fun m => m.Key)
      = [hexEncodeToString uuid1] ∧
    (EnumerateMembershipRequests twoRequests.conn refLib [] (hexEncodeToString uuid1) 1).calls
      = [Call.GetRangeSlices ⟨str "application"⟩
          ⟨[str "name", str "street", str "city", str "fee", str "fee_yearly"]⟩
          { StartKey := applicationPrefix ++ uuid1, EndKey := applicationEnd, Count := 1 }
          ConsistencyLevel.ONE] ∧
    (EnumerateMembershipRequests twoRequests.conn refLib [] (hexEncodeToString uuid1) 1).err
      = none ∧
    (EnumerateMembershipRequests twoRequests.conn refLib [] (hexEncodeToString uuid1) 1).value.map
      (fun m => m.Key) = [hexEncodeToString uuid1] ∧
    (EnumerateMembershipRequests twoRequests.conn refLib [] (hexEncodeToString uuid3) 1).value.map
      (fun m => m.Key) = [hexEncodeToString uuid3] ∧
    (EnumerateQueuedMembers queueStore.conn refLib [] 10).value.map (fun m => m.Key)
      = [hexEncodeToString uuid1, hexEncodeToString sampleUUID] ∧
    (EnumerateQueuedMembers queueStore.conn refLib (hexEncodeToString sampleUUID) 10).value.map
      (fun m => m.Key) = [hexEncodeToString sampleUUID] := by
  refine ⟨by decide, by decide, by decide, by decide, by decide, by decide, by decide⟩

/-- C18: when the scan of `GetMemberDetailByUsername` (family `members`,
column `pb_data`, the member key range, the row filter `username` = the given
name, at ONE) returns the rows `r`: if no row has a column the call fails with
NotFound; otherwise, for the first row that has a column and its first column,
if that column is named `pb_data` the record decoded from it is returned, with
the error of the decoding, whatever rows follow, and if it has another name
the call fails with the DataLoss error naming the column. -/
theorem detail_by_username_uses_first_column (conn : Conn) (lib : Lib) (username : Bytes)
    (r : List KeySlice)
    (hscan : conn.GetRangeSlices ⟨str "members"⟩ ⟨[str "pb_data"]⟩
      { StartKey := memberPrefix, EndKey := memberEnd,
        RowFilter := [⟨str "username", IndexOperator.EQ, username⟩] }
      ConsistencyLevel.ONE = .ok r) :
    (GetMemberDetailByUsername conn lib username).calls =
      [Call.GetRangeSlices ⟨str "members"⟩ ⟨[str "pb_data"]⟩
        { StartKey := memberPrefix, EndKey := memberEnd,
          RowFilter := [⟨str "username", IndexOperator.EQ, username⟩] }
        ConsistencyLevel.ONE] ∧
    ((∀ ks ∈ r, ks.Columns = []) →
      (GetMemberDetailByUsername conn lib username).err = some Error.NotFound ∧
      (GetMemberDetailByUsername conn lib username).value = none) ∧
    (∀ (pre : List KeySlice) (ks : KeySlice) (post : List KeySlice) (col : Column)
        (rest : List Column),
      r = pre ++ ks :: post → (∀ k ∈ pre, k.Columns = []) → ks.Columns = col :: rest →
      (col.Name = str "pb_data" →
        (GetMemberDetailByUsername conn lib username).value = some (lib.Unmarshal col.Value).1 ∧
        (GetMemberDetailByUsername conn lib username).err = (lib.Unmarshal col.Value).2) ∧
      (col.Name ≠ str "pb_data" →
        (GetMemberDetailByUsername conn lib username).value = none ∧
        (GetMemberDetailByUsername conn lib username).err = some (Error.DataLoss col.Name))) := by
  have hrun : GetMemberDetailByUsername conn lib username =
      ⟨(detailRows lib r).1, (detailRows lib r).2,
        [Call.GetRangeSlices ⟨str "members"⟩ ⟨[str "pb_data"]⟩
          { StartKey := memberPrefix, EndKey := memberEnd,
            RowFilter := [⟨str "username", IndexOperator.EQ, username⟩] }
          ConsistencyLevel.ONE]⟩ := by
    unfold GetMemberDetailByUsername
    simp only [hscan]
  rw [hrun]
  refine ⟨rfl, ?_, ?_⟩
  · intro h
    rw [detailRows_none lib r h]
    exact ⟨rfl, rfl⟩
  · intro pre ks post col rest hr hpre hcol
    subst hr
    rw [detailRows_skip lib pre _ hpre]
    constructor
    · intro hname
      simp [detailRows, hcol, hname]
    · intro hname
      simp [detailRows, hcol, hname]

theorem detail_by_username_uses_first_column_witness :
    (twoNamed.GetRangeSlices ⟨str "members"⟩ ⟨[str "pb_data"]⟩
      { StartKey := memberPrefix, EndKey := memberEnd,
        RowFilter := [⟨str "username", IndexOperator.EQ, str "ada"⟩] }).map (fun ks => ks.Key)
      = [memberPrefix ++ str "ada", memberPrefix ++ str "eve"] ∧
    (GetMemberDetailByUsername twoNamed.conn refLib (str "ada")).value = some namedRecord ∧
    (GetMemberDetailByUsername twoNamed.conn refLib (str "ada")).err = none ∧
    (GetMemberDetailByUsername twoNamed.conn refLib (str "bob")).err = some Error.NotFound := by
  have h := detail_by_username_uses_first_column twoNamed.conn refLib (str "ada") _ rfl
  have h1 := (h.2.2 []
    ⟨memberPrefix ++ str "ada",
      [⟨str "pb_data", encodeFields namedRecord.toFields, some 1000000000, none⟩]⟩
    [⟨memberPrefix ++ str "eve",
      [⟨str "pb_data", encodeFields unnamedRecord.toFields, some 2000000000, none⟩]⟩]
    ⟨str "pb_data", encodeFields namedRecord.toFields, some 1000000000, none⟩ []
    (by decide) (by simp) rfl).1 rfl
  refine ⟨by decide, ?_, ?_, by decide⟩
  · rw [h1.1]
    decide
  · rw [h1.2]
    decide

/-- C19 (as stated, refuted): the successful `SetMemberFee` on the member
`ada` and the successful `MoveApplicantToNewMember` of the sample application
each issued their one read at ONE, not at QUORUM. -/
theorem rewrite_reads_at_one :
    (SetMemberFee memberStore.conn refLib time3 (str "ada") 30 true).err = none ∧
    readLevels (SetMemberFee memberStore.conn refLib time3 (str "ada") 30 true).calls
      = [ConsistencyLevel.ONE] ∧
    (MoveApplicantToNewMember sampleStore.conn refLib time3 sampleId (str "admin1")).err
      = none ∧
    readLevels (MoveApplicantToNewMember sampleStore.conn refLib time3 sampleId
      (str "admin1")).calls = [ConsistencyLevel.ONE] ∧
    ConsistencyLevel.ONE ≠ ConsistencyLevel.QUORUM := by
  refine ⟨by decide, by decide, by decide, by decide, by decide⟩

/-- C19 (amended): the three transitions made by `moveRecordToTable` (through
`GetMembershipRequest`), `StoreMembershipAgreement` and the four updates issue
every read at ONE, `MoveMemberToTrash` issues its read at QUORUM, and all of
them issue every write at QUORUM; a successful call issued exactly one read
and one write. -/
theorem reads_at_one_except_member_trash (conn : Conn) (lib : Lib) (now : Time)
    (id initiator reason agreement_data : Bytes) (t : Transition) (u : Update) :
    IssuedAt (t.run conn lib now id initiator) ConsistencyLevel.ONE ConsistencyLevel.QUORUM ∧
    IssuedAt (StoreMembershipAgreement conn lib now id agreement_data)
      ConsistencyLevel.ONE ConsistencyLevel.QUORUM ∧
    IssuedAt (MoveMemberToTrash conn lib now id initiator reason)
      ConsistencyLevel.QUORUM ConsistencyLevel.QUORUM ∧
    IssuedAt (u.run conn lib now id) ConsistencyLevel.ONE ConsistencyLevel.QUORUM := by
  refine ⟨?_, StoreMembershipAgreement_levels conn lib now id agreement_data,
    MoveMemberToTrash_levels conn lib now id initiator reason, u.run_levels conn lib now id⟩
  rw [Transition.run_eq]
  exact moveRecordToTable_levels _ _ _ _ _ _ _ _ _ _

/-- C20 (the code at the failing input): the signup form with every other
field valid and the name left empty gets the field error `name` ("Ein Name ist
erforderlich", counted as `no-name`), and still `ServeHTTP` calls
`StoreMembershipRequest`, which writes the record without a `name` column, and
answers with the print template.  The same holds for an empty address, city,
zip code or country, while the form with an empty e-mail address, whose check
sets `ok = false`, is not stored. -/
theorem form_without_name_is_stored :
    (ServeHTTP false (Store.conn []) refLib sampleFormLib time1
      (formWithout (str "mr[name]"))).data.FieldErr
      = [(str "name", utf8 "Ein Name ist erforderlich")] ∧
    (ServeHTTP false (Store.conn []) refLib sampleFormLib time1
      (formWithout (str "mr[name]"))).submitErrors = [str "no-name"] ∧
    (ServeHTTP false (Store.conn []) refLib sampleFormLib time1
      (formWithout (str "mr[name]"))).stored ≠ none ∧
    (ServeHTTP false (Store.conn []) refLib sampleFormLib time1
      (formWithout (str "mr[name]"))).page = Page.print ∧
    (insertions (ServeHTTP false (Store.conn []) refLib sampleFormLib time1
      (formWithout (str "mr[name]"))).calls).map (fun x => (x.1, x.2.1, x.2.2.Name))
      = [str "street", str "city", str "zipcode", str "country", str "email",
         str "email_verified", str "fee", str "pwhash", str "fee_yearly", str "sourceip",
         str "useragent", str "pb_data"].map
          (fun name => (applicationPrefix ++ uuid1, str "application", name)) ∧
    (∀ key ∈ [str "mr[address]", str "mr[city]", str "mr[zip]", str "mr[country]"],
      (ServeHTTP false (Store.conn []) refLib sampleFormLib time1
        (formWithout key)).data.FieldErr ≠ [] ∧
      (ServeHTTP false (Store.conn []) refLib sampleFormLib time1
        (formWithout key)).stored ≠ none ∧
      mutationMaps (ServeHTTP false (Store.conn []) refLib sampleFormLib time1
        (formWithout key)).calls ≠ []) ∧
    (ServeHTTP false (Store.conn []) refLib sampleFormLib time1
      (formWithout (str "mr[email]"))).data.FieldErr.map Prod.fst = [str "email"] ∧
    (ServeHTTP false (Store.conn []) refLib sampleFormLib time1
      (formWithout (str "mr[email]"))).stored = none ∧
    (ServeHTTP false (Store.conn []) refLib sampleFormLib time1
      (formWithout (str "mr[email]"))).calls = [] ∧
    (ServeHTTP false (Store.conn []) refLib sampleFormLib time1 fullForm).data.FieldErr = [] ∧
    (ServeHTTP false (Store.conn []) refLib sampleFormLib time1 fullForm).page = Page.print := by
  refine ⟨by decide, by decide, by decide, by decide, by decide, ?_, by decide, by decide,
    by decide, by decide, by decide⟩
  intro key hkey
  simp only [List.mem_cons, List.mem_singleton, List.not_mem_nil, or_false] at hkey
  rcases hkey with rfl | rfl | rfl | rfl <;> decide

/-- C21: for each of the five stages the end key is the prefix with its last
byte `:` (58) replaced by `;` (59), and for every key `k`: `k` is in the range
from the prefix up to, not including, the end key, in lexicographic byte
order, if and only if `k` starts with the prefix.  Hence no key that starts
with the prefix of one stage is in the range of another stage; every
enumeration asks for the range of its stage, from the cursor; and for every
key in that range, the end key included, the slice `ks.Key[len(prefix):]` is
in bounds, so that the row loop of the enumeration does not panic on a row
with such a key (and columns wide enough to decode). -/
theorem stage_range_is_its_namespace (st : Stage) (k : Bytes) :
    (∃ q, st.keyPrefix = q ++ [58] ∧ st.keyEnd = q ++ [59]) ∧
    ((bytesLe st.keyPrefix k = true ∧ bytesLt k st.keyEnd = true) ↔
      ∃ rest, k = st.keyPrefix ++ rest) ∧
    (∀ st1 : Stage, st1 ≠ st → (∃ rest, k = st.keyPrefix ++ rest) →
      ¬ (bytesLe st1.keyPrefix k = true ∧ bytesLt k st1.keyEnd = true)) ∧
    (∀ (e : Enumeration) (conn : Conn) (lib : Lib) (prev : Bytes) (num : Int)
        (cp : ColumnParent) (pred : SlicePredicate) (kr : KeyRange) (cl : ConsistencyLevel),
      e.stage = st →
      (e.run conn lib prev num).calls = [Call.GetRangeSlices cp pred kr cl] →
      (∃ cursor, kr.StartKey = st.keyPrefix ++ cursor) ∧ kr.EndKey = st.keyEnd) ∧
    (∀ cursor : Bytes, bytesLe (st.keyPrefix ++ cursor) k = true → bytesLe k st.keyEnd = true →
      sliceFrom k st.keyPrefix.length = some (k.drop st.keyPrefix.length) ∧
      ∀ (e : Enumeration) (lib : Lib) (cols : List Column),
        e.stage = st → KeySlice.Decodable ⟨k, cols⟩ → ∃ m, e.row lib ⟨k, cols⟩ = .ok m) := by
  refine ⟨st.keys, st.range_iff k, ?_, ?_, ?_⟩
  · intro st1 hne hk hin
    exact Stage.disjoint st st1 k hne hk ((st1.range_iff k).mp hin)
  · intro e conn lib prev num cp pred kr cl he hcall
    subst he
    exact e.run_range conn lib prev num cp pred kr cl hcall
  · intro cursor h1 h2
    have hlen := st.key_length cursor k h1 h2
    refine ⟨sliceFrom_of_le hlen, ?_⟩
    intro e lib cols he hwf
    subst he
    exact e.row_ok lib ⟨k, cols⟩ hlen hwf

/-- C22: every column that `StoreMembershipRequest`, `StoreMembershipAgreement`,
the four updates and the four moves write is named in `allColumns` (for the
updates: when the store answers the read of `pb_data` with that column), and
is stamped with the time of the call, like the blob written with it.  The one
deletion a move issues is in its source family and names `allColumns`; so after
a successful move nothing is left of a source row whose columns are named in
`allColumns` and written no later than the blob that was read. -/
theorem written_columns_are_named_by_the_deletion (conn : Conn) (lib : Lib) (now : Time)
    (req : FormInputData) (id agreement_data initiator : Bytes) (u : Update) (m : Move)
    (hget : ∀ key cp cl r, conn.Get key cp cl = .ok r → r.Name = cp.Column) :
    (∀ x ∈ insertions (StoreMembershipRequest conn lib now req).calls,
      x.2.2.Name ∈ allColumns ∧ x.2.2.Timestamp = some now.UnixNano) ∧
    (∀ x ∈ insertions (StoreMembershipAgreement conn lib now id agreement_data).calls,
      x.2.2.Name ∈ allColumns ∧ x.2.2.Timestamp = some now.UnixNano) ∧
    (∀ x ∈ insertions (u.run conn lib now id).calls,
      x.2.2.Name ∈ allColumns ∧ x.2.2.Timestamp = some now.UnixNano) ∧
    (∀ x ∈ insertions (m.run conn lib now id initiator).calls,
      x.2.2.Name ∈ allColumns ∧ x.2.2.Timestamp = some now.UnixNano) ∧
    (∀ x ∈ deletions (m.run conn lib now id initiator).calls,
      x.2.1 = m.srcTable ∧ x.2.2.Predicate = some allColumns) ∧
    (∀ s : Store, (m.run s.conn lib now id initiator).err = none →
      ∃ srcKey r,
        s.Get srcKey ⟨m.srcTable, str "pb_data"⟩ = .ok r ∧
        deletions (m.run s.conn lib now id initiator).calls
          = [(srcKey, m.srcTable, ⟨r.Timestamp, some allColumns⟩)] ∧
        ((∀ c ∈ s, c.key = srcKey → c.family = m.srcTable →
            c.column.Name ∈ allColumns ∧ c.ts ≤ r.Timestamp.getD 0) →
          ∀ c ∈ s.applyCalls (m.run s.conn lib now id initiator).calls,
            ¬ (c.key = srcKey ∧ c.family = m.srcTable))) := by
  refine ⟨StoreMembershipRequest_names conn lib now req,
    StoreMembershipAgreement_names conn lib now id agreement_data,
    u.run_names conn lib now id hget, ?_, (m.run_batch_names conn lib now id initiator).2,
    fun s hok => m.leaves_nothing s lib now id initiator hok⟩
  intro x hx
  obtain ⟨hname, hts⟩ := (m.run_batch_names conn lib now id initiator).1 x hx
  rw [hname]
  exact ⟨pb_data_mem_allColumns, hts⟩

theorem written_columns_are_named_by_the_deletion_witness :
    (insertions (SetMemberFee memberStore.conn refLib time3 (str "ada") 30 true).calls).map
      (fun x => x.2.2.Name) = [str "pb_data", str "fee", str "fee_yearly", str "pb_data"] ∧
    (∀ x ∈ insertions (SetMemberFee memberStore.conn refLib time3 (str "ada") 30 true).calls,
      x.2.2.Name ∈ allColumns ∧ x.2.2.Timestamp = some time3.UnixNano) ∧
    (MoveMemberToTrash memberStore.conn refLib time3 (str "ada") (str "admin1")
      (str "left")).err = none ∧
    (memberStore.applyCalls (MoveMemberToTrash memberStore.conn refLib time3 (str "ada")
      (str "admin1") (str "left")).calls).filter
        (fun c => decide (c.key = memberPrefix ++ str "ada")) = [] :=
  have h := written_columns_are_named_by_the_deletion memberStore.conn refLib time3 adaRequest
    (str "ada") [37, 80, 68, 70] (str "admin1") (Update.fee 30 true)
    (Move.memberToTrash (str "left")) (fun _ _ _ _ hr => Store.Get_name hr)
  ⟨by decide, h.2.2.1, by decide, by decide⟩

/-- C23: under a codec round trip, every blob `StoreMembershipRequest` writes
decodes to a record with metadata whose RequestTimestamp is set; the blob
`StoreMembershipAgreement` writes decodes to the record read with only the
agreement replaced, and the blob a transition of `moveRecordToTable` writes to
a record with metadata; so each of these operations keeps metadata present in
every stored blob.  Therefore on every store made from the empty store by
these operations the transitions never fail by dereferencing an absent
Metadata (or any other nil pointer). -/
theorem metadata_is_never_absent (lib : Lib) (steps : List Step) (hrt : lib.RoundTrip) :
    (∀ (conn : Conn) (now : Time) (req : FormInputData),
      ∀ x ∈ insertions (StoreMembershipRequest conn lib now req).calls,
        x.2.2.Name = str "pb_data" →
        ∃ m md ts, lib.Unmarshal x.2.2.Value = (m, none) ∧ m.Metadata = some md ∧
          md.RequestTimestamp = some ts) ∧
    (∀ (conn : Conn) (now : Time) (id data : Bytes),
      ∀ x ∈ insertions (StoreMembershipAgreement conn lib now id data).calls,
        x.2.2.Name = str "pb_data" →
        ∃ u r member,
          lib.ParseUUID id = some u ∧
          conn.Get (applicationPrefix ++ u) ⟨str "application", str "pb_data"⟩
            ConsistencyLevel.ONE = .ok r ∧
          lib.Unmarshal r.Value = (member, none) ∧
          lib.Unmarshal x.2.2.Value = ({ member with AgreementPdf := data }, none)) ∧
    (∀ (t : Transition) (conn : Conn) (now : Time) (id initiator : Bytes),
      ∀ x ∈ insertions (t.run conn lib now id initiator).calls,
        ∃ m md, lib.Unmarshal x.2.2.Value = (m, none) ∧ m.Metadata = some md ∧
          md.ApproverUid = some initiator ∧ md.ApprovalTimestamp = some (uint64 now.Unix)) ∧
    (∀ (s : Store) (st : Step), s.HasMetadata lib →
      (s.applyCalls (st.calls lib s)).HasMetadata lib) ∧
    (Store.after [] lib steps).HasMetadata lib ∧
    (∀ (t : Transition) (now : Time) (id initiator : Bytes),
      (t.run (Store.after [] lib steps).conn lib now id initiator).err
        ≠ some Error.NilDereference) := by
  have hempty : Store.HasMetadata [] lib := by
    intro c hc
    simp at hc
  have hafter := hempty.after_steps hrt steps
  refine ⟨?_, ?_, ?_, fun s st h => h.after_step hrt st, hafter, ?_⟩
  · intro conn now req x hx hname
    exact (StoreMembershipRequest_blob conn lib now req hrt x hx hname).2
  · intro conn now id data x hx hname
    exact (StoreMembershipAgreement_blob conn lib now id data hrt x hx hname).2
  · intro t conn now id initiator x hx
    exact (t.run_blob conn lib now id initiator hrt x hx).2
  · intro t now id initiator
    rw [Transition.run_eq]
    exact moveRecordToTable_no_nil hafter now id initiator _ _ _ _ _

set_option maxRecDepth 100000 in
theorem metadata_is_never_absent_witness :
    refLib.RoundTrip ∧
    (Store.after [] refLib adaSteps).map (fun c => (c.family, c.column.Name))
      = [(str "membership_queue", str "pb_data")] ∧
    (Transition.QueuedRecordToTrash.run (Store.after [] refLib adaSteps).conn refLib time3
      (hexEncodeToString uuid1) (str "admin2")).err = none ∧
    (Transition.ApplicantToTrash.run (Store.after [] refLib adaSteps).conn refLib time3
      (hexEncodeToString uuid1) (str "admin2")).err ≠ some Error.NilDereference :=
  have h := metadata_is_never_absent refLib adaSteps refLib_exact.roundTrip
  ⟨refLib_exact.roundTrip, by decide, by decide,
    h.2.2.2.2.2 Transition.ApplicantToTrash time3 (hexEncodeToString uuid1) (str "admin2")⟩

/-- C24: a successful update writes the rewritten blob under `memberPrefix` +
id to both families `members` and `member_agreements`.  Every mutation
`MoveMemberToTrash` issues, for every id, is in `members` or
`membership_dequeue`, none in `member_agreements`; so what the store holds as
`pb_data` of the member in `member_agreements` is still read after the call.
The batch of a successful move holds the deletion in `members`, the record
under `dequeuePrefix` + the generated UUID, and also the key `dequeuePrefix` +
id, with an empty mutation map (for an id that is not the generated UUID
itself). -/
theorem member_trash_keeps_the_agreement (s : Store) (lib : Lib) (now : Time)
    (id initiator reason : Bytes)
    (hok : (MoveMemberToTrash s.conn lib now id initiator reason).err = none) :
    (∀ (u : Update) (conn : Conn) (now1 : Time) (id1 : Bytes),
      (u.run conn lib now1 id1).err = none →
      ∃ (pb : Column) (data : List Mutation),
        (u.run conn lib now1 id1).calls =
          [Call.Get (memberPrefix ++ id1) ⟨str "members", str "pb_data"⟩ ConsistencyLevel.ONE,
           Call.AtomicBatchMutate
             [(memberPrefix ++ id1,
                [(str "members", ⟨some pb, none⟩ :: data),
                 (str "member_agreements", [⟨some pb, none⟩])])]
             ConsistencyLevel.QUORUM]) ∧
    (∀ (conn : Conn) (id1 : Bytes),
      ∀ mmap ∈ mutationMaps (MoveMemberToTrash conn lib now id1 initiator reason).calls,
        ∀ x ∈ mmap.mutations, x.2.1 ≠ str "member_agreements") ∧
    (∀ c, s.Get (memberPrefix ++ id) ⟨str "member_agreements", str "pb_data"⟩ = .ok c →
      (s.applyCalls (MoveMemberToTrash s.conn lib now id initiator reason).calls).Get
        (memberPrefix ++ id) ⟨str "member_agreements", str "pb_data"⟩ = .ok c) ∧
    (∃ (uuid : Bytes) (mmap : MutationMap) (del : Deletion) (col : Column),
      lib.GenTimeUUID now = some uuid ∧
      mutationMaps (MoveMemberToTrash s.conn lib now id initiator reason).calls = [mmap] ∧
      deletions (MoveMemberToTrash s.conn lib now id initiator reason).calls
        = [(memberPrefix ++ id, str "members", del)] ∧
      insertions (MoveMemberToTrash s.conn lib now id initiator reason).calls
        = [(dequeuePrefix ++ uuid, str "membership_dequeue", col)] ∧
      (id ≠ uuid → mapGet mmap (dequeuePrefix ++ id) = some [] ∧
        mmap.map Prod.fst = [memberPrefix ++ id, dequeuePrefix ++ id, dequeuePrefix ++ uuid])) := by
  refine ⟨fun u conn now1 id1 h => Update.run_issues_both h, ?_, ?_, ?_⟩
  · intro conn id1 mmap hm x hx
    by_cases hnone : mutationMaps (MoveMemberToTrash conn lib now id1 initiator reason).calls = []
    · rw [hnone] at hm
      simp at hm
    · obtain ⟨uuid, cos, member, md, value, -, -, -, -, -, hcalls⟩ :=
        MoveMemberToTrash_issued hnone
      rw [hcalls, mutationMaps_get_batch, List.mem_singleton] at hm
      subst hm
      split at hx <;>
        simp only [MutationMap.mutations, List.flatMap_cons, List.flatMap_nil, List.map_cons,
          List.map_nil, List.append_nil, List.nil_append, List.cons_append, List.mem_cons,
          List.not_mem_nil, or_false] at hx <;>
        rcases hx with rfl | rfl <;> dsimp only <;> decide
  · intro c hc
    obtain ⟨uuid, cos, member, md, value, -, -, -, -, -, hcalls⟩ := MoveMemberToTrash_ok hok
    rw [hcalls, Store.applyCalls_trash,
      Store.Get_insert_other _ _ _ _ _ _ (by
        intro h
        exact member_ne_dequeue id uuid h.1.symm),
      Store.Get_delete_family _ _ _ _ _ _ (by decide)]
    exact hc
  · obtain ⟨uuid, cos, member, md, value, hgen, -, -, -, -, hcalls⟩ := MoveMemberToTrash_ok hok
    obtain ⟨hins, hdel⟩ := trash_batch_mutations id uuid ⟨cos.Timestamp, some allColumns⟩
      ⟨str "pb_data", value, some now.UnixNano, none⟩
    rw [hcalls]
    refine ⟨uuid, _, ⟨cos.Timestamp, some allColumns⟩,
      ⟨str "pb_data", value, some now.UnixNano, none⟩, hgen, mutationMaps_get_batch _ _ _ _ _,
      hdel, hins, ?_⟩
    intro hid
    have h1 : memberPrefix ++ id ≠ dequeuePrefix ++ id := member_ne_dequeue id id
    simp [hid, mapGet, h1]

theorem member_trash_keeps_the_agreement_witness :
    (MoveMemberToTrash agreedStore.conn refLib time3 (str "ada") (str "admin1")
      (str "left")).err = none ∧
    (agreedStore.applyCalls (MoveMemberToTrash agreedStore.conn refLib time3 (str "ada")
      (str "admin1") (str "left")).calls).Get (memberPrefix ++ str "ada")
        ⟨str "member_agreements", str "pb_data"⟩
      = .ok ⟨str "pb_data", sampleBlob, some 1000000000, none⟩ ∧
    (agreedStore.applyCalls (MoveMemberToTrash agreedStore.conn refLib time3 (str "ada")
      (str "admin1") (str "left")).calls).Get (memberPrefix ++ str "ada")
        ⟨str "members", str "pb_data"⟩
      = .error StoreError.NotFound :=
  have h := member_trash_keeps_the_agreement agreedStore refLib time3 (str "ada")
    (str "admin1") (str "left") (by decide)
  ⟨by decide, h.2.2.1 _ (by rfl), by rfl⟩

/-- C25: for a member record that is read and decoded, with member data, an
encoding that succeeds and a store that accepts the batch:
`SetTextValue(id, "username", value)` fails if and only if the stored username
is present and not empty, whatever the value supplied; then it fails with
"Cannot modify user name" and issues no mutation, also when the supplied value
is the stored username itself; and when the stored username is absent or empty
it succeeds and writes the username column and the blob with the username set
to the supplied value. -/
theorem username_guard_ignores_the_value (conn : Conn) (lib : Lib) (now : Time)
    (id value : Bytes) (r : Column) (member : MembershipAgreement) (md : Member)
    (hget : conn.Get (memberPrefix ++ id) ⟨str "members", str "pb_data"⟩ ConsistencyLevel.ONE
      = .ok r)
    (hum : lib.Unmarshal r.Value = (member, none))
    (hmd : member.MemberData = some md)
    (hmar : ∀ v, lib.Marshal { member with MemberData := some { md with Username := some v } }
      ≠ none)
    (hbatch : ∀ mmap, conn.AtomicBatchMutate mmap ConsistencyLevel.QUORUM = none) :
    ((SetTextValue conn lib now id (str "username") value).err ≠ none ↔
      ∃ name, md.Username = some name ∧ name ≠ []) ∧
    (∀ name, md.Username = some name → name ≠ [] →
      (SetTextValue conn lib now id (str "username") value).err
        = some Error.CannotModifyUserName ∧
      (SetTextValue conn lib now id (str "username") name).err
        = some Error.CannotModifyUserName ∧
      mutationMaps (SetTextValue conn lib now id (str "username") name).calls = []) ∧
    (md.Username = none ∨ md.Username = some [] →
      ∃ pb, lib.Marshal { member with MemberData := some { md with Username := some value } }
          = some pb ∧
        (SetTextValue conn lib now id (str "username") value).err = none ∧
        (SetTextValue conn lib now id (str "username") value).calls =
          [Call.Get (memberPrefix ++ id) ⟨str "members", str "pb_data"⟩ ConsistencyLevel.ONE,
           Call.AtomicBatchMutate
             [(memberPrefix ++ id,
                [(str "members",
                    [⟨some { r with Value := pb, Timestamp := some now.UnixNano }, none⟩,
                     ⟨some ⟨str "username", value, some now.UnixNano, none⟩, none⟩]),
                 (str "member_agreements",
                    [⟨some { r with Value := pb, Timestamp := some now.UnixNano }, none⟩])])]
             ConsistencyLevel.QUORUM]) := by
  have hrefused : ∀ (name v : Bytes), md.Username = some name → name ≠ [] →
      (SetTextValue conn lib now id (str "username") v).err = some Error.CannotModifyUserName ∧
      mutationMaps (SetTextValue conn lib now id (str "username") v).calls = [] := by
    intro name v hname hne
    rw [SetTextValue_eq]
    unfold updateWith
    simp [hget, hum, setTextField_username_refused v hmd hname hne, mutationMaps]
  have haccepted : md.Username = none ∨ md.Username = some [] →
      ∃ pb, lib.Marshal { member with MemberData := some { md with Username := some value } }
          = some pb ∧
        (SetTextValue conn lib now id (str "username") value).err = none ∧
        (SetTextValue conn lib now id (str "username") value).calls =
          [Call.Get (memberPrefix ++ id) ⟨str "members", str "pb_data"⟩ ConsistencyLevel.ONE,
           Call.AtomicBatchMutate
             [(memberPrefix ++ id,
                [(str "members",
                    [⟨some { r with Value := pb, Timestamp := some now.UnixNano }, none⟩,
                     ⟨some ⟨str "username", value, some now.UnixNano, none⟩, none⟩]),
                 (str "member_agreements",
                    [⟨some { r with Value := pb, Timestamp := some now.UnixNano }, none⟩])])]
             ConsistencyLevel.QUORUM] := by
    intro h
    cases hpb : lib.Marshal
        { member with MemberData := some { md with Username := some value } } with
    | none => exact absurd hpb (hmar value)
    | some pb =>
      refine ⟨pb, rfl, ?_, ?_⟩
      · rw [SetTextValue_eq]
        unfold updateWith
        simp [hget, hum, setTextField_username_accepted value hmd h, hpb, hbatch]
      · rw [SetTextValue_eq]
        unfold updateWith
        simp [hget, hum, setTextField_username_accepted value hmd h, hpb,
          newCassandraMutationString, newCassandraMutationBytes_eq]
  refine ⟨⟨?_, ?_⟩, ?_, haccepted⟩
  · intro herr
    cases hu : md.Username with
    | none =>
      obtain ⟨pb, -, hok, -⟩ := haccepted (Or.inl hu)
      exact absurd hok herr
    | some name =>
      by_cases hne : name = []
      · subst hne
        obtain ⟨pb, -, hok, -⟩ := haccepted (Or.inr hu)
        exact absurd hok herr
      · exact ⟨name, rfl, hne⟩
  · rintro ⟨name, hname, hne⟩
    rw [(hrefused name value hname hne).1]
    simp
  · intro name hname hne
    exact ⟨(hrefused name value hname hne).1, (hrefused name name hname hne).1,
      (hrefused name name hname hne).2⟩

theorem username_guard_ignores_the_value_witness :
    namedRecord.MemberData.bind (fun md => md.Username) = some (str "ada") ∧
    (SetTextValue namedStore.conn refLib time3 (str "ada") (str "username") (str "ada")).err
      = some Error.CannotModifyUserName ∧
    (SetTextValue unnamedStore.conn refLib time3 (str "ada") (str "username") (str "bob")).err
      = none := by
  have h := username_guard_ignores_the_value namedStore.conn refLib time3 (str "ada")
    (str "ada") ⟨str "pb_data", encodeFields namedRecord.toFields, some 1000000000, none⟩
    namedRecord { Name := some (str "Ada"), Username := some (str "ada") }
    (by rfl) (by decide) rfl (by intro v; simp [refLib]) (by intro mmap; rfl)
  exact ⟨by decide, (h.2.1 (str "ada") rfl (by decide)).1, by decide⟩

end membersys
